import Mathlib

/-!
# Macro interpolation of `pkg/macros.go`

A shallow embedding of `InterpolateMacros` together with the parts of the Go
standard library it calls (`regexp`, `strings`, `fmt`), and theorems about the
expansion of the four Grafana macros.

A Go string is modelled by the list of its runes (well-formed UTF-8 text).
-/

namespace Macros

/-- Text: a Go string seen as the sequence of its runes. -/
abbrev Str := List Char

/-! ## Regular expressions (the fragment of `regexp/syntax` used by the source) -/

/-- Abstract form of a parsed pattern. -/
inductive Re where
  /-- one literal rune, such as an escaped dollar sign -/
  | lit (c : Char)
  /-- a character class, given by its membership test -/
  | cls (p : Char → Bool)
  /-- concatenation -/
  | cat (a b : Re)
  /-- greedy repetition, zero or more times -/
  | star (a : Re)
  /-- greedy repetition, one or more times -/
  | plus (a : Re)
  /-- greedy option -/
  | quest (a : Re)
  /-- capturing group with its index -/
  | cap (n : Nat) (a : Re)
  /-- non-capturing empty pattern -/
  | emp

/-- Capture registers: the most recent binding of a group comes first. -/
abbrev Caps := List (Nat × Str)

/-- Outcome of a match attempt: the unread input and the captures. -/
abbrev Res := Option (Str × Caps)

/-- What remains to be matched after a sub-pattern. -/
abbrev Cont := Str → Caps → Res

/-- Text bound to group `n`; a group that took no part in the match reads as empty. -/
def getCap (c : Caps) (n : Nat) : Str :=
  match c with
  | [] => []
  | (m, v) :: r => if m = n then v else getCap r n

/-- Greedy loop of `star`: one more iteration is preferred to leaving the loop,
and an iteration that reads nothing is not repeated. Every iteration reads at
least one rune, so a number of rounds equal to the length of the input is
never used up (`starLoop_fuel`). -/
def starLoop (step : Str → Caps → Cont → Res) : Nat → Str → Caps → Cont → Res
  | 0, s, c, k => k s c
  | n + 1, s, c, k =>
    match step s c (fun s' c' => if s'.length < s.length then starLoop step n s' c' k else none) with
    | some r => some r
    | none => k s c

/-- Backtracking matcher in continuation style. The alternatives are tried in the
priority order of a leftmost-first engine, so the first success is the match
that `regexp` reports at this position. -/
def Re.run : Re → Str → Caps → Cont → Res
  | .lit a, s, c, k =>
    match s with
    | x :: t => if x = a then k t c else none
    | [] => none
  | .cls p, s, c, k =>
    match s with
    | x :: t => if p x then k t c else none
    | [] => none
  | .cat a b, s, c, k => a.run s c (fun s' c' => b.run s' c' k)
  | .star a, s, c, k => starLoop a.run s.length s c k
  | .plus a, s, c, k => a.run s c (fun s' c' => starLoop a.run s'.length s' c' k)
  | .quest a, s, c, k =>
    match a.run s c k with
    | some r => some r
    | none => k s c
  | .cap n a, s, c, k =>
    a.run s c (fun s' c' => k s' ((n, s.take (s.length - s'.length)) :: c'))
  | .emp, s, c, k => k s c

/-- Concatenation of a list of patterns. -/
def Re.seq : List Re → Re
  | [] => .emp
  | [a] => a
  | a :: r => .cat a (Re.seq r)

/-- Literal text. -/
def Re.str (l : Str) : Re := Re.seq (l.map Re.lit)

/-- A compiled pattern: its syntax tree and the number of capturing groups. -/
structure Regexp where
  re : Re
  numSubexp : Nat

/-- Match attempt anchored at the start of `s`. -/
def Regexp.matchAt (r : Regexp) (s : Str) : Res :=
  r.re.run s [] (fun s' c' => some (s', c'))

/-- Texts of the groups `1 .. numSubexp`. -/
def Regexp.groups (r : Regexp) (c : Caps) : List Str :=
  (List.range r.numSubexp).map (fun i => getCap c (i + 1))

/-- `FindStringSubmatch`: the leftmost match and its groups, or the nil slice `[]`. -/
def Regexp.FindStringSubmatch (r : Regexp) : Str → List Str
  | [] =>
    match r.matchAt [] with
    | some (_, c) => [] :: r.groups c
    | none => []
  | x :: t =>
    match r.matchAt (x :: t) with
    | some (rest, c) => (x :: t).take ((x :: t).length - rest.length) :: r.groups c
    | none => r.FindStringSubmatch t

/-- Loop of `replaceAll`. `after` tells that a match ended at the current position;
an empty match found there is not replaced a second time. Each round reads at
least one rune, so `fuel` greater than the length of the input never runs out. -/
def Regexp.replaceLoop (r : Regexp) (repl : Str → Caps → Str) : Nat → Bool → Str → Str
  | 0, _, s => s
  | n + 1, after, s =>
    match r.matchAt s with
    | some (rest, c) =>
      if rest.length < s.length then
        repl (s.take (s.length - rest.length)) c ++ r.replaceLoop repl n true rest
      else
        (if after then [] else repl [] c) ++
          (match s with
           | [] => []
           | x :: t => x :: r.replaceLoop repl n false t)
    | none =>
      match s with
      | [] => []
      | x :: t => x :: r.replaceLoop repl n false t

/-- Run of `replaceAll` over a whole text. -/
def Regexp.replaceAll (r : Regexp) (repl : Str → Caps → Str) (after : Bool) (s : Str) : Str :=
  r.replaceLoop repl (s.length + 1) after s

/-- Runes allowed in a group name of a replacement template. -/
def isNameRune (x : Char) : Bool := x.isAlphanum || x == '_'

/-- Value of a group name made of decimal digits: at most nine of them and no
leading zero; any other name is not a number. -/
def groupIndex (name : Str) : Option Nat :=
  if name.all Char.isDigit && !name.isEmpty && decide (name.length ≤ 9) &&
      !(name.head? == some '0' && decide (1 < name.length)) then
    some (name.foldl (fun n d => 10 * n + (d.toNat - '0'.toNat)) 0)
  else none

/-- Template expansion of `Regexp.expand`, for ASCII templates without braces:
`$$` is a dollar sign, `$name` takes the longest run of letters, digits and
underscores as the name, a numeric name refers to the group of that index (the
pattern has no named group, so any other name expands to nothing), and a dollar
sign that no name follows is kept as text. -/
def expand (c : Caps) : Nat → Str → Str
  | 0, t => t
  | _ + 1, [] => []
  | n + 1, x :: t =>
    if x = '$' then
      if t.head? = some '$' then '$' :: expand c n t.tail
      else if (t.takeWhile isNameRune).isEmpty then '$' :: expand c n t
      else
        (match groupIndex (t.takeWhile isNameRune) with
         | some i => getCap c i
         | none => []) ++ expand c n (t.dropWhile isNameRune)
    else x :: expand c n t

/-- `ReplaceAllString`: every match is replaced by the expanded template. -/
def Regexp.ReplaceAllString (r : Regexp) (src repl : Str) : Str :=
  r.replaceAll (fun _ c => expand c (repl.length + 1) repl) false src

/-- `ReplaceAllStringFunc`: every match is replaced by `repl` applied to the matched text. -/
def Regexp.ReplaceAllStringFunc (r : Regexp) (src : Str) (repl : Str → Str) : Str :=
  r.replaceAll (fun m _ => repl m) false src

/-! ## `strings` and `fmt` -/

/-- White space of `unicode.IsSpace`, which `strings.TrimSpace` removes. -/
def isSpace (x : Char) : Bool :=
  x == '\t' || x == '\n' || x == '\x0b' || x == '\x0c' || x == '\r' || x == ' ' ||
  x == '\u0085' || x == '\u00a0' || x == '\u1680' ||
  (0x2000 ≤ x.toNat && x.toNat ≤ 0x200a) ||
  x == '\u2028' || x == '\u2029' || x == '\u202f' || x == '\u205f' || x == '\u3000'

/-- `strings.TrimSpace`. -/
def TrimSpace (s : Str) : Str :=
  ((s.dropWhile isSpace).reverse.dropWhile isSpace).reverse

/-- Lower case of one rune as far as `unicode.ToLower` can produce an ASCII
letter: the Latin capitals, the dotted capital I (U+0130) and the Kelvin sign
(U+212A). Every other rune has a non-ASCII image and is kept as it is, which
does not change a comparison with ASCII text. -/
def toLowerRune (x : Char) : Char :=
  if 'A'.toNat ≤ x.toNat ∧ x.toNat ≤ 'Z'.toNat then Char.ofNat (x.toNat + 32)
  else if x = '\u0130' then 'i'
  else if x = '\u212a' then 'k'
  else x

/-- `strings.ToLower`. -/
def ToLower (s : Str) : Str := s.map toLowerRune

/-- The verb `%d` of `fmt.Sprintf` at an integer: signed decimal digits. -/
def fmtInt (i : Int) : Str :=
  match i with
  | .ofNat n => Nat.toDigits 10 n
  | .negSucc n => '-' :: Nat.toDigits 10 (n + 1)

/-! ## The four patterns -/

/-- The class `\s` of `regexp`: tab, newline, form feed, carriage return, space. -/
def reSpace (x : Char) : Bool :=
  x == '\t' || x == '\n' || x == '\x0c' || x == '\r' || x == ' '

/-- A negated one-rune class such as `[^)]`. -/
def notRune (a : Char) (x : Char) : Bool := x != a

/-- The pattern `\$__time\(([^)]+)\)`. -/
def timeReg : Regexp where
  re := Re.seq [Re.str "$__time(".toList, .cap 1 (.plus (.cls (notRune ')'))), .lit ')']
  numSubexp := 1

/-- The pattern `\$__timeFilter\(([^)]+)\)`. -/
def timeFilterReg : Regexp where
  re := Re.seq [Re.str "$__timeFilter(".toList, .cap 1 (.plus (.cls (notRune ')'))), .lit ')']
  numSubexp := 1

/-- The pattern `\$__timeGroup\(\s*([^,]+)\s*,\s*'([^']+)'(?:\s*,\s*([^)]+))?\s*\)`. -/
def timeGroupReg : Regexp where
  re := Re.seq [Re.str "$__timeGroup(".toList, .star (.cls reSpace),
    .cap 1 (.plus (.cls (notRune ','))), .star (.cls reSpace), .lit ',',
    .star (.cls reSpace), .lit '\'', .cap 2 (.plus (.cls (notRune '\''))), .lit '\'',
    .quest (Re.seq [.star (.cls reSpace), .lit ',', .star (.cls reSpace),
      .cap 3 (.plus (.cls (notRune ')')))]),
    .star (.cls reSpace), .lit ')']
  numSubexp := 3

/-- The pattern `\$__timeGroupAlias\(\s*([^,]+)\s*,\s*'([^']+)'\s*\)`. -/
def timeGroupAliasReg : Regexp where
  re := Re.seq [Re.str "$__timeGroupAlias(".toList, .star (.cls reSpace),
    .cap 1 (.plus (.cls (notRune ','))), .star (.cls reSpace), .lit ',',
    .star (.cls reSpace), .lit '\'', .cap 2 (.plus (.cls (notRune '\''))), .lit '\'',
    .star (.cls reSpace), .lit ')']
  numSubexp := 2

/-! ## `InterpolateMacros` -/

/-- Callback of the `$__timeFilter` pass. -/
def timeFilterRepl (from_ to_ : Int) (m : Str) : Str :=
  let parts := timeFilterReg.FindStringSubmatch m
  if parts.length = 2 then
    let col := parts.getD 1 []
    col ++ " >= ".toList ++ fmtInt from_ ++ " AND ".toList ++ col ++ " < ".toList ++ fmtInt to_
  else m

/-- Callback of the `$__timeGroup` pass. -/
def timeGroupRepl (m : Str) : Str :=
  let parts := timeGroupReg.FindStringSubmatch m
  if parts.length < 3 then m
  else
    let col := parts.getD 1 []
    let interval := parts.getD 2 []
    let fill := if parts.length > 3 ∧ parts.getD 3 [] ≠ [] then TrimSpace (parts.getD 3 []) else "0".toList
    let slsFill :=
      if ToLower fill = "null".toList then "'null'".toList
      else if ToLower fill = "previous".toList then "'last'".toList
      else if ToLower fill = "0".toList then "'0'".toList
      else "'".toList ++ fill ++ "'".toList
    "time_series(".toList ++ col ++ ", '".toList ++ interval ++
      "', '%Y-%m-%d %H:%i:%s', ".toList ++ slsFill ++ ")".toList

/-- Callback of the `$__timeGroupAlias` pass. -/
def timeGroupAliasRepl (m : Str) : Str :=
  let parts := timeGroupAliasReg.FindStringSubmatch m
  if parts.length < 3 then m
  else
    let col := parts.getD 1 []
    let interval := parts.getD 2 []
    "time_series(".toList ++ col ++ ", '".toList ++ interval ++
      "', '%Y-%m-%d %H:%i:%s', '0') as time".toList

/-- The function `InterpolateMacros` of `pkg/macros.go`: four replacement passes
in a row. The bounds are `int64` in the source; they are only printed, never
computed with, and are integers here. -/
def InterpolateMacros (query : Str) (from_ to_ : Int) : Str :=
  let query := timeReg.ReplaceAllString query "to_unixtime($1) as time".toList
  let query := timeFilterReg.ReplaceAllStringFunc query (timeFilterRepl from_ to_)
  let query := timeGroupReg.ReplaceAllStringFunc query timeGroupRepl
  let query := timeGroupAliasReg.ReplaceAllStringFunc query timeGroupAliasRepl
  query

/-! ## Predicates and texts used in the statements -/

/-- Every rune of every bound text satisfies `P`. -/
def CapsAll (P : Char → Prop) (c : Caps) : Prop := ∀ q ∈ c, ∀ x ∈ q.2, P x

/-- A pattern that matches only at a dollar sign, and then reads it. -/
def Dollar (r : Regexp) : Prop :=
  ∀ (s rest : Str) (c : Caps), r.matchAt s = some (rest, c) → ∃ t, s = '$' :: t ∧ rest <:+ t

/-- The text that the `$__timeGroup` callback builds from its three pieces. -/
def timeSeries (col interval slsFill : Str) : Str :=
  "time_series(".toList ++ (col ++ (", '".toList ++ (interval ++
    ("', '%Y-%m-%d %H:%i:%s', ".toList ++ (slsFill ++ ")".toList)))))

/-- No white space, in the sense of `unicode.IsSpace`, at either end of a text. -/
def Trimmed (s : Str) : Prop :=
  (∀ x ∈ s.head?, isSpace x = false) ∧ (∀ x ∈ s.getLast?, isSpace x = false)

instance (s : Str) : Decidable (Trimmed s) := by
  unfold Trimmed
  infer_instance

/-- The text `f` spells `kw` up to the ASCII case of its letters: every rune of
`f` is the rune of `kw` at its place or the ASCII capital of that rune. -/
def CaseVariant (f kw : Str) : Prop :=
  List.Forall₂ (fun x y => x = y ∨ x = y.toUpper) f kw

/-- The recognised fill keywords with the literal emitted for each. -/
def fillKeywords : List (Str × Str) :=
  [("null".toList, "'null'".toList), ("previous".toList, "'last'".toList),
    ("0".toList, "'0'".toList)]

/-- What the handling of a fill text needs to know about one rune. -/
def FillRune (y x : Char) : Prop :=
  toLowerRune x = y ∧ x ≠ '$' ∧ x ≠ ')' ∧ isSpace x = false

instance (y x : Char) : Decidable (FillRune y x) := by
  unfold FillRune
  infer_instance

/-- A bare column token: not empty, and free of the dollar sign, the comma, the
parentheses, the single quote and white space. -/
def Token (c : Str) : Prop :=
  c ≠ [] ∧ ∀ x ∈ c, x ≠ '$' ∧ x ≠ ',' ∧ x ≠ '(' ∧ x ≠ ')' ∧ x ≠ '\'' ∧ isSpace x = false

instance (c : Str) : Decidable (Token c) := by
  unfold Token
  infer_instance

/-- The text that the `$__timeFilter` callback builds. -/
def timeRange (col : Str) (from_ to_ : Int) : Str :=
  col ++ (" >= ".toList ++ (fmtInt from_ ++ (" AND ".toList ++ (col ++ (" < ".toList ++
    fmtInt to_)))))

/-! ## The passes, and predicates on queries -/

/-- Two continuations of which the second fails where the first fails and
answers `r2` where the first answers `r1`. -/
def Follows (r1 r2 : Str × Caps) (k1 k2 : Cont) : Prop :=
  (∀ s c, k1 s c = none → k2 s c = none) ∧ (∀ s c, k1 s c = some r1 → k2 s c = some r2)

/-- The replacement of the `$__time` pass. -/
def timeRepl : Str → Caps → Str :=
  fun _ c => expand c ("to_unixtime($1) as time".toList.length + 1) "to_unixtime($1) as time".toList

/-- A text none of whose ends can be the start of the text `to…`. -/
def NoTo (v : Str) : Prop :=
  ∀ v2 ∈ v.tails, v2 ≠ [] → ¬ v2 <+: ['t', 'o'] ∧ ¬ ['t', 'o'] <+: v2

instance (v : Str) : Decidable (NoTo v) := by
  unfold NoTo
  infer_instance

/-- The four replacement passes of `InterpolateMacros`. -/
inductive Pass where
  | time
  | timeFilter
  | timeGroup
  | timeGroupAlias
  deriving DecidableEq

/-- The pattern of a pass. -/
def Pass.reg : Pass → Regexp
  | .time => timeReg
  | .timeFilter => timeFilterReg
  | .timeGroup => timeGroupReg
  | .timeGroupAlias => timeGroupAliasReg

/-- The literal text that starts the pattern of a pass. -/
def Pass.lead : Pass → Str
  | .time => "$__time(".toList
  | .timeFilter => "$__timeFilter(".toList
  | .timeGroup => "$__timeGroup(".toList
  | .timeGroupAlias => "$__timeGroupAlias(".toList

/-- The replacement of a pass, as `replaceAll` calls it. -/
def Pass.repl (from_ to_ : Int) : Pass → Str → Caps → Str
  | .time => timeRepl
  | .timeFilter => fun m _ => timeFilterRepl from_ to_ m
  | .timeGroup => fun m _ => timeGroupRepl m
  | .timeGroupAlias => fun m _ => timeGroupAliasRepl m

/-- One pass of `InterpolateMacros`, as a function on texts. -/
def runPass (from_ to_ : Int) : Pass → Str → Str
  | .time, q => timeReg.ReplaceAllString q "to_unixtime($1) as time".toList
  | .timeFilter, q => timeFilterReg.ReplaceAllStringFunc q (timeFilterRepl from_ to_)
  | .timeGroup, q => timeGroupReg.ReplaceAllStringFunc q timeGroupRepl
  | .timeGroupAlias, q => timeGroupAliasReg.ReplaceAllStringFunc q timeGroupAliasRepl

/-- Passes run one after the other, the first of the list first. -/
def runPasses (from_ to_ : Int) (l : List Pass) (q : Str) : Str :=
  l.foldl (fun acc p => runPass from_ to_ p acc) q

/-- The order of the passes in the source. -/
def sourceOrder : List Pass := [.time, .timeFilter, .timeGroup, .timeGroupAlias]

/-- The fill literal that the `$__timeGroup` callback derives from group 3. -/
def slsFill (g : Str) : Str :=
  let fill := if g ≠ [] then TrimSpace g else "0".toList
  if ToLower fill = "null".toList then "'null'".toList
  else if ToLower fill = "previous".toList then "'last'".toList
  else if ToLower fill = "0".toList then "'0'".toList
  else "'".toList ++ fill ++ "'".toList

/-- The pattern of pass `p`, started at a dollar sign in front of `s`, does the
same whatever text follows `s`: it fails, or it matches up to the same place
inside `s` and binds the same texts. -/
def Local (p : Pass) (s : Str) : Prop :=
  (∀ z : Str, p.reg.matchAt ('$' :: (s ++ z)) = none) ∨
  ∃ (w : Str) (c : Caps), ∀ z : Str, p.reg.matchAt ('$' :: (s ++ z)) = some (w ++ z, c)

/-- A piece of a query: text without a dollar sign, or a dollar sign in front
of text without one, at which every pattern is local. -/
def Piece (u : Str) : Prop :=
  '$' ∉ u ∨ ∃ s : Str, u = '$' :: s ∧ '$' ∉ s ∧ ∀ p : Pass, Local p s

/-- A query on which the passes do not interfere: one with at most one dollar
sign, or one made of pieces. -/
def Separable (q : Str) : Prop :=
  q.count '$' ≤ 1 ∨ ∃ pieces : List Str, q = pieces.flatten ∧ ∀ u ∈ pieces, Piece u

/-- The end of a well-formed argument list of `$__timeGroup` behind the
interval: white space and `)`, or white space, a comma, a non-empty fill text
without `)`, and `)`; any text may follow. -/
def Closes (t : Str) : Prop :=
  ∃ w g u : Str, (∀ x ∈ w, reSpace x = true) ∧ ')' ∉ g ∧
    (t = w ++ ')' :: u ∨ (g ≠ [] ∧ t = w ++ ',' :: (g ++ ')' :: u)))

/-- A text that completes the argument list of a `$__timeGroup` invocation
closed too early: behind its first comma come white space, a non-empty
interval in single quotes, and the end of a well-formed argument list. -/
def Completes (s : Str) : Prop :=
  ∃ a w i t : Str, s = a ++ ',' :: (w ++ '\'' :: (i ++ '\'' :: t)) ∧ ',' ∉ a ∧
    (∀ x ∈ w, reSpace x = true) ∧ i ≠ [] ∧ '\'' ∉ i ∧ Closes t

/-! ## The matcher -/

theorem seq_cons_run (a : Re) (r : List Re) (s : Str) (c : Caps) (k : Cont) :
    (Re.seq (a :: r)).run s c k = a.run s c (fun s' c' => (Re.seq r).run s' c' k) := by
  cases r <;> rfl

theorem lit_run_cons (a x : Char) (t : Str) (c : Caps) (k : Cont) :
    (Re.lit a).run (x :: t) c k = if x = a then k t c else none := rfl

theorem lit_run_nil (a : Char) (c : Caps) (k : Cont) : (Re.lit a).run [] c k = none := rfl

theorem cls_run_cons (p : Char → Bool) (x : Char) (t : Str) (c : Caps) (k : Cont) :
    (Re.cls p).run (x :: t) c k = if p x then k t c else none := rfl

theorem cls_run_nil (p : Char → Bool) (c : Caps) (k : Cont) : (Re.cls p).run [] c k = none := rfl

/-- Literal text matches exactly when it starts the input. -/
theorem str_run (l : Str) : ∀ (s : Str) (c : Caps) (k : Cont),
    (Re.str l).run s c k = if l.isPrefixOf s then k (s.drop l.length) c else none := by
  induction l with
  | nil => intro s c k; simp [Re.str, Re.seq, Re.run]
  | cons a l ih =>
    intro s c k
    have h : Re.str (a :: l) = Re.seq (Re.lit a :: l.map Re.lit) := rfl
    rw [h, seq_cons_run]
    cases s with
    | nil => simp [Re.run]
    | cons x t =>
      have ih' := ih t c k
      simp only [Re.str] at ih'
      simp only [Re.run, ih', List.isPrefixOf, List.drop_succ_cons, List.length_cons]
      by_cases hx : x = a
      · subst hx; simp
      · have : (a == x) = false := by simpa using fun h => hx h.symm
        simp [hx, this]

/-- A greedy loop over a class reads a whole run of class members when the rest
of the pattern then succeeds. -/
theorem starLoop_cls (p : Char → Bool) : ∀ (a : Str) (n : Nat) (b : Str) (c : Caps) (k : Cont)
    (r : Str × Caps), a.length ≤ n → (∀ x ∈ a, p x = true) → (∀ x ∈ b.head?, p x = false) →
    k b c = some r → starLoop (Re.cls p).run n (a ++ b) c k = some r := by
  intro a
  induction a with
  | nil =>
    intro n b c k r _ _ hb hk
    cases n with
    | zero => simpa [starLoop] using hk
    | succ n =>
      cases b with
      | nil => simp [starLoop, cls_run_nil, hk]
      | cons y t =>
        have hy : p y = false := hb y (by simp)
        simp [starLoop, cls_run_cons, hy, hk]
  | cons x a ih =>
    intro n b c k r hn ha hb hk
    cases n with
    | zero => simp at hn
    | succ n =>
      have hx : p x = true := ha x (by simp)
      have h := ih n b c k r (by simpa using hn) (fun y hy => ha y (by simp [hy])) hb hk
      simp [starLoop, cls_run_cons, hx, h]

theorem star_cls_run (p : Char → Bool) (a b : Str) (c : Caps) (k : Cont) (r : Str × Caps)
    (ha : ∀ x ∈ a, p x = true) (hb : ∀ x ∈ b.head?, p x = false) (hk : k b c = some r) :
    (Re.star (Re.cls p)).run (a ++ b) c k = some r := by
  simp only [Re.run]
  exact starLoop_cls p a _ b c k r (by simp) ha hb hk

theorem plus_cls_run (p : Char → Bool) (a b : Str) (c : Caps) (k : Cont) (r : Str × Caps)
    (hne : a ≠ []) (ha : ∀ x ∈ a, p x = true) (hb : ∀ x ∈ b.head?, p x = false)
    (hk : k b c = some r) : (Re.plus (Re.cls p)).run (a ++ b) c k = some r := by
  cases a with
  | nil => exact absurd rfl hne
  | cons x a =>
    have hx : p x = true := ha x (by simp)
    rw [Re.run, List.cons_append, cls_run_cons]
    simp only [hx, if_true]
    exact starLoop_cls p a _ b c k r (by simp) (fun y hy => ha y (by simp [hy])) hb hk

/-- A group around a greedy class run binds the run. -/
theorem cap_plus_cls_run (n : Nat) (p : Char → Bool) (a b : Str) (c : Caps) (k : Cont)
    (r : Str × Caps) (hne : a ≠ []) (ha : ∀ x ∈ a, p x = true)
    (hb : ∀ x ∈ b.head?, p x = false) (hk : k b ((n, a) :: c) = some r) :
    (Re.cap n (Re.plus (Re.cls p))).run (a ++ b) c k = some r := by
  rw [Re.run]
  apply plus_cls_run p a b c _ r hne ha hb
  simpa using hk

theorem capsAll_nil (P : Char → Prop) : CapsAll P [] := by
  intro q hq; simp at hq

theorem starLoop_inv (P : Char → Prop) (step : Str → Caps → Cont → Res)
    (hstep : ∀ (s : Str) (c : Caps) (k : Cont) (r : Str × Caps), (∀ x ∈ s, P x) → CapsAll P c →
      step s c k = some r → ∃ s' c', s' <:+ s ∧ CapsAll P c' ∧ k s' c' = some r) :
    ∀ (n : Nat) (s : Str) (c : Caps) (k : Cont) (r : Str × Caps), (∀ x ∈ s, P x) → CapsAll P c →
      starLoop step n s c k = some r → ∃ s' c', s' <:+ s ∧ CapsAll P c' ∧ k s' c' = some r := by
  intro n
  induction n with
  | zero =>
    intro s c k r _ hc h
    exact ⟨s, c, List.suffix_refl s, hc, by simpa [starLoop] using h⟩
  | succ n ih =>
    intro s c k r hs hc h
    rw [starLoop] at h
    split at h
    · rename_i r' hr'
      cases h
      obtain ⟨s', c', hsuf, hc', hk⟩ := hstep s c _ r hs hc hr'
      by_cases hlt : s'.length < s.length
      · rw [if_pos hlt] at hk
        obtain ⟨s'', c'', hsuf', hc'', hk'⟩ :=
          ih s' c' k r (fun x hx => hs x (hsuf.subset hx)) hc' hk
        exact ⟨s'', c'', hsuf'.trans hsuf, hc'', hk'⟩
      · rw [if_neg hlt] at hk
        cases hk
    · exact ⟨s, c, List.suffix_refl s, hc, h⟩

/-- Whatever a pattern does, the rest of the match goes on at a suffix of the
input, and the bound texts are made of runes of the input. -/
theorem run_inv (P : Char → Prop) (e : Re) :
    ∀ (s : Str) (c : Caps) (k : Cont) (r : Str × Caps), (∀ x ∈ s, P x) → CapsAll P c →
      e.run s c k = some r → ∃ s' c', s' <:+ s ∧ CapsAll P c' ∧ k s' c' = some r := by
  induction e with
  | lit a =>
    intro s c k r _ hc h
    cases s with
    | nil => simp [lit_run_nil] at h
    | cons x t =>
      rw [lit_run_cons] at h
      split at h
      · exact ⟨t, c, List.suffix_cons x t, hc, h⟩
      · cases h
  | cls p =>
    intro s c k r _ hc h
    cases s with
    | nil => simp [cls_run_nil] at h
    | cons x t =>
      rw [cls_run_cons] at h
      split at h
      · exact ⟨t, c, List.suffix_cons x t, hc, h⟩
      · cases h
  | cat a b iha ihb =>
    intro s c k r hs hc h
    rw [Re.run] at h
    obtain ⟨s1, c1, hsuf1, hc1, h1⟩ := iha s c _ r hs hc h
    obtain ⟨s2, c2, hsuf2, hc2, h2⟩ := ihb s1 c1 k r (fun x hx => hs x (hsuf1.subset hx)) hc1 h1
    exact ⟨s2, c2, hsuf2.trans hsuf1, hc2, h2⟩
  | star a iha =>
    intro s c k r hs hc h
    rw [Re.run] at h
    exact starLoop_inv P a.run iha _ s c k r hs hc h
  | plus a iha =>
    intro s c k r hs hc h
    rw [Re.run] at h
    obtain ⟨s1, c1, hsuf1, hc1, h1⟩ := iha s c _ r hs hc h
    obtain ⟨s2, c2, hsuf2, hc2, h2⟩ :=
      starLoop_inv P a.run iha _ s1 c1 k r (fun x hx => hs x (hsuf1.subset hx)) hc1 h1
    exact ⟨s2, c2, hsuf2.trans hsuf1, hc2, h2⟩
  | quest a iha =>
    intro s c k r hs hc h
    rw [Re.run] at h
    split at h
    · rename_i r' hr'
      cases h
      exact iha s c k r hs hc hr'
    · exact ⟨s, c, List.suffix_refl s, hc, h⟩
  | cap n a iha =>
    intro s c k r hs hc h
    rw [Re.run] at h
    obtain ⟨s1, c1, hsuf1, hc1, h1⟩ := iha s c _ r hs hc h
    refine ⟨s1, _, hsuf1, ?_, h1⟩
    intro q hq x hx
    rcases List.mem_cons.1 hq with rfl | hq
    · exact hs x (List.mem_of_mem_take hx)
    · exact hc1 q hq x hx
  | emp =>
    intro s c k r _ hc h
    exact ⟨s, c, List.suffix_refl s, hc, h⟩

/-- A pattern cannot succeed when what follows it cannot. -/
theorem run_none_of_cont_none (e : Re) (s : Str) (c : Caps) :
    e.run s c (fun _ _ => none) = none := by
  cases h : e.run s c (fun _ _ => none) with
  | none => rfl
  | some r =>
    obtain ⟨_, _, _, _, hk⟩ :=
      run_inv (fun _ => True) e s c _ r (fun _ _ => trivial) (fun _ _ _ _ => trivial) h
    cases hk

/-- The loop of `star` never runs out of fuel: any amount that is at least the
length of the input gives the same result. -/
theorem starLoop_fuel (a : Re) : ∀ (n m : Nat) (s : Str) (c : Caps) (k : Cont),
    s.length ≤ n → s.length ≤ m → starLoop a.run n s c k = starLoop a.run m s c k := by
  have base : ∀ (m : Nat) (c : Caps) (k : Cont), starLoop a.run m [] c k = k [] c := by
    intro m c k
    cases m with
    | zero => rfl
    | succ m =>
      have hk : (fun (s' : Str) (c' : Caps) =>
          if s'.length < ([] : Str).length then starLoop a.run m s' c' k else none) =
          fun _ _ => none := by
        funext s' c'
        simp
      rw [starLoop, hk, run_none_of_cont_none]
  intro n
  induction n with
  | zero =>
    intro m s c k hn _
    have hs : s = [] := List.length_eq_zero.1 (Nat.le_zero.1 hn)
    subst hs
    rw [base, base]
  | succ n ih =>
    intro m s c k hn hm
    cases m with
    | zero =>
      have hs : s = [] := List.length_eq_zero.1 (Nat.le_zero.1 hm)
      subst hs
      rw [base, base]
    | succ m =>
      have hk : (fun (s' : Str) (c' : Caps) =>
          if s'.length < s.length then starLoop a.run n s' c' k else none) =
          fun s' c' => if s'.length < s.length then starLoop a.run m s' c' k else none := by
        funext s' c'
        by_cases hlt : s'.length < s.length
        · rw [if_pos hlt, if_pos hlt]
          exact ih m s' c' k (by omega) (by omega)
        · rw [if_neg hlt, if_neg hlt]
      rw [starLoop, starLoop, hk]

/-- A successful attempt leaves a suffix of the input unread. -/
theorem matchAt_suffix (r : Regexp) (s rest : Str) (c : Caps)
    (h : r.matchAt s = some (rest, c)) : rest <:+ s := by
  obtain ⟨s', c', hsuf, _, hk⟩ :=
    run_inv (fun _ => True) r.re s [] _ (rest, c) (fun _ _ => trivial) (capsAll_nil _) h
  simp only [Option.some.injEq, Prod.mk.injEq] at hk
  exact hk.1 ▸ hsuf

/-- The bound texts of a match are made of runes of the input. -/
theorem matchAt_capsAll (P : Char → Prop) (r : Regexp) (s rest : Str) (c : Caps)
    (hs : ∀ x ∈ s, P x) (h : r.matchAt s = some (rest, c)) : CapsAll P c := by
  obtain ⟨s', c', _, hc, hk⟩ := run_inv P r.re s [] _ (rest, c) hs (capsAll_nil _) h
  simp only [Option.some.injEq, Prod.mk.injEq] at hk
  exact hk.2 ▸ hc

/-! ## Replacement of all matches -/

theorem dollar_of_str (l : Str) (e : Re) (es : List Re) (n : Nat) :
    Dollar ⟨Re.seq (Re.str ('$' :: l) :: e :: es), n⟩ := by
  intro s rest c h
  simp only [Regexp.matchAt] at h
  rw [seq_cons_run, str_run] at h
  split at h
  · rename_i hp
    obtain ⟨u, rfl⟩ := List.isPrefixOf_iff_prefix.1 hp
    rw [List.drop_left] at h
    have hsuf := matchAt_suffix ⟨Re.seq (e :: es), n⟩ u rest c h
    exact ⟨l ++ u, rfl, hsuf.trans (List.suffix_append l u)⟩
  · cases h

theorem Dollar.lt {r : Regexp} (hd : Dollar r) {s rest : Str} {c : Caps}
    (h : r.matchAt s = some (rest, c)) : rest.length < s.length := by
  obtain ⟨t, rfl, hsuf⟩ := hd s rest c h
  have := hsuf.length_le
  simp only [List.length_cons]
  omega

theorem Dollar.none_nil {r : Regexp} (hd : Dollar r) : r.matchAt [] = none := by
  cases h : r.matchAt [] with
  | none => rfl
  | some q =>
    obtain ⟨t, ht, _⟩ := hd [] q.1 q.2 h
    cases ht

theorem Dollar.none_cons {r : Regexp} (hd : Dollar r) {x : Char} (t : Str) (hx : x ≠ '$') :
    r.matchAt (x :: t) = none := by
  cases h : r.matchAt (x :: t) with
  | none => rfl
  | some q =>
    obtain ⟨u, hu, _⟩ := hd (x :: t) q.1 q.2 h
    cases hu
    exact absurd rfl hx

/-- More fuel than the length of the text is as good as any other such amount. -/
theorem replaceLoop_fuel (r : Regexp) (repl : Str → Caps → Str) :
    ∀ (n m : Nat) (after : Bool) (s : Str), s.length < n → s.length < m →
      r.replaceLoop repl n after s = r.replaceLoop repl m after s := by
  intro n
  induction n with
  | zero => intro m after s hn; omega
  | succ n ih =>
    intro m after s hn hm
    cases m with
    | zero => omega
    | succ m =>
      simp only [Regexp.replaceLoop]
      cases hmatch : r.matchAt s with
      | none =>
        cases s with
        | nil => rfl
        | cons x t =>
          simp only [List.length_cons] at hn hm
          simp only
          rw [ih m false t (by omega) (by omega)]
      | some q =>
        obtain ⟨rest, c⟩ := q
        simp only
        by_cases hlt : rest.length < s.length
        · rw [if_pos hlt, if_pos hlt, ih m true rest (by omega) (by omega)]
        · rw [if_neg hlt, if_neg hlt]
          cases s with
          | nil => rfl
          | cons x t =>
            simp only [List.length_cons] at hn hm
            simp only
            rw [ih m false t (by omega) (by omega)]

theorem replaceAll_nil {r : Regexp} (hd : Dollar r) (repl : Str → Caps → Str) (after : Bool) :
    r.replaceAll repl after [] = [] := by
  simp [Regexp.replaceAll, Regexp.replaceLoop, hd.none_nil]

/-- Where the pattern does not match, one rune is copied and the scan goes on. -/
theorem replaceAll_cons_none (r : Regexp) (repl : Str → Caps → Str) (after : Bool) (x : Char)
    (t : Str) (h : r.matchAt (x :: t) = none) :
    r.replaceAll repl after (x :: t) = x :: r.replaceAll repl false t := by
  simp [Regexp.replaceAll, Regexp.replaceLoop, h]

/-- Where the pattern matches, the match is replaced and the scan goes on behind it. -/
theorem replaceAll_match {r : Regexp} (hd : Dollar r) (repl : Str → Caps → Str) (after : Bool)
    (s rest : Str) (c : Caps) (h : r.matchAt s = some (rest, c)) :
    r.replaceAll repl after s =
      repl (s.take (s.length - rest.length)) c ++ r.replaceAll repl true rest := by
  have hlt := hd.lt h
  have hstep : ∀ n : Nat, r.replaceLoop repl (n + 1) after s =
      repl (s.take (s.length - rest.length)) c ++ r.replaceLoop repl n true rest := by
    intro n
    simp only [Regexp.replaceLoop, h, if_pos hlt]
  simp only [Regexp.replaceAll]
  rw [hstep, replaceLoop_fuel r repl s.length (rest.length + 1) true rest hlt (by omega)]

/-- The flag plays no part for a pattern without empty matches. -/
theorem replaceAll_after {r : Regexp} (hd : Dollar r) (repl : Str → Caps → Str) (after : Bool)
    (s : Str) : r.replaceAll repl after s = r.replaceAll repl false s := by
  cases h : r.matchAt s with
  | none =>
    cases s with
    | nil => rw [replaceAll_nil hd, replaceAll_nil hd]
    | cons x t => rw [replaceAll_cons_none r repl after x t h, replaceAll_cons_none r repl false x t h]
  | some q =>
    obtain ⟨rest, c⟩ := q
    rw [replaceAll_match hd repl after s rest c h, replaceAll_match hd repl false s rest c h]

/-- Text without a dollar sign in front of the scan is copied. -/
theorem replaceAll_skip {r : Regexp} (hd : Dollar r) (repl : Str → Caps → Str) :
    ∀ (pre : Str) (after : Bool) (s : Str), '$' ∉ pre →
      r.replaceAll repl after (pre ++ s) = pre ++ r.replaceAll repl false s := by
  intro pre
  induction pre with
  | nil => intro after s _; exact replaceAll_after hd repl after s
  | cons x pre ih =>
    intro after s hp
    have hx : x ≠ '$' := fun h => hp (by simp [h])
    have hp' : '$' ∉ pre := fun h => hp (by simp [h])
    rw [List.cons_append, replaceAll_cons_none r repl after x _ (hd.none_cons _ hx), ih false s hp']
    rfl

/-- Text without a dollar sign is left as it is. -/
theorem replaceAll_plain {r : Regexp} (hd : Dollar r) (repl : Str → Caps → Str) (after : Bool)
    (s : Str) (hs : '$' ∉ s) : r.replaceAll repl after s = s := by
  have h := replaceAll_skip hd repl s after [] hs
  rw [List.append_nil, replaceAll_nil hd, List.append_nil] at h
  exact h

/-- A text whose only match is `m`, in front of text without a dollar sign. -/
theorem replaceAll_one {r : Regexp} (hd : Dollar r) (repl : Str → Caps → Str) (after : Bool)
    (m suf : Str) (c : Caps) (h : r.matchAt (m ++ suf) = some (suf, c)) (hs : '$' ∉ suf) :
    r.replaceAll repl after (m ++ suf) = repl m c ++ suf := by
  rw [replaceAll_match hd repl after _ suf c h, replaceAll_plain hd repl true suf hs]
  simp

theorem dollar_timeReg : Dollar timeReg := dollar_of_str "__time(".toList _ _ _

theorem dollar_timeFilterReg : Dollar timeFilterReg := dollar_of_str "__timeFilter(".toList _ _ _

theorem dollar_timeGroupReg : Dollar timeGroupReg := dollar_of_str "__timeGroup(".toList _ _ _

theorem dollar_timeGroupAliasReg : Dollar timeGroupAliasReg :=
  dollar_of_str "__timeGroupAlias(".toList _ _ _

/-! ## The patterns at work -/

theorem isPrefixOf_append_self (l t : Str) : l.isPrefixOf (l ++ t) = true :=
  List.isPrefixOf_iff_prefix.2 (List.prefix_append l t)

/-- Two texts that differ at some place stay different when one is extended. -/
theorem not_isPrefixOf_append (l m t : Str) (h1 : l.isPrefixOf m = false)
    (h2 : m.isPrefixOf l = false) : l.isPrefixOf (m ++ t) = false := by
  cases h : l.isPrefixOf (m ++ t) with
  | false => rfl
  | true =>
    have hl : l <+: m ++ t := List.isPrefixOf_iff_prefix.1 h
    rcases List.prefix_or_prefix_of_prefix hl (List.prefix_append m t) with h' | h'
    · rw [ List.isPrefixOf_iff_prefix.2 h'] at h1; cases h1
    · rw [ List.isPrefixOf_iff_prefix.2 h'] at h2; cases h2

/-- A pattern that starts with literal text fails where the text is absent. -/
theorem matchAt_none_of_not_isPrefixOf (l : Str) (e : Re) (es : List Re) (n : Nat) (s : Str)
    (h : l.isPrefixOf s = false) : Regexp.matchAt ⟨Re.seq (Re.str l :: e :: es), n⟩ s = none := by
  simp only [Regexp.matchAt]
  rw [seq_cons_run, str_run, h]
  rfl

/-- Without any match the text is copied. -/
theorem replaceAll_id_of_none (r : Regexp) (repl : Str → Caps → Str) :
    ∀ (s : Str) (after : Bool), (∀ t, t <:+ s → r.matchAt t = none) →
      r.replaceAll repl after s = s := by
  intro s
  induction s with
  | nil =>
    intro after h
    simp [Regexp.replaceAll, Regexp.replaceLoop, h [] (List.suffix_refl _)]
  | cons x t ih =>
    intro after h
    rw [replaceAll_cons_none r repl after x t (h _ (List.suffix_refl _)),
      ih false (fun u hu => h u (hu.trans (List.suffix_cons x t)))]

/-- A pattern that starts with the literal text `l` changes nothing in a text
that lacks a piece `w` of the start of `l`. -/
theorem replaceAll_id_of_no_infix (l : Str) (e : Re) (es : List Re) (n : Nat) (w q : Str)
    (repl : Str → Caps → Str) (after : Bool) (hw : w <+: l) (hq : ¬ w <:+: q) :
    Regexp.replaceAll ⟨Re.seq (Re.str l :: e :: es), n⟩ repl after q = q := by
  apply replaceAll_id_of_none
  intro t ht
  apply matchAt_none_of_not_isPrefixOf
  cases h : l.isPrefixOf t with
  | false => rfl
  | true =>
    exfalso
    apply hq
    have h1 : w <+: t := hw.trans ( List.isPrefixOf_iff_prefix.1 h)
    exact h1.isInfix.trans ht.isInfix

/-- The patterns of `$__time` and `$__timeFilter` at an invocation with an argument. -/
theorem paren_match (l c suf : Str) (n : Nat) (hne : c ≠ []) (hc : ')' ∉ c) :
    Regexp.matchAt ⟨Re.seq [Re.str l, .cap 1 (.plus (.cls (notRune ')'))), .lit ')'], n⟩
      (l ++ (c ++ (")".toList ++ suf))) = some (suf, [(1, c)]) := by
  simp only [Regexp.matchAt]
  rw [seq_cons_run, str_run, isPrefixOf_append_self, if_pos rfl, List.drop_left, seq_cons_run]
  apply cap_plus_cls_run 1 (notRune ')') c _ [] _ _ hne
  · intro x hx
    have : x ≠ ')' := fun h => hc (h ▸ hx)
    simpa [notRune] using this
  · intro x hx
    have : x = ')' := by
      have e : (")".toList ++ suf).head? = some ')' := rfl
      rw [e] at hx
      exact (Option.some.inj hx).symm
    subst this
    rfl
  · rfl

/-- Runes of a rendered number: decimal digits and the minus sign. -/
theorem toDigitsCore_digits : ∀ (fuel n : Nat) (ds : List Char),
    (∀ x ∈ ds, x.isDigit = true) → ∀ x ∈ Nat.toDigitsCore 10 fuel n ds, x.isDigit = true := by
  intro fuel
  induction fuel with
  | zero => intro n ds hds x hx; exact hds x (by simpa [Nat.toDigitsCore] using hx)
  | succ fuel ih =>
    intro n ds hds x hx
    have hd : ∀ m < 10, (Nat.digitChar m).isDigit = true := by decide
    have hds' : ∀ y ∈ Nat.digitChar (n % 10) :: ds, y.isDigit = true := by
      intro y hy
      rcases List.mem_cons.1 hy with rfl | hy
      · exact hd _ (Nat.mod_lt _ (by decide))
      · exact hds y hy
    simp only [Nat.toDigitsCore] at hx
    split at hx
    · exact hds' x hx
    · exact ih _ _ hds' x hx

theorem fmtInt_runes (i : Int) : ∀ x ∈ fmtInt i, x = '-' ∨ x.isDigit = true := by
  intro x hx
  cases i with
  | ofNat n =>
    right
    exact toDigitsCore_digits _ _ [] (by simp) x hx
  | negSucc n =>
    simp only [fmtInt] at hx
    rcases List.mem_cons.1 hx with rfl | hx
    · left; rfl
    · right
      exact toDigitsCore_digits _ _ [] (by simp) x hx

theorem fmtInt_no_dollar (i : Int) : '$' ∉ fmtInt i := by
  intro h
  rcases fmtInt_runes i _ h with h | h <;> revert h <;> decide

theorem fmtInt_no_comma (i : Int) : ',' ∉ fmtInt i := by
  intro h
  rcases fmtInt_runes i _ h with h | h <;> revert h <;> decide

/-- The rendering of `%d` on some values, the least `int64` among them. -/
theorem fmtInt_examples :
    fmtInt 0 = "0".toList ∧ fmtInt 1600003600 = "1600003600".toList ∧
      fmtInt (-42) = "-42".toList ∧
      fmtInt (-9223372036854775808) = "-9223372036854775808".toList := by
  decide

/-- The whole function changes nothing in a query that lacks a piece of the
common start `$__time` of the four macro names. -/
theorem interpolate_id_of_no_infix (w query : Str) (from_ to_ : Int)
    (hw : w <+: "$__time".toList) (hq : ¬ w <:+: query) :
    InterpolateMacros query from_ to_ = query := by
  have h1 : w <+: "$__time(".toList := hw.trans (by decide)
  have h2 : w <+: "$__timeFilter(".toList := hw.trans (by decide)
  have h3 : w <+: "$__timeGroup(".toList := hw.trans (by decide)
  have h4 : w <+: "$__timeGroupAlias(".toList := hw.trans (by decide)
  have e1 : ∀ repl after, timeReg.replaceAll repl after query = query := fun repl after =>
    replaceAll_id_of_no_infix "$__time(".toList _ _ _ w query repl after h1 hq
  have e2 : ∀ repl after, timeFilterReg.replaceAll repl after query = query := fun repl after =>
    replaceAll_id_of_no_infix "$__timeFilter(".toList _ _ _ w query repl after h2 hq
  have e3 : ∀ repl after, timeGroupReg.replaceAll repl after query = query := fun repl after =>
    replaceAll_id_of_no_infix "$__timeGroup(".toList _ _ _ w query repl after h3 hq
  have e4 : ∀ repl after, timeGroupAliasReg.replaceAll repl after query = query :=
    fun repl after =>
      replaceAll_id_of_no_infix "$__timeGroupAlias(".toList _ _ _ w query repl after h4 hq
  simp only [InterpolateMacros, Regexp.ReplaceAllString, Regexp.ReplaceAllStringFunc, e1, e2, e3,
    e4]

/-- The passes that find no dollar sign copy the text. -/
theorem timeFilter_pass_plain (s : Str) (f : Str → Str) (hs : '$' ∉ s) :
    timeFilterReg.ReplaceAllStringFunc s f = s :=
  replaceAll_plain dollar_timeFilterReg _ false s hs

theorem timeGroup_pass_plain (s : Str) (f : Str → Str) (hs : '$' ∉ s) :
    timeGroupReg.ReplaceAllStringFunc s f = s :=
  replaceAll_plain dollar_timeGroupReg _ false s hs

theorem timeGroupAlias_pass_plain (s : Str) (f : Str → Str) (hs : '$' ∉ s) :
    timeGroupAliasReg.ReplaceAllStringFunc s f = s :=
  replaceAll_plain dollar_timeGroupAliasReg _ false s hs

/-- The `$__time` pass at one invocation between texts without a dollar sign. -/
theorem time_pass_one (pre c suf : Str) (hne : c ≠ []) (hc : ')' ∉ c) (hpre : '$' ∉ pre)
    (hsuf : '$' ∉ suf) :
    timeReg.ReplaceAllString (pre ++ ("$__time(".toList ++ (c ++ (")".toList ++ suf))))
        "to_unixtime($1) as time".toList =
      pre ++ ("to_unixtime(".toList ++ (c ++ (") as time".toList ++ suf))) := by
  have hm := paren_match "$__time(".toList c suf 1 hne hc
  have hm' : timeReg.matchAt (("$__time(".toList ++ (c ++ ")".toList)) ++ suf) =
      some (suf, [(1, c)]) := by
    rw [List.append_assoc, List.append_assoc]; exact hm
  simp only [Regexp.ReplaceAllString]
  rw [replaceAll_skip dollar_timeReg _ pre false _ hpre]
  have e : "$__time(".toList ++ (c ++ (")".toList ++ suf)) =
      ("$__time(".toList ++ (c ++ ")".toList)) ++ suf := by simp
  rw [e, replaceAll_one dollar_timeReg _ false _ suf _ hm' hsuf]
  have hx : expand [(1, c)] ("to_unixtime($1) as time".toList.length + 1)
      "to_unixtime($1) as time".toList = "to_unixtime(".toList ++ (c ++ ") as time".toList) := by
    rfl
  rw [hx]
  simp

/-- The matched text is found again, whole, by `FindStringSubmatch`. -/
theorem findSubmatch_of_match {r : Regexp} (hd : Dollar r) (m : Str) (c : Caps)
    (h : r.matchAt m = some ([], c)) : r.FindStringSubmatch m = m :: r.groups c := by
  obtain ⟨t, rfl, _⟩ := hd m [] c h
  simp [Regexp.FindStringSubmatch, h]

/-- The `$__timeFilter` pass at one invocation between texts without a dollar sign. -/
theorem timeFilter_pass_one (pre c suf : Str) (from_ to_ : Int) (hne : c ≠ []) (hc : ')' ∉ c)
    (hpre : '$' ∉ pre) (hsuf : '$' ∉ suf) :
    timeFilterReg.ReplaceAllStringFunc
        (pre ++ ("$__timeFilter(".toList ++ (c ++ (")".toList ++ suf))))
        (timeFilterRepl from_ to_) =
      pre ++ (c ++ (" >= ".toList ++ (fmtInt from_ ++ (" AND ".toList ++
        (c ++ (" < ".toList ++ (fmtInt to_ ++ suf))))))) := by
  have hm := paren_match "$__timeFilter(".toList c suf 1 hne hc
  have hm' : timeFilterReg.matchAt (("$__timeFilter(".toList ++ (c ++ ")".toList)) ++ suf) =
      some (suf, [(1, c)]) := by
    rw [List.append_assoc, List.append_assoc]; exact hm
  have hm0 : timeFilterReg.matchAt ("$__timeFilter(".toList ++ (c ++ ")".toList)) =
      some ([], [(1, c)]) := by
    have := paren_match "$__timeFilter(".toList c [] 1 hne hc
    rw [List.append_nil] at this
    exact this
  simp only [Regexp.ReplaceAllStringFunc]
  rw [replaceAll_skip dollar_timeFilterReg _ pre false _ hpre]
  have e : "$__timeFilter(".toList ++ (c ++ (")".toList ++ suf)) =
      ("$__timeFilter(".toList ++ (c ++ ")".toList)) ++ suf := by simp
  rw [e, replaceAll_one dollar_timeFilterReg _ false _ suf _ hm' hsuf]
  have hparts := findSubmatch_of_match dollar_timeFilterReg _ _ hm0
  have hg : timeFilterReg.groups [(1, c)] = [c] := rfl
  simp only [timeFilterRepl, hparts, hg]
  simp

/-- A greedy loop over a class stops at once in front of a rune outside the class. -/
theorem star_cls_stop (p : Char → Bool) (x : Char) (t : Str) (c : Caps) (k : Cont)
    (hx : p x = false) : (Re.star (Re.cls p)).run (x :: t) c k = k (x :: t) c := by
  simp [Re.run, starLoop, hx]

theorem quest_none (a : Re) (s : Str) (c : Caps) (k : Cont) (h : a.run s c k = none) :
    (Re.quest a).run s c k = k s c := by
  rw [Re.run, h]

theorem quest_some (a : Re) (s : Str) (c : Caps) (k : Cont) (r : Str × Caps)
    (h : a.run s c k = some r) : (Re.quest a).run s c k = some r := by
  rw [Re.run, h]

theorem mem_head_of_append (a b : Str) (x : Char) (ha : a ≠ []) (hx : x ∈ (a ++ b).head?) :
    x ∈ a.head? := by
  rw [List.head?_append_of_ne_nil _ ha] at hx
  exact hx

/-- The common start of the two grouping patterns, `\s*([^,]+)\s*,\s*'([^']+)'`, at
a column, a comma, a space and a quoted interval. -/
theorem group_head_run (es : List Re) (c i rest : Str) (k : Cont) (r : Str × Caps)
    (hc : c ≠ []) (hcomma : ',' ∉ c) (hsp : ∀ x ∈ c.head?, reSpace x = false)
    (hi : i ≠ []) (hq : '\'' ∉ i)
    (hk : (Re.seq es).run rest [(2, i), (1, c)] k = some r) :
    (Re.seq (.star (.cls reSpace) :: .cap 1 (.plus (.cls (notRune ','))) ::
      .star (.cls reSpace) :: .lit ',' :: .star (.cls reSpace) :: .lit '\'' ::
      .cap 2 (.plus (.cls (notRune '\''))) :: .lit '\'' :: es)).run
      (c ++ (", '".toList ++ (i ++ ("'".toList ++ rest)))) [] k = some r := by
  have e1 : ", '".toList ++ (i ++ ("'".toList ++ rest)) =
      ',' :: ' ' :: '\'' :: (i ++ '\'' :: rest) := rfl
  rw [e1, seq_cons_run]
  apply star_cls_run reSpace [] _ [] _ r (by simp)
  · intro x hx
    exact hsp x (mem_head_of_append _ _ x hc hx)
  show (Re.seq _).run (c ++ _) [] k = some r
  rw [seq_cons_run]
  apply cap_plus_cls_run 1 (notRune ',') c _ [] _ r hc
  · intro x hx
    have : x ≠ ',' := fun h => hcomma (h ▸ hx)
    simpa [notRune] using this
  · intro x hx
    cases hx
    rfl
  show (Re.seq _).run (',' :: _) [(1, c)] k = some r
  rw [seq_cons_run, star_cls_stop _ _ _ _ _ (by rfl), seq_cons_run, lit_run_cons, if_pos rfl,
    seq_cons_run]
  apply star_cls_run reSpace [' '] _ [(1, c)] _ r (by decide)
  · intro x hx
    cases hx
    rfl
  show (Re.seq _).run ('\'' :: _) [(1, c)] k = some r
  rw [seq_cons_run, lit_run_cons, if_pos rfl, seq_cons_run]
  apply cap_plus_cls_run 2 (notRune '\'') i _ [(1, c)] _ r hi
  · intro x hx
    have : x ≠ '\'' := fun h => hq (h ▸ hx)
    simpa [notRune] using this
  · intro x hx
    cases hx
    rfl
  show (Re.seq _).run ('\'' :: rest) [(2, i), (1, c)] k = some r
  rw [seq_cons_run, lit_run_cons, if_pos rfl]
  exact hk

/-- The `$__timeGroup` pattern at an invocation without a fill argument. -/
theorem timeGroupReg_match (c i suf : Str) (hc : c ≠ []) (hcomma : ',' ∉ c)
    (hsp : ∀ x ∈ c.head?, reSpace x = false) (hi : i ≠ []) (hq : '\'' ∉ i) :
    timeGroupReg.matchAt ("$__timeGroup(".toList ++ (c ++ (", '".toList ++ (i ++
      ("'".toList ++ (")".toList ++ suf)))))) = some (suf, [(2, i), (1, c)]) := by
  simp only [Regexp.matchAt, timeGroupReg]
  rw [seq_cons_run, str_run, isPrefixOf_append_self, if_pos rfl, List.drop_left]
  apply group_head_run _ c i _ _ _ hc hcomma hsp hi hq
  have e : ")".toList ++ suf = ')' :: suf := rfl
  rw [e, seq_cons_run, quest_none, seq_cons_run, star_cls_stop _ _ _ _ _ (by rfl)]
  · rfl
  · rw [seq_cons_run, star_cls_stop _ _ _ _ _ (by rfl), seq_cons_run, lit_run_cons,
      if_neg (by decide)]

/-- The `$__timeGroup` pattern at an invocation with a fill argument. -/
theorem timeGroupReg_match_fill (c i f suf : Str) (hc : c ≠ []) (hcomma : ',' ∉ c)
    (hsp : ∀ x ∈ c.head?, reSpace x = false) (hi : i ≠ []) (hq : '\'' ∉ i)
    (hf : f ≠ []) (hfp : ')' ∉ f) (hfs : ∀ x ∈ f.head?, reSpace x = false) :
    timeGroupReg.matchAt ("$__timeGroup(".toList ++ (c ++ (", '".toList ++ (i ++
      ("'".toList ++ (", ".toList ++ (f ++ (")".toList ++ suf)))))))) =
      some (suf, [(3, f), (2, i), (1, c)]) := by
  simp only [Regexp.matchAt, timeGroupReg]
  rw [seq_cons_run, str_run, isPrefixOf_append_self, if_pos rfl, List.drop_left]
  apply group_head_run _ c i _ _ _ hc hcomma hsp hi hq
  have e : ", ".toList ++ (f ++ (")".toList ++ suf)) = ',' :: ' ' :: (f ++ ')' :: suf) := rfl
  rw [e, seq_cons_run]
  apply quest_some
  rw [seq_cons_run, star_cls_stop _ _ _ _ _ (by rfl), seq_cons_run, lit_run_cons, if_pos rfl,
    seq_cons_run]
  apply star_cls_run reSpace [' '] _ _ _ _ (by decide)
  · intro x hx
    exact hfs x (mem_head_of_append _ _ x hf hx)
  show (Re.seq _).run (f ++ _) _ _ = some _
  rw [seq_cons_run]
  apply cap_plus_cls_run 3 (notRune ')') f _ _ _ _ hf
  · intro x hx
    have : x ≠ ')' := fun h => hfp (h ▸ hx)
    simpa [notRune] using this
  · intro x hx
    cases hx
    rfl
  show (Re.seq [Re.star (Re.cls reSpace), Re.lit ')']).run (')' :: suf) _ _ = some _
  rw [seq_cons_run, star_cls_stop _ _ _ _ _ (by rfl)]
  rfl

/-- The `$__timeGroupAlias` pattern at an invocation. -/
theorem timeGroupAliasReg_match (c i suf : Str) (hc : c ≠ []) (hcomma : ',' ∉ c)
    (hsp : ∀ x ∈ c.head?, reSpace x = false) (hi : i ≠ []) (hq : '\'' ∉ i) :
    timeGroupAliasReg.matchAt ("$__timeGroupAlias(".toList ++ (c ++ (", '".toList ++ (i ++
      ("'".toList ++ (")".toList ++ suf)))))) = some (suf, [(2, i), (1, c)]) := by
  simp only [Regexp.matchAt, timeGroupAliasReg]
  rw [seq_cons_run, str_run, isPrefixOf_append_self, if_pos rfl, List.drop_left]
  apply group_head_run _ c i _ _ _ hc hcomma hsp hi hq
  have e : ")".toList ++ suf = ')' :: suf := rfl
  rw [e, seq_cons_run, star_cls_stop _ _ _ _ _ (by rfl)]
  rfl

/-- A pass copies an invocation that its pattern does not match, when the
invocation holds no dollar sign besides its first rune. -/
theorem replaceAll_foreign {r : Regexp} (hd : Dollar r) (repl : Str → Caps → Str) (after : Bool)
    (pre m t : Str) (hpre : '$' ∉ pre) (hm : '$' ∉ m) (h : r.matchAt ('$' :: (m ++ t)) = none) :
    r.replaceAll repl after (pre ++ ('$' :: (m ++ t))) =
      pre ++ ('$' :: (m ++ r.replaceAll repl false t)) := by
  rw [replaceAll_skip hd repl pre after _ hpre, replaceAll_cons_none r repl false '$' _ h,
    replaceAll_skip hd repl m false t hm]

theorem timeReg_none (m t : Str) (h1 : "$__time(".toList.isPrefixOf m = false)
    (h2 : m.isPrefixOf "$__time(".toList = false) : timeReg.matchAt (m ++ t) = none :=
  matchAt_none_of_not_isPrefixOf _ _ _ _ _ (not_isPrefixOf_append _ m t h1 h2)

theorem timeFilterReg_none (m t : Str) (h1 : "$__timeFilter(".toList.isPrefixOf m = false)
    (h2 : m.isPrefixOf "$__timeFilter(".toList = false) : timeFilterReg.matchAt (m ++ t) = none :=
  matchAt_none_of_not_isPrefixOf _ _ _ _ _ (not_isPrefixOf_append _ m t h1 h2)

theorem timeGroupReg_none (m t : Str) (h1 : "$__timeGroup(".toList.isPrefixOf m = false)
    (h2 : m.isPrefixOf "$__timeGroup(".toList = false) : timeGroupReg.matchAt (m ++ t) = none :=
  matchAt_none_of_not_isPrefixOf _ _ _ _ _ (not_isPrefixOf_append _ m t h1 h2)

theorem timeGroupAliasReg_none (m t : Str)
    (h1 : "$__timeGroupAlias(".toList.isPrefixOf m = false)
    (h2 : m.isPrefixOf "$__timeGroupAlias(".toList = false) :
    timeGroupAliasReg.matchAt (m ++ t) = none :=
  matchAt_none_of_not_isPrefixOf _ _ _ _ _ (not_isPrefixOf_append _ m t h1 h2)

/-- The callback of `$__timeGroup` at an invocation without a fill argument. -/
theorem timeGroupRepl_nofill (c i : Str) (hc : c ≠ []) (hcomma : ',' ∉ c)
    (hsp : ∀ x ∈ c.head?, reSpace x = false) (hi : i ≠ []) (hq : '\'' ∉ i) :
    timeGroupRepl ("$__timeGroup(".toList ++ (c ++ (", '".toList ++ (i ++
      ("'".toList ++ ")".toList))))) = timeSeries c i "'0'".toList := by
  have hm := timeGroupReg_match c i [] hc hcomma hsp hi hq
  rw [List.append_nil] at hm
  have hparts := findSubmatch_of_match dollar_timeGroupReg _ _ hm
  have hg : timeGroupReg.groups [(2, i), (1, c)] = [c, i, []] := rfl
  have l1 : ToLower ['0'] ≠ ['n', 'u', 'l', 'l'] := by decide
  have l2 : ToLower ['0'] ≠ ['p', 'r', 'e', 'v', 'i', 'o', 'u', 's'] := by decide
  simp only [timeGroupRepl, hparts, hg]
  simp [l1, l2, timeSeries]

/-- The callback of `$__timeGroup` at an invocation with a fill argument. -/
theorem timeGroupRepl_fill (c i f : Str) (hc : c ≠ []) (hcomma : ',' ∉ c)
    (hsp : ∀ x ∈ c.head?, reSpace x = false) (hi : i ≠ []) (hq : '\'' ∉ i)
    (hf : f ≠ []) (hfp : ')' ∉ f) (hfs : ∀ x ∈ f.head?, reSpace x = false) :
    timeGroupRepl ("$__timeGroup(".toList ++ (c ++ (", '".toList ++ (i ++
      ("'".toList ++ (", ".toList ++ (f ++ ")".toList))))))) =
      timeSeries c i
        (if ToLower (TrimSpace f) = "null".toList then "'null'".toList
         else if ToLower (TrimSpace f) = "previous".toList then "'last'".toList
         else if ToLower (TrimSpace f) = "0".toList then "'0'".toList
         else "'".toList ++ TrimSpace f ++ "'".toList) := by
  have hm := timeGroupReg_match_fill c i f [] hc hcomma hsp hi hq hf hfp hfs
  rw [List.append_nil] at hm
  have hparts := findSubmatch_of_match dollar_timeGroupReg _ _ hm
  have hg : timeGroupReg.groups [(3, f), (2, i), (1, c)] = [c, i, f] := rfl
  simp only [timeGroupRepl, hparts, hg]
  simp [hf, timeSeries]

/-- The callback of `$__timeGroupAlias` at an invocation. -/
theorem timeGroupAliasRepl_eq (c i : Str) (hc : c ≠ []) (hcomma : ',' ∉ c)
    (hsp : ∀ x ∈ c.head?, reSpace x = false) (hi : i ≠ []) (hq : '\'' ∉ i) :
    timeGroupAliasRepl ("$__timeGroupAlias(".toList ++ (c ++ (", '".toList ++ (i ++
      ("'".toList ++ ")".toList))))) =
      "time_series(".toList ++ (c ++ (", '".toList ++ (i ++
        "', '%Y-%m-%d %H:%i:%s', '0') as time".toList))) := by
  have hm := timeGroupAliasReg_match c i [] hc hcomma hsp hi hq
  rw [List.append_nil] at hm
  have hparts := findSubmatch_of_match dollar_timeGroupAliasReg _ _ hm
  have hg : timeGroupAliasReg.groups [(2, i), (1, c)] = [c, i] := rfl
  simp only [timeGroupAliasRepl, hparts, hg]
  simp

/-- A pass of `ReplaceAllStringFunc` at one match between texts without a dollar sign. -/
theorem func_pass_one {r : Regexp} (hd : Dollar r) (f : Str → Str) (pre m suf : Str) (c : Caps)
    (hpre : '$' ∉ pre) (hsuf : '$' ∉ suf) (hm : r.matchAt (m ++ suf) = some (suf, c)) :
    r.ReplaceAllStringFunc (pre ++ (m ++ suf)) f = pre ++ (f m ++ suf) := by
  simp only [Regexp.ReplaceAllStringFunc]
  rw [replaceAll_skip hd _ pre false _ hpre, replaceAll_one hd _ false m suf c hm hsuf]

/-- A pass of `ReplaceAllStringFunc` over a text whose only dollar sign starts
an invocation of another macro. -/
theorem func_pass_foreign {r : Regexp} (hd : Dollar r) (f : Str → Str) (pre m t : Str)
    (hpre : '$' ∉ pre) (hm : '$' ∉ m) (ht : '$' ∉ t)
    (h : r.matchAt ('$' :: (m ++ t)) = none) :
    r.ReplaceAllStringFunc (pre ++ ('$' :: (m ++ t))) f = pre ++ ('$' :: (m ++ t)) := by
  simp only [Regexp.ReplaceAllStringFunc]
  rw [replaceAll_foreign hd _ false pre m t hpre hm h, replaceAll_plain hd _ false t ht]

/-- The same for `ReplaceAllString`. -/
theorem string_pass_foreign {r : Regexp} (hd : Dollar r) (tmpl : Str) (pre m t : Str)
    (hpre : '$' ∉ pre) (hm : '$' ∉ m) (ht : '$' ∉ t)
    (h : r.matchAt ('$' :: (m ++ t)) = none) :
    r.ReplaceAllString (pre ++ ('$' :: (m ++ t))) tmpl = pre ++ ('$' :: (m ++ t)) := by
  simp only [Regexp.ReplaceAllString]
  rw [replaceAll_foreign hd _ false pre m t hpre hm h, replaceAll_plain hd _ false t ht]

/-- The `$__timeGroup` pass at one invocation without fill. -/
theorem timeGroup_pass_one (pre c i suf : Str) (hc : c ≠ []) (hcomma : ',' ∉ c)
    (hsp : ∀ x ∈ c.head?, reSpace x = false) (hi : i ≠ []) (hq : '\'' ∉ i)
    (hpre : '$' ∉ pre) (hsuf : '$' ∉ suf) :
    timeGroupReg.ReplaceAllStringFunc (pre ++ ("$__timeGroup(".toList ++ (c ++ (", '".toList ++
      (i ++ ("'".toList ++ (")".toList ++ suf))))))) timeGroupRepl =
      pre ++ (timeSeries c i "'0'".toList ++ suf) := by
  have e : "$__timeGroup(".toList ++ (c ++ (", '".toList ++ (i ++ ("'".toList ++
      (")".toList ++ suf))))) = ("$__timeGroup(".toList ++ (c ++ (", '".toList ++ (i ++
      ("'".toList ++ ")".toList))))) ++ suf := by simp
  have hm := timeGroupReg_match c i suf hc hcomma hsp hi hq
  rw [e] at hm ⊢
  rw [func_pass_one dollar_timeGroupReg _ pre _ suf _ hpre hsuf hm,
    timeGroupRepl_nofill c i hc hcomma hsp hi hq]

/-- The `$__timeGroup` pass at one invocation with fill. -/
theorem timeGroup_pass_one_fill (pre c i f suf : Str) (hc : c ≠ []) (hcomma : ',' ∉ c)
    (hsp : ∀ x ∈ c.head?, reSpace x = false) (hi : i ≠ []) (hq : '\'' ∉ i)
    (hf : f ≠ []) (hfp : ')' ∉ f) (hfs : ∀ x ∈ f.head?, reSpace x = false)
    (hpre : '$' ∉ pre) (hsuf : '$' ∉ suf) :
    timeGroupReg.ReplaceAllStringFunc (pre ++ ("$__timeGroup(".toList ++ (c ++ (", '".toList ++
      (i ++ ("'".toList ++ (", ".toList ++ (f ++ (")".toList ++ suf))))))))) timeGroupRepl =
      pre ++ (timeSeries c i
        (if ToLower (TrimSpace f) = "null".toList then "'null'".toList
         else if ToLower (TrimSpace f) = "previous".toList then "'last'".toList
         else if ToLower (TrimSpace f) = "0".toList then "'0'".toList
         else "'".toList ++ TrimSpace f ++ "'".toList) ++ suf) := by
  have e : "$__timeGroup(".toList ++ (c ++ (", '".toList ++ (i ++ ("'".toList ++
      (", ".toList ++ (f ++ (")".toList ++ suf))))))) = ("$__timeGroup(".toList ++ (c ++
      (", '".toList ++ (i ++ ("'".toList ++ (", ".toList ++ (f ++ ")".toList))))))) ++ suf := by
    simp
  have hm := timeGroupReg_match_fill c i f suf hc hcomma hsp hi hq hf hfp hfs
  rw [e] at hm ⊢
  rw [func_pass_one dollar_timeGroupReg _ pre _ suf _ hpre hsuf hm,
    timeGroupRepl_fill c i f hc hcomma hsp hi hq hf hfp hfs]

/-- The `$__timeGroupAlias` pass at one invocation. -/
theorem timeGroupAlias_pass_one (pre c i suf : Str) (hc : c ≠ []) (hcomma : ',' ∉ c)
    (hsp : ∀ x ∈ c.head?, reSpace x = false) (hi : i ≠ []) (hq : '\'' ∉ i)
    (hpre : '$' ∉ pre) (hsuf : '$' ∉ suf) :
    timeGroupAliasReg.ReplaceAllStringFunc (pre ++ ("$__timeGroupAlias(".toList ++ (c ++
      (", '".toList ++ (i ++ ("'".toList ++ (")".toList ++ suf))))))) timeGroupAliasRepl =
      pre ++ ("time_series(".toList ++ (c ++ (", '".toList ++ (i ++
        "', '%Y-%m-%d %H:%i:%s', '0') as time".toList))) ++ suf) := by
  have e : "$__timeGroupAlias(".toList ++ (c ++ (", '".toList ++ (i ++ ("'".toList ++
      (")".toList ++ suf))))) = ("$__timeGroupAlias(".toList ++ (c ++ (", '".toList ++ (i ++
      ("'".toList ++ ")".toList))))) ++ suf := by simp
  have hm := timeGroupAliasReg_match c i suf hc hcomma hsp hi hq
  rw [e] at hm ⊢
  rw [func_pass_one dollar_timeGroupAliasReg _ pre _ suf _ hpre hsuf hm,
    timeGroupAliasRepl_eq c i hc hcomma hsp hi hq]

/-- The class `\s` of `regexp` is part of the white space of `unicode.IsSpace`. -/
theorem isSpace_of_reSpace (x : Char) (h : reSpace x = true) : isSpace x = true := by
  simp only [reSpace, Bool.or_eq_true, beq_iff_eq] at h
  rcases h with (((h | h) | h) | h) | h <;> subst h <;> rfl

theorem Trimmed.head {s : Str} (h : Trimmed s) : ∀ x ∈ s.head?, reSpace x = false := by
  intro x hx
  have h1 := h.1 x hx
  cases h2 : reSpace x with
  | false => rfl
  | true => rw [isSpace_of_reSpace x h2] at h1; cases h1

/-- `strings.TrimSpace` leaves a trimmed text as it is. -/
theorem TrimSpace_of_trimmed {s : Str} (h : Trimmed s) : TrimSpace s = s := by
  have h1 : s.dropWhile isSpace = s := by
    cases s with
    | nil => rfl
    | cons x t =>
      have := h.1 x rfl
      simp [List.dropWhile, this]
  have h2 : s.rdropWhile isSpace = s := by
    rw [List.rdropWhile_eq_self_iff]
    intro hl
    have := h.2 (s.getLast hl) (List.getLast?_eq_getLast s hl)
    simp [this]
  simp only [TrimSpace, h1]
  exact h2

theorem caseVariant_runes (kw : Str) (hkw : ∀ y ∈ kw, FillRune y y ∧ FillRune y y.toUpper) :
    ∀ f : Str, CaseVariant f kw →
      ToLower f = kw ∧ ∀ x ∈ f, x ≠ '$' ∧ x ≠ ')' ∧ isSpace x = false := by
  intro f h
  induction h with
  | nil => exact ⟨rfl, by simp⟩
  | @cons x y f kw hxy _ ih =>
    obtain ⟨ih1, ih2⟩ := ih (fun z hz => hkw z (List.mem_cons_of_mem _ hz))
    have hy := hkw y (List.mem_cons_self _ _)
    have hx : FillRune y x := by
      rcases hxy with rfl | rfl
      · exact hy.1
      · exact hy.2
    refine ⟨?_, ?_⟩
    · simp only [ToLower, List.map_cons] at ih1 ⊢
      rw [hx.1, ih1]
    · intro z hz
      rcases List.mem_cons.1 hz with rfl | hz
      · exact hx.2
      · exact ih2 z hz

theorem caseVariant_ne_nil (f kw : Str) (h : CaseVariant f kw) (hkw : kw ≠ []) : f ≠ [] := by
  intro hf
  subst hf
  cases h
  exact hkw rfl

theorem trimmed_of_no_space (f : Str) (h : ∀ x ∈ f, isSpace x = false) : Trimmed f :=
  ⟨fun x hx => h x (List.mem_of_mem_head? hx), fun x hx => h x (List.mem_of_mem_getLast? hx)⟩

/-- The whole function at a lone `$__timeGroup` invocation with a fill argument. -/
theorem interpolate_timeGroup_fill (c i f : Str) (from_ to_ : Int) (hne : c ≠ [])
    (hcomma : ',' ∉ c) (hc : '$' ∉ c) (htrim : Trimmed c) (hi : i ≠ []) (hq : '\'' ∉ i)
    (hid : '$' ∉ i) (hf : f ≠ []) (hfp : ')' ∉ f) (hfd : '$' ∉ f) (hft : Trimmed f) :
    InterpolateMacros ("$__timeGroup(".toList ++ c ++ ", '".toList ++ i ++ "', ".toList ++ f ++
        ")".toList) from_ to_ =
      timeSeries c i
        (if ToLower f = "null".toList then "'null'".toList
         else if ToLower f = "previous".toList then "'last'".toList
         else if ToLower f = "0".toList then "'0'".toList
         else "'".toList ++ f ++ "'".toList) := by
  have e : "$__timeGroup(".toList ++ c ++ ", '".toList ++ i ++ "', ".toList ++ f ++ ")".toList =
      [] ++ ('$' :: ("__timeGroup(".toList ++ (c ++ (", '".toList ++ (i ++ ("', ".toList ++
        (f ++ ")".toList))))))) := by
    simp
  have e' : ([] : Str) ++ ('$' :: ("__timeGroup(".toList ++ (c ++ (", '".toList ++ (i ++
      ("', ".toList ++ (f ++ ")".toList))))))) = [] ++ ("$__timeGroup(".toList ++ (c ++
      (", '".toList ++ (i ++ ("'".toList ++ (", ".toList ++ (f ++ (")".toList ++ []))))))))
      := by
    simp
  have hrest : '$' ∉ c ++ (", '".toList ++ (i ++ ("', ".toList ++ (f ++ ")".toList)))) :=
    List.not_mem_append hc (List.not_mem_append (by decide) (List.not_mem_append hid
      (List.not_mem_append (by decide) (List.not_mem_append hfd (by decide)))))
  have p1 := string_pass_foreign dollar_timeReg "to_unixtime($1) as time".toList []
    "__timeGroup(".toList _ (by simp) (by decide) hrest
    (timeReg_none "$__timeGroup(".toList _ rfl rfl)
  have p2 := func_pass_foreign dollar_timeFilterReg (timeFilterRepl from_ to_) []
    "__timeGroup(".toList _ (by simp) (by decide) hrest
    (timeFilterReg_none "$__timeGroup(".toList _ rfl rfl)
  have p3 := timeGroup_pass_one_fill [] c i f [] hne hcomma htrim.head hi hq hf hfp hft.head
    (by simp) (by simp)
  rw [TrimSpace_of_trimmed hft] at p3
  have hlit : '$' ∉ (if ToLower f = "null".toList then "'null'".toList
         else if ToLower f = "previous".toList then "'last'".toList
         else if ToLower f = "0".toList then "'0'".toList
         else "'".toList ++ f ++ "'".toList) := by
    split
    · decide
    · split
      · decide
      · split
        · decide
        · exact List.not_mem_append (List.not_mem_append (by decide) hfd) (by decide)
  have hout : '$' ∉ [] ++ (timeSeries c i (if ToLower f = "null".toList then "'null'".toList
         else if ToLower f = "previous".toList then "'last'".toList
         else if ToLower f = "0".toList then "'0'".toList
         else "'".toList ++ f ++ "'".toList) ++ []) := by
    rw [List.nil_append, List.append_nil]
    exact List.not_mem_append (by decide) (List.not_mem_append hc (List.not_mem_append
      (by decide) (List.not_mem_append hid (List.not_mem_append (by decide)
        (List.not_mem_append hlit (by decide))))))
  simp only [InterpolateMacros]
  rw [e, p1, p2, e', p3, timeGroupAlias_pass_plain _ _ hout]
  simp

/-- A pass of `ReplaceAllStringFunc` copies an invocation of another macro and
goes on behind its name. -/
theorem func_pass_foreign_cont {r : Regexp} (hd : Dollar r) (f : Str → Str) (pre m t : Str)
    (hpre : '$' ∉ pre) (hm : '$' ∉ m) (h : r.matchAt ('$' :: (m ++ t)) = none) :
    r.ReplaceAllStringFunc (pre ++ ('$' :: (m ++ t))) f =
      pre ++ ('$' :: (m ++ r.ReplaceAllStringFunc t f)) :=
  replaceAll_foreign hd _ false pre m t hpre hm h

/-- The same for `ReplaceAllString`. -/
theorem string_pass_foreign_cont {r : Regexp} (hd : Dollar r) (tmpl : Str) (pre m t : Str)
    (hpre : '$' ∉ pre) (hm : '$' ∉ m) (h : r.matchAt ('$' :: (m ++ t)) = none) :
    r.ReplaceAllString (pre ++ ('$' :: (m ++ t))) tmpl =
      pre ++ ('$' :: (m ++ r.ReplaceAllString t tmpl)) :=
  replaceAll_foreign hd _ false pre m t hpre hm h

/-- A pass of `ReplaceAllStringFunc` replaces a match and goes on behind it. -/
theorem func_pass_match_cont {r : Regexp} (hd : Dollar r) (f : Str → Str) (pre m t : Str)
    (c : Caps) (hpre : '$' ∉ pre) (hm : r.matchAt (m ++ t) = some (t, c)) :
    r.ReplaceAllStringFunc (pre ++ (m ++ t)) f = pre ++ (f m ++ r.ReplaceAllStringFunc t f) := by
  simp only [Regexp.ReplaceAllStringFunc]
  rw [replaceAll_skip hd _ pre false _ hpre, replaceAll_match hd _ false _ t c hm,
    replaceAll_after hd _ true t]
  simp

theorem Token.trimmed {c : Str} (h : Token c) : Trimmed c :=
  trimmed_of_no_space c (fun x hx => (h.2 x hx).2.2.2.2.2)

theorem timeRange_no_dollar (c : Str) (from_ to_ : Int) (hc : '$' ∉ c) :
    '$' ∉ timeRange c from_ to_ :=
  List.not_mem_append hc (List.not_mem_append (by decide) (List.not_mem_append
    (fmtInt_no_dollar _) (List.not_mem_append (by decide) (List.not_mem_append hc
      (List.not_mem_append (by decide) (fmtInt_no_dollar _))))))

theorem timeSeries_no_dollar (c i l : Str) (hc : '$' ∉ c) (hi : '$' ∉ i) (hl : '$' ∉ l) :
    '$' ∉ timeSeries c i l :=
  List.not_mem_append (by decide) (List.not_mem_append hc (List.not_mem_append
    (by decide) (List.not_mem_append hi (List.not_mem_append (by decide)
      (List.not_mem_append hl (by decide))))))

/-- The whole function at a `$__timeGroup` invocation followed by a
`$__timeFilter` invocation. -/
theorem interpolate_group_filter (t0 t1 t2 c1 c2 i : Str) (from_ to_ : Int) (h0 : '$' ∉ t0)
    (h1 : '$' ∉ t1) (h2 : '$' ∉ t2) (hc1 : Token c1) (hc2 : Token c2) (hi : i ≠ [])
    (hq : '\'' ∉ i) (hid : '$' ∉ i) :
    InterpolateMacros (t0 ++ ("$__timeGroup(".toList ++ (c1 ++ (", '".toList ++ (i ++
      ("'".toList ++ (")".toList ++ (t1 ++ ("$__timeFilter(".toList ++ (c2 ++
        (")".toList ++ t2)))))))))))
      from_ to_ = t0 ++ (timeSeries c1 i "'0'".toList ++ (t1 ++ (timeRange c2 from_ to_ ++ t2)))
    := by
  have d1 : '$' ∉ c1 := fun h => (hc1.2 _ h).1 rfl
  have d2 : '$' ∉ c2 := fun h => (hc2.2 _ h).1 rfl
  have k1 : ',' ∉ c1 := fun h => (hc1.2 _ h).2.1 rfl
  have k2 : ')' ∉ c2 := fun h => (hc2.2 _ h).2.2.2.1 rfl
  have hA : '$' ∉ (c1 ++ (", '".toList ++ (i ++ ("'".toList ++ ")".toList)))) ++ t1 :=
    List.not_mem_append (List.not_mem_append d1 (List.not_mem_append (by decide)
      (List.not_mem_append hid (by decide)))) h1
  have hB : '$' ∉ c2 ++ (")".toList ++ t2) :=
    List.not_mem_append d2 (List.not_mem_append (by decide) h2)
  have e1 : t0 ++ ("$__timeGroup(".toList ++ (c1 ++ (", '".toList ++ (i ++
      ("'".toList ++ (")".toList ++ (t1 ++ ("$__timeFilter(".toList ++ (c2 ++
        (")".toList ++ t2)))))))))) =
      t0 ++ ('$' :: ("__timeGroup(".toList ++ (((c1 ++ (", '".toList ++ (i ++ ("'".toList ++
        ")".toList)))) ++ t1) ++ ('$' :: ("__timeFilter(".toList ++
          (c2 ++ (")".toList ++ t2))))))) := by
    simp
  have q1 : timeReg.ReplaceAllString (t0 ++ ('$' :: ("__timeGroup(".toList ++ (((c1 ++
      (", '".toList ++ (i ++ ("'".toList ++ ")".toList)))) ++ t1) ++ ('$' ::
      ("__timeFilter(".toList ++ (c2 ++ (")".toList ++ t2)))))))) "to_unixtime($1) as time".toList
      = t0 ++ ('$' :: ("__timeGroup(".toList ++ (((c1 ++ (", '".toList ++ (i ++ ("'".toList ++
        ")".toList)))) ++ t1) ++ ('$' :: ("__timeFilter(".toList ++
          (c2 ++ (")".toList ++ t2))))))) := by
    rw [string_pass_foreign_cont dollar_timeReg _ t0 "__timeGroup(".toList _ h0 (by decide)
      (timeReg_none "$__timeGroup(".toList _ rfl rfl),
      string_pass_foreign dollar_timeReg _ _ "__timeFilter(".toList _ hA (by decide) hB
      (timeReg_none "$__timeFilter(".toList _ rfl rfl)]
  have q2 : timeFilterReg.ReplaceAllStringFunc (t0 ++ ('$' :: ("__timeGroup(".toList ++ (((c1 ++
      (", '".toList ++ (i ++ ("'".toList ++ ")".toList)))) ++ t1) ++ ('$' ::
      ("__timeFilter(".toList ++ (c2 ++ (")".toList ++ t2)))))))) (timeFilterRepl from_ to_)
      = t0 ++ ("$__timeGroup(".toList ++ (c1 ++ (", '".toList ++ (i ++ ("'".toList ++
        (")".toList ++ (t1 ++ (timeRange c2 from_ to_ ++ t2)))))))) := by
    have inner : timeFilterReg.ReplaceAllStringFunc (((c1 ++ (", '".toList ++ (i ++
        ("'".toList ++ ")".toList)))) ++ t1) ++ ('$' :: ("__timeFilter(".toList ++
        (c2 ++ (")".toList ++ t2))))) (timeFilterRepl from_ to_) = _ :=
      timeFilter_pass_one _ c2 t2 from_ to_ hc2.1 k2 hA h2
    rw [func_pass_foreign_cont dollar_timeFilterReg _ t0 "__timeGroup(".toList _ h0 (by decide)
      (timeFilterReg_none "$__timeGroup(".toList _ rfl rfl), inner]
    simp [timeRange]
  have hS : '$' ∉ t1 ++ (timeRange c2 from_ to_ ++ t2) :=
    List.not_mem_append h1 (List.not_mem_append (timeRange_no_dollar c2 from_ to_ d2) h2)
  have q3 := timeGroup_pass_one t0 c1 i (t1 ++ (timeRange c2 from_ to_ ++ t2)) hc1.1 k1
    hc1.trimmed.head hi hq h0 hS
  have hout : '$' ∉ t0 ++ (timeSeries c1 i "'0'".toList ++
      (t1 ++ (timeRange c2 from_ to_ ++ t2))) :=
    List.not_mem_append h0 (List.not_mem_append
      (timeSeries_no_dollar c1 i _ d1 hid (by decide)) hS)
  simp only [InterpolateMacros]
  rw [e1, q1, q2, q3, timeGroupAlias_pass_plain _ _ hout]

/-- The callback of `$__timeFilter` at an invocation. -/
theorem timeFilterRepl_eq (c : Str) (from_ to_ : Int) (hne : c ≠ []) (hc : ')' ∉ c) :
    timeFilterRepl from_ to_ ("$__timeFilter(".toList ++ (c ++ ")".toList)) =
      timeRange c from_ to_ := by
  have hm0 : timeFilterReg.matchAt ("$__timeFilter(".toList ++ (c ++ ")".toList)) =
      some ([], [(1, c)]) := by
    have := paren_match "$__timeFilter(".toList c [] 1 hne hc
    rw [List.append_nil] at this
    exact this
  have hparts := findSubmatch_of_match dollar_timeFilterReg _ _ hm0
  have hg : timeFilterReg.groups [(1, c)] = [c] := rfl
  simp only [timeFilterRepl, hparts, hg]
  simp [timeRange]

/-- The whole function at a `$__timeFilter` invocation followed by a
`$__timeGroup` invocation. -/
theorem interpolate_filter_group (t0 t1 t2 c1 c2 i : Str) (from_ to_ : Int) (h0 : '$' ∉ t0)
    (h1 : '$' ∉ t1) (h2 : '$' ∉ t2) (hc1 : Token c1) (hc2 : Token c2) (hi : i ≠ [])
    (hq : '\'' ∉ i) (hid : '$' ∉ i) :
    InterpolateMacros (t0 ++ ("$__timeFilter(".toList ++ (c2 ++ (")".toList ++ (t1 ++
      ("$__timeGroup(".toList ++ (c1 ++ (", '".toList ++ (i ++ ("'".toList ++
        (")".toList ++ t2)))))))))))
      from_ to_ = t0 ++ (timeRange c2 from_ to_ ++ (t1 ++ (timeSeries c1 i "'0'".toList ++ t2)))
    := by
  have d1 : '$' ∉ c1 := fun h => (hc1.2 _ h).1 rfl
  have d2 : '$' ∉ c2 := fun h => (hc2.2 _ h).1 rfl
  have k1 : ',' ∉ c1 := fun h => (hc1.2 _ h).2.1 rfl
  have k2 : ')' ∉ c2 := fun h => (hc2.2 _ h).2.2.2.1 rfl
  have hA : '$' ∉ (c2 ++ ")".toList) ++ t1 :=
    List.not_mem_append (List.not_mem_append d2 (by decide)) h1
  have hB : '$' ∉ c1 ++ (", '".toList ++ (i ++ ("'".toList ++ (")".toList ++ t2)))) :=
    List.not_mem_append d1 (List.not_mem_append (by decide) (List.not_mem_append hid
      (List.not_mem_append (by decide) (List.not_mem_append (by decide) h2))))
  have e1 : t0 ++ ("$__timeFilter(".toList ++ (c2 ++ (")".toList ++ (t1 ++
      ("$__timeGroup(".toList ++ (c1 ++ (", '".toList ++ (i ++ ("'".toList ++
        (")".toList ++ t2)))))))))) =
      t0 ++ ('$' :: ("__timeFilter(".toList ++ (((c2 ++ ")".toList) ++ t1) ++ ('$' ::
        ("__timeGroup(".toList ++ (c1 ++ (", '".toList ++ (i ++ ("'".toList ++
          (")".toList ++ t2)))))))))) := by
    simp
  have q1 : timeReg.ReplaceAllString (t0 ++ ('$' :: ("__timeFilter(".toList ++
      (((c2 ++ ")".toList) ++ t1) ++ ('$' :: ("__timeGroup(".toList ++ (c1 ++ (", '".toList ++
      (i ++ ("'".toList ++ (")".toList ++ t2))))))))))) "to_unixtime($1) as time".toList =
      t0 ++ (("$__timeFilter(".toList ++ (c2 ++ ")".toList)) ++ (t1 ++ ('$' ::
        ("__timeGroup(".toList ++ (c1 ++ (", '".toList ++ (i ++ ("'".toList ++
          (")".toList ++ t2))))))))) := by
    rw [string_pass_foreign_cont dollar_timeReg _ t0 "__timeFilter(".toList _ h0 (by decide)
      (timeReg_none "$__timeFilter(".toList _ rfl rfl),
      string_pass_foreign dollar_timeReg _ _ "__timeGroup(".toList _ hA (by decide) hB
      (timeReg_none "$__timeGroup(".toList _ rfl rfl)]
    simp
  have hm : timeFilterReg.matchAt (("$__timeFilter(".toList ++ (c2 ++ ")".toList)) ++
      (t1 ++ ('$' :: ("__timeGroup(".toList ++ (c1 ++ (", '".toList ++ (i ++ ("'".toList ++
        (")".toList ++ t2))))))))) = some (t1 ++ ('$' :: ("__timeGroup(".toList ++ (c1 ++
        (", '".toList ++ (i ++ ("'".toList ++ (")".toList ++ t2))))))), [(1, c2)]) := by
    rw [List.append_assoc, List.append_assoc]
    exact paren_match "$__timeFilter(".toList c2 _ 1 hc2.1 k2
  have q2 : timeFilterReg.ReplaceAllStringFunc (t0 ++ (("$__timeFilter(".toList ++
      (c2 ++ ")".toList)) ++ (t1 ++ ('$' :: ("__timeGroup(".toList ++ (c1 ++ (", '".toList ++
      (i ++ ("'".toList ++ (")".toList ++ t2)))))))))) (timeFilterRepl from_ to_) =
      (t0 ++ (timeRange c2 from_ to_ ++ t1)) ++ ("$__timeGroup(".toList ++ (c1 ++
        (", '".toList ++ (i ++ ("'".toList ++ (")".toList ++ t2)))))) := by
    rw [func_pass_match_cont dollar_timeFilterReg _ t0 _ _ _ h0 hm,
      func_pass_foreign dollar_timeFilterReg _ t1 "__timeGroup(".toList _ h1 (by decide) hB
        (timeFilterReg_none "$__timeGroup(".toList _ rfl rfl),
      timeFilterRepl_eq c2 from_ to_ hc2.1 k2]
    simp
  have hP : '$' ∉ t0 ++ (timeRange c2 from_ to_ ++ t1) :=
    List.not_mem_append h0 (List.not_mem_append (timeRange_no_dollar c2 from_ to_ d2) h1)
  have q3 := timeGroup_pass_one (t0 ++ (timeRange c2 from_ to_ ++ t1)) c1 i t2 hc1.1 k1
    hc1.trimmed.head hi hq hP h2
  have hout : '$' ∉ (t0 ++ (timeRange c2 from_ to_ ++ t1)) ++
      (timeSeries c1 i "'0'".toList ++ t2) :=
    List.not_mem_append hP (List.not_mem_append
      (timeSeries_no_dollar c1 i _ d1 hid (by decide)) h2)
  simp only [InterpolateMacros]
  rw [e1, q1, q2, q3, timeGroupAlias_pass_plain _ _ hout]
  simp

/-! ## Invocations that lack the quoted interval -/

theorem seq_append_run (es1 es2 : List Re) : ∀ (s : Str) (c : Caps) (k : Cont),
    (Re.seq (es1 ++ es2)).run s c k =
      (Re.seq es1).run s c (fun s' c' => (Re.seq es2).run s' c' k) := by
  induction es1 with
  | nil => intro s c k; rfl
  | cons a es1 ih =>
    intro s c k
    rw [List.cons_append, seq_cons_run, seq_cons_run]
    congr 1
    funext s' c'
    exact ih s' c' k

/-- A pattern with a literal rune at its top level fails on a text without that rune. -/
theorem matchAt_none_of_lit_missing (es1 : List Re) (a : Char) (es2 : List Re) (n : Nat)
    (s : Str) (h : a ∉ s) : Regexp.matchAt ⟨Re.seq (es1 ++ Re.lit a :: es2), n⟩ s = none := by
  cases hm : Regexp.matchAt ⟨Re.seq (es1 ++ Re.lit a :: es2), n⟩ s with
  | none => rfl
  | some r =>
    exfalso
    simp only [Regexp.matchAt] at hm
    rw [seq_append_run] at hm
    obtain ⟨s', c', hsuf, _, hk⟩ := run_inv (fun _ => True) (Re.seq es1) s [] _ r
      (fun _ _ => trivial) (capsAll_nil _) hm
    rw [seq_cons_run] at hk
    cases s' with
    | nil => rw [lit_run_nil] at hk; cases hk
    | cons x t =>
      rw [lit_run_cons] at hk
      split at hk
      · rename_i hx
        subst hx
        exact h (hsuf.subset (List.mem_cons_self _ _))
      · cases hk

theorem timeGroupReg_none_of_no_comma (s : Str) (h : ',' ∉ s) : timeGroupReg.matchAt s = none :=
  matchAt_none_of_lit_missing [Re.str "$__timeGroup(".toList, .star (.cls reSpace),
    .cap 1 (.plus (.cls (notRune ','))), .star (.cls reSpace)] ',' _ _ s h

theorem timeGroupAliasReg_none_of_no_comma (s : Str) (h : ',' ∉ s) :
    timeGroupAliasReg.matchAt s = none :=
  matchAt_none_of_lit_missing [Re.str "$__timeGroupAlias(".toList, .star (.cls reSpace),
    .cap 1 (.plus (.cls (notRune ','))), .star (.cls reSpace)] ',' _ _ s h

/-- A grouping pass copies a text that has no comma behind its first dollar sign. -/
theorem replaceAll_id_of_no_comma {r : Regexp} (hd : Dollar r)
    (hr : ∀ s : Str, ',' ∉ s → r.matchAt s = none) (repl : Str → Caps → Str) (pre s : Str)
    (hpre : '$' ∉ pre) (hs : ',' ∉ s) : r.replaceAll repl false (pre ++ s) = pre ++ s := by
  rw [replaceAll_skip hd repl pre false s hpre, replaceAll_id_of_none r repl s false]
  intro t ht
  exact hr t (fun hmem => hs (ht.subset hmem))

theorem getCap_all (P : Char → Prop) (c : Caps) (hc : CapsAll P c) (n : Nat) :
    ∀ x ∈ getCap c n, P x := by
  induction c with
  | nil => intro x hx; simp [getCap] at hx
  | cons q c ih =>
    obtain ⟨m, v⟩ := q
    intro x hx
    rw [getCap] at hx
    split at hx
    · exact hc (m, v) (List.mem_cons_self _ _) x hx
    · exact ih (fun q hq => hc q (List.mem_cons_of_mem _ hq)) x hx

theorem groups_all (P : Char → Prop) (r : Regexp) (c : Caps) (hc : CapsAll P c) :
    ∀ g ∈ r.groups c, ∀ x ∈ g, P x := by
  intro g hg
  simp only [Regexp.groups, List.mem_map] at hg
  obtain ⟨j, _, rfl⟩ := hg
  exact getCap_all P c hc (j + 1)

/-- The pieces that `FindStringSubmatch` returns are made of runes of the text. -/
theorem findSubmatch_all (P : Char → Prop) (r : Regexp) : ∀ s : Str, (∀ x ∈ s, P x) →
    ∀ g ∈ r.FindStringSubmatch s, ∀ x ∈ g, P x := by
  intro s
  induction s with
  | nil =>
    intro hs g hg
    rw [Regexp.FindStringSubmatch] at hg
    split at hg
    · rename_i rest c hm
      rcases List.mem_cons.1 hg with rfl | hg
      · simp
      · exact groups_all P r c (matchAt_capsAll P r [] rest c hs hm) g hg
    · simp at hg
  | cons y t ih =>
    intro hs g hg
    rw [Regexp.FindStringSubmatch] at hg
    split at hg
    · rename_i rest c hm
      rcases List.mem_cons.1 hg with rfl | hg
      · intro x hx
        exact hs x (List.mem_of_mem_take hx)
      · exact groups_all P r c (matchAt_capsAll P r (y :: t) rest c hs hm) g hg
    · exact ih (fun x hx => hs x (List.mem_cons_of_mem _ hx)) g hg

/-- A pass keeps a property of runes that its replacements keep. -/
theorem replaceAll_all (P : Char → Prop) {r : Regexp} (hd : Dollar r) (repl : Str → Caps → Str)
    (hrepl : ∀ (m : Str) (c : Caps), (∀ x ∈ m, P x) → CapsAll P c → ∀ x ∈ repl m c, P x) :
    ∀ (n : Nat) (s : Str) (after : Bool), s.length ≤ n → (∀ x ∈ s, P x) →
      ∀ x ∈ r.replaceAll repl after s, P x := by
  intro n
  induction n with
  | zero =>
    intro s after hn _ x hx
    have : s = [] := List.length_eq_zero.1 (Nat.le_zero.1 hn)
    subst this
    rw [replaceAll_nil hd] at hx
    cases hx
  | succ n ih =>
    intro s after hn hs x hx
    cases hm : r.matchAt s with
    | none =>
      cases s with
      | nil => rw [replaceAll_nil hd] at hx; cases hx
      | cons y t =>
        rw [replaceAll_cons_none r repl after y t hm] at hx
        rcases List.mem_cons.1 hx with rfl | hx
        · exact hs _ (List.mem_cons_self _ _)
        · exact ih t false (by simpa using hn) (fun z hz => hs z (List.mem_cons_of_mem _ hz)) x hx
    | some q =>
      obtain ⟨rest, c⟩ := q
      rw [replaceAll_match hd repl after s rest c hm] at hx
      have hsuf := matchAt_suffix r s rest c hm
      have hlt := hd.lt hm
      rcases List.mem_append.1 hx with hx | hx
      · exact hrepl _ c (fun z hz => hs z (List.mem_of_mem_take hz))
          (matchAt_capsAll P r s rest c hs hm) x hx
      · exact ih rest true (by omega) (fun z hz => hs z (hsuf.subset hz)) x hx

/-- An expanded template is made of runes of the template and of the bound texts. -/
theorem expand_all (P : Char → Prop) (c : Caps) (hc : CapsAll P c) :
    ∀ (n : Nat) (t : Str), (∀ x ∈ t, P x) → ∀ x ∈ expand c n t, P x := by
  intro n
  induction n with
  | zero => intro t ht x hx; exact ht x (by simpa [expand] using hx)
  | succ n ih =>
    intro t ht x hx
    cases t with
    | nil => simp [expand] at hx
    | cons y t =>
      have hy : P y := ht y (List.mem_cons_self _ _)
      have ht' : ∀ z ∈ t, P z := fun z hz => ht z (List.mem_cons_of_mem _ hz)
      simp only [expand] at hx
      split_ifs at hx with h1 h2 h3
      · subst h1
        rcases List.mem_cons.1 hx with rfl | hx
        · exact hy
        · exact ih _ (fun z hz => ht' z (List.mem_of_mem_tail hz)) x hx
      · subst h1
        rcases List.mem_cons.1 hx with rfl | hx
        · exact hy
        · exact ih t ht' x hx
      · rcases List.mem_append.1 hx with hx | hx
        · cases hg : groupIndex (List.takeWhile isNameRune t) with
          | none => rw [hg] at hx; cases hx
          | some j => rw [hg] at hx; exact getCap_all P c hc _ x hx
        · exact ih _ (fun z hz => ht' z ((List.dropWhile_suffix _).subset hz)) x hx
      · rcases List.mem_cons.1 hx with rfl | hx
        · exact hy
        · exact ih t ht' x hx

theorem getD_all (P : Char → Prop) (l : List Str) (hl : ∀ g ∈ l, ∀ x ∈ g, P x) :
    ∀ (n : Nat), ∀ x ∈ l.getD n [], P x := by
  induction l with
  | nil => intro n x hx; simp at hx
  | cons g l ih =>
    intro n x hx
    cases n with
    | zero => exact hl g (List.mem_cons_self _ _) x (by simpa using hx)
    | succ n => exact ih (fun g' hg' => hl g' (List.mem_cons_of_mem _ hg')) n x (by simpa using hx)

/-- The `$__time` pass brings no comma into a text. -/
theorem time_pass_no_comma (s : Str) (hs : ',' ∉ s) :
    ',' ∉ timeReg.ReplaceAllString s "to_unixtime($1) as time".toList := by
  intro h
  refine replaceAll_all (fun x => x ≠ ',') dollar_timeReg _ ?_ s.length s false (le_refl _)
    (fun x hx hxc => hs (hxc ▸ hx)) _ h rfl
  intro m c _ hc x hx
  exact expand_all _ c hc _ _ (by decide) x hx

/-- The `$__timeFilter` pass brings no comma into a text. -/
theorem timeFilter_pass_no_comma (s : Str) (from_ to_ : Int) (hs : ',' ∉ s) :
    ',' ∉ timeFilterReg.ReplaceAllStringFunc s (timeFilterRepl from_ to_) := by
  intro h
  refine replaceAll_all (fun x => x ≠ ',') dollar_timeFilterReg _ ?_ s.length s false
    (le_refl _) (fun x hx hxc => hs (hxc ▸ hx)) _ h rfl
  intro m c hm _ x hx
  simp only [timeFilterRepl] at hx
  split at hx
  · have hcol : ∀ z ∈ (timeFilterReg.FindStringSubmatch m).getD 1 [], z ≠ ',' :=
      getD_all _ _ (findSubmatch_all _ timeFilterReg m hm) 1
    have hnum : ∀ (j : Int), ∀ z ∈ fmtInt j, z ≠ ',' :=
      fun j z hz hzc => fmtInt_no_comma j (hzc ▸ hz)
    have hlit : ∀ l : Str, ',' ∉ l → ∀ z ∈ l, z ≠ ',' := fun l hl z hz hzc => hl (hzc ▸ hz)
    simp only [List.mem_append] at hx
    rcases hx with (((((hx | hx) | hx) | hx) | hx) | hx) | hx
    · exact hcol x hx
    · exact hlit _ (by decide) x hx
    · exact hnum _ x hx
    · exact hlit _ (by decide) x hx
    · exact hcol x hx
    · exact hlit _ (by decide) x hx
    · exact hnum _ x hx
  · exact hm x hx

/-! ## Exact rules for loops over a class -/

theorem star_nil_run (e : Re) (c : Caps) (k : Cont) : (Re.star e).run [] c k = k [] c := rfl

/-- A greedy loop over a class in front of a class member: first go on, then stop. -/
theorem star_cls_cons (p : Char → Bool) (x : Char) (t : Str) (c : Caps) (k : Cont)
    (hx : p x = true) :
    (Re.star (Re.cls p)).run (x :: t) c k =
      match (Re.star (Re.cls p)).run t c k with
      | some r => some r
      | none => k (x :: t) c := by
  show starLoop (Re.cls p).run (t.length + 1) (x :: t) c k =
    match starLoop (Re.cls p).run t.length t c k with
    | some r => some r
    | none => k (x :: t) c
  rw [starLoop, cls_run_cons]
  simp [hx]

theorem plus_cls_cons (p : Char → Bool) (x : Char) (t : Str) (c : Caps) (k : Cont) :
    (Re.plus (Re.cls p)).run (x :: t) c k =
      if p x then (Re.star (Re.cls p)).run t c k else none := rfl

theorem plus_cls_nil (p : Char → Bool) (c : Caps) (k : Cont) :
    (Re.plus (Re.cls p)).run [] c k = none := rfl

/-- What a successful greedy loop over a class has read: class members only. -/
theorem star_cls_some (p : Char → Bool) : ∀ (s : Str) (c : Caps) (k : Cont) (r : Str × Caps),
    (Re.star (Re.cls p)).run s c k = some r →
      ∃ a b, s = a ++ b ∧ (∀ x ∈ a, p x = true) ∧ k b c = some r := by
  intro s
  induction s with
  | nil =>
    intro c k r h
    exact ⟨[], [], rfl, by simp, h⟩
  | cons x t ih =>
    intro c k r h
    cases hx : p x with
    | false =>
      rw [star_cls_stop p x t c k hx] at h
      exact ⟨[], x :: t, rfl, by simp, h⟩
    | true =>
      rw [star_cls_cons p x t c k hx] at h
      cases hr : (Re.star (Re.cls p)).run t c k with
      | none =>
        rw [hr] at h
        exact ⟨[], x :: t, rfl, by simp, h⟩
      | some r' =>
        rw [hr] at h
        have e : r' = r := by simpa using h
        rw [e] at hr
        obtain ⟨a, b, hab, ha, hk⟩ := ih c k r hr
        refine ⟨x :: a, b, by rw [hab]; rfl, ?_, hk⟩
        intro y hy
        rcases List.mem_cons.1 hy with rfl | hy
        · exact hx
        · exact ha y hy

theorem plus_cls_some (p : Char → Bool) (s : Str) (c : Caps) (k : Cont) (r : Str × Caps)
    (h : (Re.plus (Re.cls p)).run s c k = some r) :
    ∃ a b, s = a ++ b ∧ a ≠ [] ∧ (∀ x ∈ a, p x = true) ∧ k b c = some r := by
  cases s with
  | nil => rw [plus_cls_nil] at h; cases h
  | cons x t =>
    rw [plus_cls_cons] at h
    split at h
    · rename_i hx
      obtain ⟨a, b, hab, ha, hk⟩ := star_cls_some p t c k r h
      refine ⟨x :: a, b, by rw [hab]; rfl, by simp, ?_, hk⟩
      intro y hy
      rcases List.mem_cons.1 hy with rfl | hy
      · exact hx
      · exact ha y hy
    · cases h

theorem cap_plus_cls_some (n : Nat) (p : Char → Bool) (s : Str) (c : Caps) (k : Cont)
    (r : Str × Caps) (h : (Re.cap n (Re.plus (Re.cls p))).run s c k = some r) :
    ∃ a b, s = a ++ b ∧ a ≠ [] ∧ (∀ x ∈ a, p x = true) ∧ k b ((n, a) :: c) = some r := by
  rw [Re.run] at h
  obtain ⟨a, b, hab, hne, ha, hk⟩ := plus_cls_some p s c _ r h
  refine ⟨a, b, hab, hne, ha, ?_⟩
  subst hab
  simpa using hk

theorem lit_some (a : Char) (s : Str) (c : Caps) (k : Cont) (r : Str × Caps)
    (h : (Re.lit a).run s c k = some r) : ∃ t, s = a :: t ∧ k t c = some r := by
  cases s with
  | nil => rw [lit_run_nil] at h; cases h
  | cons x t =>
    rw [lit_run_cons] at h
    split at h
    · rename_i hx
      exact ⟨t, by rw [hx], h⟩
    · cases h

/-! ## The match found again in the matched text -/

/-- A pattern fails when what follows it fails at every suffix of the input. -/
theorem run_none_of_suffix_none (e : Re) (s : Str) (c : Caps) (k : Cont)
    (h : ∀ s' c', s' <:+ s → k s' c' = none) : e.run s c k = none := by
  cases hr : e.run s c k with
  | none => rfl
  | some r =>
    obtain ⟨s', c', hsuf, _, hk⟩ :=
      run_inv (fun _ => True) e s c k r (fun _ _ => trivial) (fun _ _ _ _ => trivial) hr
    rw [h s' c' hsuf] at hk
    cases hk

theorem starLoop_none_of_suffix_none (a : Re) (n : Nat) (s : Str) (c : Caps) (k : Cont)
    (h : ∀ s' c', s' <:+ s → k s' c' = none) : starLoop a.run n s c k = none := by
  cases hr : starLoop a.run n s c k with
  | none => rfl
  | some r =>
    obtain ⟨s', c', hsuf, _, hk⟩ :=
      starLoop_inv (fun _ => True) a.run (run_inv (fun _ => True) a) n s c k r
        (fun _ _ => trivial) (fun _ _ _ _ => trivial) hr
    rw [h s' c' hsuf] at hk
    cases hk

theorem follows_match (r1 r2 : Str × Caps) (x1 x2 y1 y2 : Res) :
    (x1 = none → x2 = none) → (x1 = some r1 → x2 = some r2) →
    (y1 = none → y2 = none) → (y1 = some r1 → y2 = some r2) →
    ((match x1 with | some r => some r | none => y1) = none →
      (match x2 with | some r => some r | none => y2) = none) ∧
    ((match x1 with | some r => some r | none => y1) = some r1 →
      (match x2 with | some r => some r | none => y2) = some r2) := by
  intro hn hs hn' hs'
  cases h1 : x1 with
  | none =>
    rw [hn h1]
    exact ⟨hn', hs'⟩
  | some q =>
    refine ⟨fun h => (by cases h), fun h => ?_⟩
    have e : q = r1 := by simpa using h
    rw [hs (by rw [h1, e])]

theorem starLoop_follows (r1 r2 : Str × Caps) (step : Str → Caps → Cont → Res)
    (hstep : ∀ (s : Str) (c : Caps) (k1 k2 : Cont), Follows r1 r2 k1 k2 →
      (step s c k1 = none → step s c k2 = none) ∧
      (step s c k1 = some r1 → step s c k2 = some r2)) :
    ∀ (n : Nat) (s : Str) (c : Caps) (k1 k2 : Cont), Follows r1 r2 k1 k2 →
      (starLoop step n s c k1 = none → starLoop step n s c k2 = none) ∧
      (starLoop step n s c k1 = some r1 → starLoop step n s c k2 = some r2) := by
  intro n
  induction n with
  | zero => intro s c k1 k2 hk; exact ⟨hk.1 s c, hk.2 s c⟩
  | succ n ih =>
    intro s c k1 k2 hk
    have hin : Follows r1 r2
        (fun s' c' => if s'.length < s.length then starLoop step n s' c' k1 else none)
        (fun s' c' => if s'.length < s.length then starLoop step n s' c' k2 else none) := by
      constructor
      · intro s' c' h
        by_cases hlt : s'.length < s.length
        · simp only [if_pos hlt] at h ⊢
          exact (ih s' c' k1 k2 hk).1 h
        · simp only [if_neg hlt]
      · intro s' c' h
        by_cases hlt : s'.length < s.length
        · simp only [if_pos hlt] at h ⊢
          exact (ih s' c' k1 k2 hk).2 h
        · simp only [if_neg hlt] at h
          cases h
    have hst := hstep s c _ _ hin
    rw [starLoop, starLoop]
    exact follows_match r1 r2 _ _ _ _ hst.1 hst.2 (hk.1 s c) (hk.2 s c)

/-- The answer of a pattern follows the answers of what comes after it. -/
theorem run_follows (r1 r2 : Str × Caps) (e : Re) :
    ∀ (s : Str) (c : Caps) (k1 k2 : Cont), Follows r1 r2 k1 k2 →
      (e.run s c k1 = none → e.run s c k2 = none) ∧
      (e.run s c k1 = some r1 → e.run s c k2 = some r2) := by
  induction e with
  | lit a =>
    intro s c k1 k2 hk
    cases s with
    | nil => exact ⟨fun _ => rfl, fun h => (by rw [lit_run_nil] at h; cases h)⟩
    | cons x t =>
      rw [lit_run_cons, lit_run_cons]
      by_cases hx : x = a
      · rw [if_pos hx, if_pos hx]
        exact ⟨hk.1 t c, hk.2 t c⟩
      · rw [if_neg hx, if_neg hx]
        exact ⟨fun _ => rfl, fun h => (by cases h)⟩
  | cls p =>
    intro s c k1 k2 hk
    cases s with
    | nil => exact ⟨fun _ => rfl, fun h => (by rw [cls_run_nil] at h; cases h)⟩
    | cons x t =>
      rw [cls_run_cons, cls_run_cons]
      by_cases hx : p x = true
      · rw [if_pos hx, if_pos hx]
        exact ⟨hk.1 t c, hk.2 t c⟩
      · rw [if_neg hx, if_neg hx]
        exact ⟨fun _ => rfl, fun h => (by cases h)⟩
  | cat a b iha ihb =>
    intro s c k1 k2 hk
    rw [Re.run, Re.run]
    exact iha s c _ _ ⟨fun s' c' => (ihb s' c' k1 k2 hk).1, fun s' c' => (ihb s' c' k1 k2 hk).2⟩
  | star a iha =>
    intro s c k1 k2 hk
    rw [Re.run, Re.run]
    exact starLoop_follows r1 r2 a.run iha _ s c k1 k2 hk
  | plus a iha =>
    intro s c k1 k2 hk
    rw [Re.run, Re.run]
    exact iha s c _ _
      ⟨fun s' c' => (starLoop_follows r1 r2 a.run iha _ s' c' k1 k2 hk).1,
        fun s' c' => (starLoop_follows r1 r2 a.run iha _ s' c' k1 k2 hk).2⟩
  | quest a iha =>
    intro s c k1 k2 hk
    rw [Re.run, Re.run]
    have h := iha s c k1 k2 hk
    exact follows_match r1 r2 _ _ _ _ h.1 h.2 (hk.1 s c) (hk.2 s c)
  | cap n a iha =>
    intro s c k1 k2 hk
    rw [Re.run, Re.run]
    exact iha s c _ _ ⟨fun s' c' => hk.1 s' _, fun s' c' => hk.2 s' _⟩
  | emp =>
    intro s c k1 k2 hk
    exact ⟨hk.1 s c, hk.2 s c⟩

theorem starLoop_truncate (rest : Str) (a : Re)
    (iha : ∀ (u : Str) (c : Caps) (k k' : Cont),
      (∀ v c', v <:+ u → k' v c' = k (v ++ rest) c') →
      (∀ s' c', s'.length < rest.length → k s' c' = none) →
      a.run u c k' = a.run (u ++ rest) c k) :
    ∀ (n : Nat) (u : Str) (c : Caps) (k k' : Cont), u.length ≤ n →
      (∀ v c', v <:+ u → k' v c' = k (v ++ rest) c') →
      (∀ s' c', s'.length < rest.length → k s' c' = none) →
      starLoop a.run n u c k' = starLoop a.run (n + rest.length) (u ++ rest) c k := by
  intro n
  induction n with
  | zero =>
    intro u c k k' hn hk hshort
    have hu : u = [] := List.length_eq_zero.1 (Nat.le_zero.1 hn)
    subst hu
    rw [starLoop, hk [] c (List.suffix_refl _), List.nil_append, Nat.zero_add]
    cases hr : rest.length with
    | zero => rfl
    | succ m =>
      rw [starLoop, run_none_of_suffix_none a rest c _]
      intro s' c' hsuf
      by_cases hlt : s'.length < rest.length
      · rw [if_pos hlt]
        apply starLoop_none_of_suffix_none
        intro s'' c'' hsuf'
        exact hshort s'' c'' (lt_of_le_of_lt hsuf'.length_le hlt)
      · rw [if_neg hlt]
  | succ n ih =>
    intro u c k k' hn hk hshort
    have e : n + 1 + rest.length = (n + rest.length) + 1 := by omega
    rw [e, starLoop, starLoop]
    have hin : a.run u c
          (fun s' c' => if s'.length < u.length then starLoop a.run n s' c' k' else none) =
        a.run (u ++ rest) c (fun s' c' =>
          if s'.length < (u ++ rest).length then starLoop a.run (n + rest.length) s' c' k
          else none) := by
      apply iha
      · intro v c' hv
        have hvl := hv.length_le
        by_cases hlt : v.length < u.length
        · have hlt' : (v ++ rest).length < (u ++ rest).length := by
            simp only [List.length_append]; omega
          rw [if_pos hlt, if_pos hlt']
          exact ih v c' k k' (by omega) (fun w c'' hw => hk w c'' (hw.trans hv)) hshort
        · have hlt' : ¬ (v ++ rest).length < (u ++ rest).length := by
            simp only [List.length_append]; omega
          rw [if_neg hlt, if_neg hlt']
      · intro s' c' hs'
        by_cases hlt : s'.length < (u ++ rest).length
        · rw [if_pos hlt]
          apply starLoop_none_of_suffix_none
          intro s'' c'' hsuf'
          exact hshort s'' c'' (lt_of_le_of_lt hsuf'.length_le hs')
        · rw [if_neg hlt]
    rw [hin, hk u c (List.suffix_refl _)]

/-- Cutting the input behind a match does not change the attempts that stay
in front of the cut: a pattern run on `u` behaves as on `u ++ rest`, as long as
what follows it refuses any input shorter than `rest`. -/
theorem run_truncate (rest : Str) (e : Re) :
    ∀ (u : Str) (c : Caps) (k k' : Cont),
      (∀ v c', v <:+ u → k' v c' = k (v ++ rest) c') →
      (∀ s' c', s'.length < rest.length → k s' c' = none) →
      e.run u c k' = e.run (u ++ rest) c k := by
  induction e with
  | lit a =>
    intro u c k k' hk hshort
    cases u with
    | nil =>
      rw [lit_run_nil, List.nil_append]
      cases rest with
      | nil => rfl
      | cons x t =>
        rw [lit_run_cons, hshort t c (by simp)]
        simp
    | cons x t =>
      rw [List.cons_append, lit_run_cons, lit_run_cons, hk t c (List.suffix_cons x t)]
  | cls p =>
    intro u c k k' hk hshort
    cases u with
    | nil =>
      rw [cls_run_nil, List.nil_append]
      cases rest with
      | nil => rfl
      | cons x t =>
        rw [cls_run_cons, hshort t c (by simp)]
        simp
    | cons x t =>
      rw [List.cons_append, cls_run_cons, cls_run_cons, hk t c (List.suffix_cons x t)]
  | cat a b iha ihb =>
    intro u c k k' hk hshort
    rw [Re.run, Re.run]
    apply iha
    · intro v c' hv
      exact ihb v c' k k' (fun w c'' hw => hk w c'' (hw.trans hv)) hshort
    · intro s' c' hs'
      apply run_none_of_suffix_none
      intro s'' c'' hsuf
      exact hshort s'' c'' (lt_of_le_of_lt hsuf.length_le hs')
  | star a iha =>
    intro u c k k' hk hshort
    rw [Re.run, Re.run, List.length_append]
    exact starLoop_truncate rest a iha u.length u c k k' (le_refl _) hk hshort
  | plus a iha =>
    intro u c k k' hk hshort
    rw [Re.run, Re.run]
    apply iha
    · intro v c' hv
      rw [List.length_append]
      exact starLoop_truncate rest a iha v.length v c' k k' (le_refl _)
        (fun w c'' hw => hk w c'' (hw.trans hv)) hshort
    · intro s' c' hs'
      apply starLoop_none_of_suffix_none
      intro s'' c'' hsuf
      exact hshort s'' c'' (lt_of_le_of_lt hsuf.length_le hs')
  | quest a iha =>
    intro u c k k' hk hshort
    rw [Re.run, Re.run, iha u c k k' hk hshort, hk u c (List.suffix_refl _)]
  | cap n a iha =>
    intro u c k k' hk hshort
    rw [Re.run, Re.run]
    apply iha
    · intro v c' hv
      have hvl := hv.length_le
      have e : (u ++ rest).length - (v ++ rest).length = u.length - v.length := by
        simp only [List.length_append]; omega
      have e2 : List.take (u.length - v.length) (u ++ rest) = List.take (u.length - v.length) u :=
        List.take_append_of_le_length (by omega)
      show k' v _ = k (v ++ rest) _
      rw [hk v _ hv, e, e2]
    · intro s' c' hs'
      exact hshort s' _ hs'
  | emp =>
    intro u c k k' hk _
    exact hk u c (List.suffix_refl _)

/-- The match found in a text is found again, alone and with the same bound
texts, in the matched part of the text. -/
theorem matchAt_rematch (r : Regexp) (u rest : Str) (c : Caps)
    (h : r.matchAt (u ++ rest) = some (rest, c)) : r.matchAt u = some ([], c) := by
  simp only [Regexp.matchAt] at h ⊢
  have h1 : r.re.run (u ++ rest) []
      (fun s' c' => if rest.length ≤ s'.length then some (s', c') else none) =
      some (rest, c) := by
    refine (run_follows (rest, c) (rest, c) r.re (u ++ rest) [] _ _ ⟨?_, ?_⟩).2 h
    · intro s' c' hk; cases hk
    · intro s' c' hk
      have e : s' = rest ∧ c' = c := by simpa using hk
      rw [e.1, e.2]
      simp
  have h2 : r.re.run u [] (fun v c' => some (v ++ rest, c')) = some (rest, c) := by
    rw [← h1]
    apply run_truncate
    · intro v c' _
      simp
    · intro s' c' hs'
      simp [Nat.not_le.2 hs']
  refine (run_follows (rest, c) ([], c) r.re u [] _ _ ⟨?_, ?_⟩).2 h2
  · intro s' c' hk; cases hk
  · intro s' c' hk
    have e : s' ++ rest = rest ∧ c' = c := by simpa using hk
    have e1 : s' = [] := by
      have := congrArg List.length e.1
      simp only [List.length_append] at this
      exact List.length_eq_zero.1 (by omega)
    rw [e1, e.2]

/-- `FindStringSubmatch`, run on the text of a match, returns that text whole
and the texts that the match has bound. -/
theorem findSubmatch_rematch (r : Regexp) (s rest : Str) (c : Caps)
    (h : r.matchAt s = some (rest, c)) :
    r.FindStringSubmatch (s.take (s.length - rest.length)) =
      s.take (s.length - rest.length) :: r.groups c := by
  obtain ⟨u, rfl⟩ := matchAt_suffix r s rest c h
  have e : (u ++ rest).take ((u ++ rest).length - rest.length) = u := by simp
  rw [e]
  have hm := matchAt_rematch r u rest c h
  cases u with
  | nil => simp [Regexp.FindStringSubmatch, hm]
  | cons x t => simp [Regexp.FindStringSubmatch, hm]

/-- The patterns of `$__time` and `$__timeFilter` fail at an empty argument list. -/
theorem paren_none (l suf : Str) (n : Nat) :
    Regexp.matchAt ⟨Re.seq [Re.str l, .cap 1 (.plus (.cls (notRune ')'))), .lit ')'], n⟩
      (l ++ (")".toList ++ suf)) = none := by
  simp only [Regexp.matchAt]
  rw [seq_cons_run, str_run, isPrefixOf_append_self, if_pos rfl, List.drop_left, seq_cons_run,
    Re.run]
  have e : ")".toList ++ suf = ')' :: suf := rfl
  rw [e, plus_cls_cons]
  rfl

/-- The whole function leaves `$__time()` as it is. -/
theorem interpolate_time_empty (pre suf : Str) (from_ to_ : Int) (hpre : '$' ∉ pre)
    (hsuf : '$' ∉ suf) :
    InterpolateMacros (pre ++ ('$' :: ("__time()".toList ++ suf))) from_ to_ =
      pre ++ ('$' :: ("__time()".toList ++ suf)) := by
  have p1 := string_pass_foreign dollar_timeReg "to_unixtime($1) as time".toList pre
    "__time()".toList suf hpre (by decide) hsuf (paren_none "$__time(".toList suf 1)
  have p2 := func_pass_foreign dollar_timeFilterReg (timeFilterRepl from_ to_) pre
    "__time()".toList suf hpre (by decide) hsuf
    (timeFilterReg_none "$__time(".toList (")".toList ++ suf) rfl rfl)
  have p3 := func_pass_foreign dollar_timeGroupReg timeGroupRepl pre
    "__time()".toList suf hpre (by decide) hsuf
    (timeGroupReg_none "$__time(".toList (")".toList ++ suf) rfl rfl)
  have p4 := func_pass_foreign dollar_timeGroupAliasReg timeGroupAliasRepl pre
    "__time()".toList suf hpre (by decide) hsuf
    (timeGroupAliasReg_none "$__time(".toList (")".toList ++ suf) rfl rfl)
  simp only [InterpolateMacros]
  rw [p1, p2, p3, p4]

/-- The whole function leaves `$__timeFilter()` as it is. -/
theorem interpolate_timeFilter_empty (pre suf : Str) (from_ to_ : Int) (hpre : '$' ∉ pre)
    (hsuf : '$' ∉ suf) :
    InterpolateMacros (pre ++ ('$' :: ("__timeFilter()".toList ++ suf))) from_ to_ =
      pre ++ ('$' :: ("__timeFilter()".toList ++ suf)) := by
  have p1 := string_pass_foreign dollar_timeReg "to_unixtime($1) as time".toList pre
    "__timeFilter()".toList suf hpre (by decide) hsuf
    (timeReg_none "$__timeFilter(".toList (")".toList ++ suf) rfl rfl)
  have p2 := func_pass_foreign dollar_timeFilterReg (timeFilterRepl from_ to_) pre
    "__timeFilter()".toList suf hpre (by decide) hsuf (paren_none "$__timeFilter(".toList suf 1)
  have p3 := func_pass_foreign dollar_timeGroupReg timeGroupRepl pre
    "__timeFilter()".toList suf hpre (by decide) hsuf
    (timeGroupReg_none "$__timeFilter(".toList (")".toList ++ suf) rfl rfl)
  have p4 := func_pass_foreign dollar_timeGroupAliasReg timeGroupAliasRepl pre
    "__timeFilter()".toList suf hpre (by decide) hsuf
    (timeGroupAliasReg_none "$__timeFilter(".toList (")".toList ++ suf) rfl rfl)
  simp only [InterpolateMacros]
  rw [p1, p2, p3, p4]

/-! ## A fill argument of spaces, and a third argument of `$__timeGroupAlias` -/

/-- A greedy loop over a run of one class member gives back one rune when the
rest of the pattern needs it. -/
theorem star_cls_replicate (p : Char → Bool) (y : Char) (b : Str) (c : Caps) (k : Cont)
    (r : Str × Caps) (hy : p y = true) (hb : ∀ x ∈ b.head?, p x = false)
    (hnone : k b c = none) (hsome : k (y :: b) c = some r) :
    ∀ n : Nat, (Re.star (Re.cls p)).run (List.replicate (n + 1) y ++ b) c k = some r := by
  have hstop : (Re.star (Re.cls p)).run b c k = none := by
    cases b with
    | nil => exact hnone
    | cons x t => rw [star_cls_stop p x t c k (hb x rfl)]; exact hnone
  intro n
  induction n with
  | zero =>
    show (Re.star (Re.cls p)).run (y :: b) c k = some r
    rw [star_cls_cons p y b c k hy, hstop]
    exact hsome
  | succ n ih =>
    show (Re.star (Re.cls p)).run (y :: (List.replicate (n + 1) y ++ b)) c k = some r
    rw [star_cls_cons p y _ c k hy, ih]

/-- The `$__timeGroup` pattern at an invocation whose third argument is made of spaces. -/
theorem timeGroupReg_match_spaces (c i suf : Str) (n : Nat) (hc : c ≠ []) (hcomma : ',' ∉ c)
    (hsp : ∀ x ∈ c.head?, reSpace x = false) (hi : i ≠ []) (hq : '\'' ∉ i) :
    timeGroupReg.matchAt ("$__timeGroup(".toList ++ (c ++ (", '".toList ++ (i ++
      ("'".toList ++ (",".toList ++ (List.replicate (n + 1) ' ' ++ (")".toList ++ suf)))))))) =
      some (suf, [(3, [' ']), (2, i), (1, c)]) := by
  simp only [Regexp.matchAt, timeGroupReg]
  rw [seq_cons_run, str_run, isPrefixOf_append_self, if_pos rfl, List.drop_left]
  apply group_head_run _ c i _ _ _ hc hcomma hsp hi hq
  have e : ",".toList ++ (List.replicate (n + 1) ' ' ++ (")".toList ++ suf)) =
      ',' :: (List.replicate (n + 1) ' ' ++ ')' :: suf) := rfl
  rw [e, seq_cons_run]
  apply quest_some
  rw [seq_cons_run, star_cls_stop _ _ _ _ _ (by rfl), seq_cons_run, lit_run_cons, if_pos rfl,
    seq_cons_run]
  apply star_cls_replicate reSpace ' ' (')' :: suf) _ _ _ (by rfl)
  · intro x hx
    cases hx
    rfl
  · show (Re.cap 3 (Re.plus (Re.cls (notRune ')')))).run (')' :: suf) _ _ = none
    rw [Re.run, plus_cls_cons]
    rfl
  · show (Re.cap 3 (Re.plus (Re.cls (notRune ')')))).run ([' '] ++ ')' :: suf) _ _ = some _
    apply cap_plus_cls_run 3 (notRune ')') [' '] _ _ _ _ (by simp)
    · intro x hx
      rw [List.mem_singleton.1 hx]
      rfl
    · intro x hx
      cases hx
      rfl
    show (Re.seq [Re.star (Re.cls reSpace), Re.lit ')']).run (')' :: suf) _ _ = some _
    rw [seq_cons_run, star_cls_stop _ _ _ _ _ (by rfl)]
    rfl

/-- The callback of a pass, at the text of a match, sees the groups of the match. -/
theorem findSubmatch_of_matchAt_append (r : Regexp) (m suf : Str) (c : Caps)
    (h : r.matchAt (m ++ suf) = some (suf, c)) : r.FindStringSubmatch m = m :: r.groups c := by
  have := findSubmatch_rematch r (m ++ suf) suf c h
  simpa using this

/-- The whole function at a lone `$__timeGroup` invocation whose third argument
is made of spaces. -/
theorem interpolate_timeGroup_spaces (c i : Str) (n : Nat) (from_ to_ : Int) (hne : c ≠ [])
    (hcomma : ',' ∉ c) (hc : '$' ∉ c) (htrim : Trimmed c) (hi : i ≠ []) (hq : '\'' ∉ i)
    (hid : '$' ∉ i) :
    InterpolateMacros ("$__timeGroup(".toList ++ (c ++ (", '".toList ++ (i ++
      ("'".toList ++ (",".toList ++ (List.replicate (n + 1) ' ' ++ (")".toList ++ []))))))))
      from_ to_ = timeSeries c i "''".toList := by
  have hsp : '$' ∉ List.replicate (n + 1) ' ' := by
    intro h
    have := List.eq_of_mem_replicate h
    revert this
    decide
  have hrest : '$' ∉ c ++ (", '".toList ++ (i ++ ("'".toList ++ (",".toList ++
      (List.replicate (n + 1) ' ' ++ (")".toList ++ [])))))) :=
    List.not_mem_append hc (List.not_mem_append (by decide) (List.not_mem_append hid
      (List.not_mem_append (by decide) (List.not_mem_append (by decide)
        (List.not_mem_append hsp (by decide))))))
  have e : "$__timeGroup(".toList ++ (c ++ (", '".toList ++ (i ++
      ("'".toList ++ (",".toList ++ (List.replicate (n + 1) ' ' ++ (")".toList ++ []))))))) =
      [] ++ ('$' :: ("__timeGroup(".toList ++ (c ++ (", '".toList ++ (i ++
      ("'".toList ++ (",".toList ++ (List.replicate (n + 1) ' ' ++ (")".toList ++ []))))))))) :=
    rfl
  have p1 := string_pass_foreign dollar_timeReg "to_unixtime($1) as time".toList []
    "__timeGroup(".toList _ (by simp) (by decide) hrest
    (timeReg_none "$__timeGroup(".toList _ rfl rfl)
  have p2 := func_pass_foreign dollar_timeFilterReg (timeFilterRepl from_ to_) []
    "__timeGroup(".toList _ (by simp) (by decide) hrest
    (timeFilterReg_none "$__timeGroup(".toList _ rfl rfl)
  have hm := timeGroupReg_match_spaces c i [] n hne hcomma htrim.head hi hq
  have e3 : [] ++ ('$' :: ("__timeGroup(".toList ++ (c ++ (", '".toList ++ (i ++
      ("'".toList ++ (",".toList ++ (List.replicate (n + 1) ' ' ++ (")".toList ++ [])))))))))
      = [] ++ ("$__timeGroup(".toList ++ (c ++ (", '".toList ++ (i ++
      ("'".toList ++ (",".toList ++ (List.replicate (n + 1) ' ' ++ (")".toList ++ [])))))))
        ++ []) := by
    simp
  have hm' : timeGroupReg.matchAt ("$__timeGroup(".toList ++ (c ++ (", '".toList ++ (i ++
      ("'".toList ++ (",".toList ++ (List.replicate (n + 1) ' ' ++ (")".toList ++ [])))))))
        ++ []) = some ([], [(3, [' ']), (2, i), (1, c)]) := by
    rw [List.append_nil]; exact hm
  have p3 := func_pass_one dollar_timeGroupReg timeGroupRepl [] _ [] _ (by simp) (by simp) hm'
  have hparts := findSubmatch_of_matchAt_append timeGroupReg _ [] _ hm'
  have hg : timeGroupReg.groups [(3, [' ']), (2, i), (1, c)] = [c, i, [' ']] := rfl
  have hrepl : timeGroupRepl ("$__timeGroup(".toList ++ (c ++ (", '".toList ++ (i ++
      ("'".toList ++ (",".toList ++ (List.replicate (n + 1) ' ' ++ (")".toList ++ []))))))))
      = timeSeries c i "''".toList := by
    have t1 : TrimSpace [' '] = [] := by decide
    simp only [timeGroupRepl, hparts, hg]
    simp [t1, timeSeries, ToLower]
  have hout : '$' ∉ [] ++ (timeSeries c i "''".toList ++ []) := by
    rw [List.nil_append, List.append_nil]
    exact timeSeries_no_dollar c i _ hc hid (by decide)
  simp only [InterpolateMacros]
  rw [e, p1, p2, e3, p3, hrepl, timeGroupAlias_pass_plain _ _ hout]
  simp

/-- A text is cut in one way only at the first occurrence of a rune. -/
theorem append_cons_unique (d : Char) : ∀ (x x' y y' : Str), x ++ d :: y = x' ++ d :: y' →
    d ∉ x → d ∉ x' → x = x' ∧ y = y' := by
  intro x
  induction x with
  | nil =>
    intro x' y y' h _ hx'
    cases x' with
    | nil => exact ⟨rfl, by simpa using h⟩
    | cons z x' =>
      exfalso
      have : d = z := by simpa using (List.cons.inj h).1
      exact hx' (by simp [this])
  | cons a x ih =>
    intro x' y y' h hx hx'
    cases x' with
    | nil =>
      exfalso
      have : a = d := by simpa using (List.cons.inj h).1
      exact hx (by simp [this])
    | cons z x' =>
      have h1 := List.cons.inj h
      obtain ⟨e1, e2⟩ := ih x' y y' h1.2 (fun hm => hx (List.mem_cons_of_mem _ hm))
        (fun hm => hx' (List.mem_cons_of_mem _ hm))
      exact ⟨by rw [h1.1, e1], e2⟩

theorem reSpace_not_mem (d : Char) (hd : reSpace d = false) (a : Str)
    (ha : ∀ x ∈ a, reSpace x = true) : d ∉ a := by
  intro h
  rw [ha d h] at hd
  cases hd

theorem notRune_not_mem (d : Char) (a : Str) (ha : ∀ x ∈ a, notRune d x = true) : d ∉ a := by
  intro h
  have := ha d h
  simp [notRune] at this

/-- The common start of the two grouping patterns, read backwards: when the
pattern succeeds on a text that has an interval in quotes behind its first
comma, the rest of the pattern has succeeded behind the closing quote, with
the interval bound to group 2. -/
theorem group_head_some (es : List Re) (c w i rest : Str) (k : Cont) (r : Str × Caps)
    (hcomma : ',' ∉ c) (hw : '\'' ∉ w) (hq : '\'' ∉ i)
    (h : (Re.seq (.star (.cls reSpace) :: .cap 1 (.plus (.cls (notRune ','))) ::
      .star (.cls reSpace) :: .lit ',' :: .star (.cls reSpace) :: .lit '\'' ::
      .cap 2 (.plus (.cls (notRune '\''))) :: .lit '\'' :: es)).run
      (c ++ ',' :: (w ++ '\'' :: (i ++ '\'' :: rest))) [] k = some r) :
    ∃ col, (Re.seq es).run rest [(2, i), (1, col)] k = some r := by
  rw [seq_cons_run] at h
  obtain ⟨a1, s1, e1, ha1, h⟩ := star_cls_some reSpace _ _ _ _ h
  rw [seq_cons_run] at h
  obtain ⟨g, s2, e2, _, hg, h⟩ := cap_plus_cls_some 1 (notRune ',') _ _ _ _ h
  rw [seq_cons_run] at h
  obtain ⟨a2, s3, e3, ha2, h⟩ := star_cls_some reSpace _ _ _ _ h
  rw [seq_cons_run] at h
  obtain ⟨s4, e4, h⟩ := lit_some ',' _ _ _ _ h
  rw [seq_cons_run] at h
  obtain ⟨a3, s5, e5, ha3, h⟩ := star_cls_some reSpace _ _ _ _ h
  rw [seq_cons_run] at h
  obtain ⟨s6, e6, h⟩ := lit_some '\'' _ _ _ _ h
  rw [seq_cons_run] at h
  obtain ⟨g2, s7, e7, _, hg2, h⟩ := cap_plus_cls_some 2 (notRune '\'') _ _ _ _ h
  rw [seq_cons_run] at h
  obtain ⟨s8, e8, h⟩ := lit_some '\'' _ _ _ _ h
  have k1 : c ++ ',' :: (w ++ '\'' :: (i ++ '\'' :: rest)) = (a1 ++ (g ++ a2)) ++ ',' :: s4 := by
    rw [e1, e2, e3, e4]; simp
  have n1 : ',' ∉ a1 ++ (g ++ a2) :=
    List.not_mem_append (reSpace_not_mem ',' (by rfl) a1 ha1)
      (List.not_mem_append (notRune_not_mem ',' g hg) (reSpace_not_mem ',' (by rfl) a2 ha2))
  have u1 := (append_cons_unique ',' _ _ _ _ k1 hcomma n1).2
  have k2 : w ++ '\'' :: (i ++ '\'' :: rest) = a3 ++ '\'' :: s6 := by
    rw [u1, e5, e6]
  have u2 := (append_cons_unique '\'' _ _ _ _ k2 hw (reSpace_not_mem '\'' (by rfl) a3 ha3)).2
  have k3 : i ++ '\'' :: rest = g2 ++ '\'' :: s8 := by
    rw [u2, e7, e8]
  have u3 := append_cons_unique '\'' _ _ _ _ k3 hq (notRune_not_mem '\'' g2 hg2)
  refine ⟨g, ?_⟩
  rw [u3.1, u3.2]
  exact h

/-- The `$__timeGroupAlias` pattern fails at an invocation with a comma behind the interval. -/
theorem timeGroupAliasReg_none_third (c w i t : Str) (hcomma : ',' ∉ c) (hw : '\'' ∉ w)
    (hq : '\'' ∉ i) :
    timeGroupAliasReg.matchAt ("$__timeGroupAlias(".toList ++
      (c ++ ',' :: (w ++ '\'' :: (i ++ '\'' :: ',' :: t)))) = none := by
  cases hm : timeGroupAliasReg.matchAt ("$__timeGroupAlias(".toList ++
      (c ++ ',' :: (w ++ '\'' :: (i ++ '\'' :: ',' :: t)))) with
  | none => rfl
  | some r =>
    exfalso
    simp only [Regexp.matchAt, timeGroupAliasReg] at hm
    rw [seq_cons_run, str_run, isPrefixOf_append_self, if_pos rfl, List.drop_left] at hm
    obtain ⟨col, h⟩ := group_head_some _ c w i (',' :: t) _ r hcomma hw hq hm
    rw [seq_cons_run, star_cls_stop _ _ _ _ _ (by rfl), seq_cons_run, lit_run_cons,
      if_neg (by decide)] at h
    cases h

/-- The whole function leaves a `$__timeGroupAlias` invocation with a third argument as it is. -/
theorem interpolate_alias_third (c i t : Str) (from_ to_ : Int) (hcomma : ',' ∉ c)
    (hc : '$' ∉ c) (hq : '\'' ∉ i) (hid : '$' ∉ i) (ht : '$' ∉ t) :
    InterpolateMacros ('$' :: ("__timeGroupAlias(".toList ++
      (c ++ ',' :: ' ' :: '\'' :: (i ++ '\'' :: ',' :: t)))) from_ to_ =
      '$' :: ("__timeGroupAlias(".toList ++
        (c ++ ',' :: ' ' :: '\'' :: (i ++ '\'' :: ',' :: t))) := by
  have hrest : '$' ∉ c ++ ',' :: ' ' :: '\'' :: (i ++ '\'' :: ',' :: t) := by
    simp only [List.mem_append, List.mem_cons, not_or]
    exact ⟨hc, by decide, by decide, by decide, hid, by decide, by decide, ht⟩
  have p1 := string_pass_foreign dollar_timeReg "to_unixtime($1) as time".toList []
    "__timeGroupAlias(".toList _ (by simp) (by decide) hrest
    (timeReg_none "$__timeGroupAlias(".toList _ rfl rfl)
  have p2 := func_pass_foreign dollar_timeFilterReg (timeFilterRepl from_ to_) []
    "__timeGroupAlias(".toList _ (by simp) (by decide) hrest
    (timeFilterReg_none "$__timeGroupAlias(".toList _ rfl rfl)
  have p3 := func_pass_foreign dollar_timeGroupReg timeGroupRepl []
    "__timeGroupAlias(".toList _ (by simp) (by decide) hrest
    (timeGroupReg_none "$__timeGroupAlias(".toList _ rfl rfl)
  have p4 := func_pass_foreign dollar_timeGroupAliasReg timeGroupAliasRepl []
    "__timeGroupAlias(".toList _ (by simp) (by decide) hrest
    (timeGroupAliasReg_none_third c [' '] i t hcomma (by decide) hq)
  have e : '$' :: ("__timeGroupAlias(".toList ++
      (c ++ ',' :: ' ' :: '\'' :: (i ++ '\'' :: ',' :: t))) =
      [] ++ ('$' :: ("__timeGroupAlias(".toList ++
      (c ++ ',' :: ' ' :: '\'' :: (i ++ '\'' :: ',' :: t)))) := rfl
  simp only [InterpolateMacros]
  rw [e, p1, p2, p3, p4]

/-! ## The time range enters through `$__timeFilter` only -/

/-- What a match of the patterns of `$__time` and `$__timeFilter` looks like. -/
theorem paren_some (l : Str) (n : Nat) (s rest : Str) (c : Caps)
    (h : Regexp.matchAt ⟨Re.seq [Re.str l, .cap 1 (.plus (.cls (notRune ')'))), .lit ')'], n⟩ s =
      some (rest, c)) :
    ∃ X, X ≠ [] ∧ ')' ∉ X ∧ s = l ++ (X ++ ')' :: rest) ∧ c = [(1, X)] := by
  simp only [Regexp.matchAt] at h
  rw [seq_cons_run, str_run] at h
  split at h
  · rename_i hp
    obtain ⟨u, rfl⟩ := List.isPrefixOf_iff_prefix.1 hp
    rw [List.drop_left, seq_cons_run] at h
    obtain ⟨X, b, rfl, hX, hXp, h⟩ := cap_plus_cls_some 1 (notRune ')') _ _ _ _ h
    rw [seq_cons_run] at h
    obtain ⟨t, rfl, h⟩ := lit_some ')' _ _ _ _ h
    have e : t = rest ∧ [(1, X)] = c := by simpa [Re.seq, Re.run] using h
    exact ⟨X, hX, notRune_not_mem ')' X hXp, by rw [e.1], e.2.symm⟩
  · cases h

theorem time_step_match (s rest : Str) (c : Caps) (h : timeReg.matchAt s = some (rest, c)) :
    ∃ X, X ≠ [] ∧ ')' ∉ X ∧ s = "$__time(".toList ++ (X ++ ')' :: rest) ∧
      timeReg.replaceAll timeRepl false s =
        "to_unixtime(".toList ++ (X ++ (") as time".toList ++
          timeReg.replaceAll timeRepl false rest)) := by
  obtain ⟨X, hX, hXp, hs, hc⟩ := paren_some "$__time(".toList 1 s rest c h
  refine ⟨X, hX, hXp, hs, ?_⟩
  rw [replaceAll_match dollar_timeReg timeRepl false s rest c h,
    replaceAll_after dollar_timeReg timeRepl true rest, hc]
  have hx : timeRepl (List.take (s.length - rest.length) s) [(1, X)] =
      "to_unixtime(".toList ++ (X ++ ") as time".toList) := rfl
  rw [hx]
  simp

theorem NoTo.tail {z : Char} {v : Str} (h : NoTo (z :: v)) : NoTo v := by
  intro v2 hv2
  exact h v2 (by rw [List.tails_cons]; exact List.mem_cons_of_mem _ hv2)

/-- Such a text starts the output of the `$__time` pass only if it starts the input. -/
theorem time_pass_prefix : ∀ (t v : Str), NoTo v →
    v <+: timeReg.replaceAll timeRepl false t → v <+: t := by
  intro t
  induction t with
  | nil =>
    intro v _ h
    rw [replaceAll_nil dollar_timeReg] at h
    exact h
  | cons y t ih =>
    intro v hv h
    cases v with
    | nil => exact List.nil_prefix
    | cons z v =>
      cases hm : timeReg.matchAt (y :: t) with
      | none =>
        rw [replaceAll_cons_none timeReg timeRepl false y t hm] at h
        rw [List.cons_prefix_cons] at h ⊢
        exact ⟨h.1, ih v hv.tail h.2⟩
      | some q =>
        exfalso
        obtain ⟨rest, c⟩ := q
        obtain ⟨X, _, _, _, hra⟩ := time_step_match (y :: t) rest c hm
        rw [hra] at h
        have hto : ['t', 'o'] <+: "to_unixtime(".toList ++ (X ++ (") as time".toList ++
            timeReg.replaceAll timeRepl false rest)) := ⟨_, rfl⟩
        have hself := hv (z :: v) (by rw [List.tails_cons]; exact List.mem_cons_self _ _)
          (by simp)
        rcases List.prefix_or_prefix_of_prefix h hto with h' | h'
        · exact hself.1 h'
        · exact hself.2 h'

theorem suffix_append_cases : ∀ (a b t : Str), t <:+ a ++ b →
    t <:+ b ∨ ∃ a', a' ≠ [] ∧ a' <:+ a ∧ t = a' ++ b := by
  intro a
  induction a with
  | nil => intro b t h; exact Or.inl h
  | cons x a ih =>
    intro b t h
    rw [List.cons_append, List.suffix_cons_iff] at h
    rcases h with h | h
    · exact Or.inr ⟨x :: a, by simp, List.suffix_refl _, h⟩
    · rcases ih b t h with h' | ⟨a', hne, hsuf, ht⟩
      · exact Or.inl h'
      · exact Or.inr ⟨a', hne, hsuf.trans (List.suffix_cons x a), ht⟩

theorem prefix_of_prefix_append_cons (w a z : Str) (d : Char) (h : w <+: a ++ d :: z)
    (hd : d ∉ w) : w <+: a := by
  rcases List.prefix_or_prefix_of_prefix h (List.prefix_append a (d :: z)) with h' | h'
  · exact h'
  · obtain ⟨w2, rfl⟩ := h'
    rw [List.prefix_append_right_inj] at h
    cases w2 with
    | nil => simp
    | cons y w2 =>
      exfalso
      rw [List.cons_prefix_cons] at h
      exact hd (by simp [h.1])

/-- A text that starts with a dollar sign does not start a text whose first rune is another one. -/
theorem not_dollar_prefix (w a b : Str) (ha : a ≠ []) (hd : '$' ∉ a) (h : '$' :: w <+: a ++ b) :
    False := by
  cases a with
  | nil => exact ha rfl
  | cons x a =>
    rw [List.cons_append, List.cons_prefix_cons] at h
    exact hd (by rw [← h.1]; exact List.mem_cons_self _ _)

/-- The `$__time` pass brings no `$__timeFilter(` into a text. -/
theorem time_pass_no_filter : ∀ (n : Nat) (s : Str), s.length ≤ n →
    ¬ "$__timeFilter(".toList <:+: s →
    ∀ t, t <:+ timeReg.replaceAll timeRepl false s → ¬ "$__timeFilter(".toList <+: t := by
  intro n
  induction n with
  | zero =>
    intro s hn _ t ht hw
    have hs : s = [] := List.length_eq_zero.1 (Nat.le_zero.1 hn)
    subst hs
    rw [replaceAll_nil dollar_timeReg] at ht
    have : t = [] := List.suffix_nil.1 ht
    subst this
    simp at hw
  | succ n ih =>
    intro s hn hs t ht hw
    cases hm : timeReg.matchAt s with
    | none =>
      cases s with
      | nil =>
        rw [replaceAll_nil dollar_timeReg] at ht
        have : t = [] := List.suffix_nil.1 ht
        subst this
        simp at hw
      | cons y s' =>
        rw [replaceAll_cons_none timeReg timeRepl false y s' hm, List.suffix_cons_iff] at ht
        have hs' : ¬ "$__timeFilter(".toList <:+: s' := fun h => hs (List.infix_cons h)
        rcases ht with ht | ht
        · subst ht
          have e : "$__timeFilter(".toList = '$' :: "__timeFilter(".toList := rfl
          rw [e, List.cons_prefix_cons] at hw
          obtain ⟨hy, hw2⟩ := hw
          subst hy
          have hp := time_pass_prefix s' "__timeFilter(".toList (by decide) hw2
          exact hs ((List.prefix_cons_inj '$').2 hp).isInfix
        · exact ih s' (by simpa using hn) hs' t ht hw
    | some q =>
      obtain ⟨rest, c⟩ := q
      obtain ⟨X, _, _, hsX, hra⟩ := time_step_match s rest c hm
      have hlt := dollar_timeReg.lt hm
      have hrest : ¬ "$__timeFilter(".toList <:+: rest :=
        fun h => hs (h.trans (matchAt_suffix timeReg s rest c hm).isInfix)
      have hX : ¬ "$__timeFilter(".toList <:+: X := by
        intro h
        apply hs
        rw [hsX]
        exact h.trans ⟨"$__time(".toList, ')' :: rest, by simp⟩
      have e : "$__timeFilter(".toList = '$' :: "__timeFilter(".toList := rfl
      have e2 : ") as time".toList ++ timeReg.replaceAll timeRepl false rest =
          ')' :: (" as time".toList ++ timeReg.replaceAll timeRepl false rest) := rfl
      rw [hra, e2] at ht
      rcases suffix_append_cases _ _ t ht with ht | ⟨a', hne, _, rfl⟩
      · rcases suffix_append_cases _ _ t ht with ht | ⟨X', _, hX', rfl⟩
        · rw [List.suffix_cons_iff] at ht
          rcases ht with rfl | ht
          · rw [e, List.cons_prefix_cons] at hw
            exact absurd hw.1 (by decide)
          · rcases suffix_append_cases _ _ t ht with ht | ⟨b', hb, hb', rfl⟩
            · exact ih rest (by omega) hrest t ht hw
            · rw [e] at hw
              exact not_dollar_prefix _ b' _ hb
                (fun hmem => absurd (hb'.subset hmem) (by decide)) hw
        · have := prefix_of_prefix_append_cons _ X' _ ')' hw (by decide)
          exact hX (this.isInfix.trans hX'.isInfix)
      · rw [e] at hw
        exact not_dollar_prefix _ a' _ hne (fun hmem => absurd (‹a' <:+ _›.subset hmem)
          (by decide)) hw

/-- Without `$__timeFilter(` in the query, the bounds of the time range do not
reach the output. -/
theorem interpolate_range_free (q : Str) (f t f' t' : Int)
    (h : ¬ "$__timeFilter(".toList <:+: q) :
    InterpolateMacros q f t = InterpolateMacros q f' t' := by
  have h1 : ¬ "$__timeFilter(".toList <:+:
      timeReg.ReplaceAllString q "to_unixtime($1) as time".toList := by
    intro hin
    obtain ⟨u, hu1, hu2⟩ := List.infix_iff_prefix_suffix.1 hin
    exact time_pass_no_filter q.length q (le_refl _) h u hu2 hu1
  have p2 : ∀ a b : Int, timeFilterReg.ReplaceAllStringFunc
      (timeReg.ReplaceAllString q "to_unixtime($1) as time".toList) (timeFilterRepl a b) =
      timeReg.ReplaceAllString q "to_unixtime($1) as time".toList := fun a b =>
    replaceAll_id_of_no_infix "$__timeFilter(".toList _ _ _ "$__timeFilter(".toList _ _ false
      (List.prefix_refl _) h1
  simp only [InterpolateMacros]
  rw [p2 f t, p2 f' t']

/-! ## The passes one by one -/

theorem interpolate_eq_runPasses (q : Str) (from_ to_ : Int) :
    InterpolateMacros q from_ to_ = runPasses from_ to_ sourceOrder q := rfl

theorem runPass_eq_replaceAll (from_ to_ : Int) (p : Pass) (q : Str) :
    runPass from_ to_ p q = p.reg.replaceAll (p.repl from_ to_) false q := by
  cases p <;> rfl

theorem Pass.dollar (p : Pass) : Dollar p.reg := by
  cases p
  · exact dollar_timeReg
  · exact dollar_timeFilterReg
  · exact dollar_timeGroupReg
  · exact dollar_timeGroupAliasReg

/-- A pattern that starts with literal text matches only where the text stands. -/
theorem isPrefix_of_matchAt (l : Str) (e : Re) (es : List Re) (n : Nat) (s : Str)
    (r : Str × Caps) (h : Regexp.matchAt ⟨Re.seq (Re.str l :: e :: es), n⟩ s = some r) :
    l <+: s := by
  cases hp : l.isPrefixOf s with
  | true => exact List.isPrefixOf_iff_prefix.1 hp
  | false =>
    rw [matchAt_none_of_not_isPrefixOf l e es n s hp] at h
    cases h

theorem Pass.lead_of_match (p : Pass) (s : Str) (r : Str × Caps)
    (h : p.reg.matchAt s = some r) : p.lead <+: s := by
  cases p
  · exact isPrefix_of_matchAt "$__time(".toList _ _ _ s r h
  · exact isPrefix_of_matchAt "$__timeFilter(".toList _ _ _ s r h
  · exact isPrefix_of_matchAt "$__timeGroup(".toList _ _ _ s r h
  · exact isPrefix_of_matchAt "$__timeGroupAlias(".toList _ _ _ s r h

/-- The four names exclude one another: at one place at most one pattern matches. -/
theorem Pass.exclusive (p p' : Pass) (hne : p' ≠ p) (s : Str) (r : Str × Caps)
    (h : p.reg.matchAt s = some r) : p'.reg.matchAt s = none := by
  cases h' : p'.reg.matchAt s with
  | none => rfl
  | some r' =>
    exfalso
    have h1 := p.lead_of_match s r h
    have h2 := p'.lead_of_match s r' h'
    have h3 : ∀ a b : Pass, b ≠ a → ¬ a.lead <+: b.lead := by
      intro a b
      cases a <;> cases b <;> decide
    rcases List.prefix_or_prefix_of_prefix h1 h2 with h4 | h4
    · exact h3 p p' hne h4
    · exact h3 p' p (fun e => hne e.symm) h4

theorem runPass_plain (from_ to_ : Int) (p : Pass) (s : Str) (hs : '$' ∉ s) :
    runPass from_ to_ p s = s := by
  rw [runPass_eq_replaceAll]
  exact replaceAll_plain p.dollar _ false s hs

theorem runPasses_plain (from_ to_ : Int) (l : List Pass) : ∀ (s : Str), '$' ∉ s →
    runPasses from_ to_ l s = s := by
  induction l with
  | nil => intro s _; rfl
  | cons p l ih =>
    intro s hs
    show runPasses from_ to_ l (runPass from_ to_ p s) = s
    rw [runPass_plain from_ to_ p s hs]
    exact ih s hs

theorem runPasses_of_fixed (from_ to_ : Int) (q : Str) (l : List Pass)
    (h : ∀ p ∈ l, runPass from_ to_ p q = q) : runPasses from_ to_ l q = q := by
  induction l with
  | nil => rfl
  | cons p l ih =>
    show runPasses from_ to_ l (runPass from_ to_ p q) = q
    rw [h p (List.mem_cons_self _ _)]
    exact ih (fun p' hp' => h p' (List.mem_cons_of_mem _ hp'))

/-- When one pass alone changes a text, and leaves no dollar sign, the passes
of any list that holds it give what it gives. -/
theorem runPasses_of_hit (from_ to_ : Int) (q : Str) (p : Pass)
    (hp : '$' ∉ runPass from_ to_ p q) (ho : ∀ p', p' ≠ p → runPass from_ to_ p' q = q) :
    ∀ l : List Pass, p ∈ l → runPasses from_ to_ l q = runPass from_ to_ p q := by
  intro l
  induction l with
  | nil => intro h; cases h
  | cons p0 l ih =>
    intro h
    show runPasses from_ to_ l (runPass from_ to_ p0 q) = runPass from_ to_ p q
    by_cases e : p0 = p
    · rw [e]
      exact runPasses_plain from_ to_ l _ hp
    · rw [ho p0 e]
      rcases List.mem_cons.1 h with h' | h'
      · exact absurd h'.symm e
      · exact ih h'

theorem matchAt_capsAll_of_str (P : Char → Prop) (l : Str) (e : Re) (es : List Re) (n : Nat)
    (t rest : Str) (c : Caps)
    (h : Regexp.matchAt ⟨Re.seq (Re.str ('$' :: l) :: e :: es), n⟩ ('$' :: t) = some (rest, c))
    (ht : ∀ x ∈ t, P x) : CapsAll P c := by
  simp only [Regexp.matchAt] at h
  rw [seq_cons_run, str_run] at h
  split at h
  · rename_i hp
    obtain ⟨u, hu⟩ := List.isPrefixOf_iff_prefix.1 hp
    have htu : t = l ++ u := by
      have := List.cons.inj hu.symm
      exact this.2
    rw [← hu, List.drop_left] at h
    exact matchAt_capsAll P ⟨Re.seq (e :: es), n⟩ u rest c
      (fun x hx => ht x (by rw [htu]; exact List.mem_append_right _ hx)) h
  · cases h

theorem mem_of_mem_TrimSpace (g : Str) (x : Char) (h : x ∈ TrimSpace g) : x ∈ g := by
  simp only [TrimSpace, List.mem_reverse] at h
  have h1 := (List.dropWhile_suffix isSpace).subset h
  rw [List.mem_reverse] at h1
  exact (List.dropWhile_suffix isSpace).subset h1

theorem slsFill_no_dollar (g : Str) (hg : '$' ∉ g) : '$' ∉ slsFill g := by
  have hfill : '$' ∉ (if g ≠ [] then TrimSpace g else "0".toList) := by
    split
    · exact fun h => hg (mem_of_mem_TrimSpace g _ h)
    · decide
  have key : ∀ fill : Str, '$' ∉ fill →
      '$' ∉ (if ToLower fill = "null".toList then "'null'".toList
        else if ToLower fill = "previous".toList then "'last'".toList
        else if ToLower fill = "0".toList then "'0'".toList
        else "'".toList ++ fill ++ "'".toList) := by
    intro fill hf
    split_ifs
    · decide
    · decide
    · decide
    · exact List.not_mem_append (List.not_mem_append (by decide) hf) (by decide)
  exact key _ hfill

/-- The callback of `$__timeGroup`, given what `FindStringSubmatch` returns. -/
theorem timeGroupRepl_of_parts (m g1 g2 g3 : Str)
    (h : timeGroupReg.FindStringSubmatch m = [m, g1, g2, g3]) :
    timeGroupRepl m = timeSeries g1 g2 (slsFill g3) := by
  simp only [timeGroupRepl, h, slsFill]
  simp [timeSeries]

/-- The callback of `$__timeGroupAlias`, given what `FindStringSubmatch` returns. -/
theorem timeGroupAliasRepl_of_parts (m g1 g2 : Str)
    (h : timeGroupAliasReg.FindStringSubmatch m = [m, g1, g2]) :
    timeGroupAliasRepl m = "time_series(".toList ++ (g1 ++ (", '".toList ++ (g2 ++
      "', '%Y-%m-%d %H:%i:%s', '0') as time".toList))) := by
  simp only [timeGroupAliasRepl, h]
  simp

/-- The callback of `$__timeFilter`, given what `FindStringSubmatch` returns. -/
theorem timeFilterRepl_of_parts (from_ to_ : Int) (m g1 : Str)
    (h : timeFilterReg.FindStringSubmatch m = [m, g1]) :
    timeFilterRepl from_ to_ m = timeRange g1 from_ to_ := by
  simp only [timeFilterRepl, h]
  simp [timeRange]

/-- At a match in a text with one dollar sign, the replacement has none. -/
theorem repl_no_dollar (from_ to_ : Int) (p : Pass) (t rest : Str) (c : Caps) (ht : '$' ∉ t)
    (h : p.reg.matchAt ('$' :: t) = some (rest, c)) :
    '$' ∉ p.repl from_ to_ (('$' :: t).take (('$' :: t).length - rest.length)) c := by
  have hparts := findSubmatch_rematch p.reg ('$' :: t) rest c h
  have hP : ∀ x ∈ t, x ≠ '$' := fun x hx e => ht (e ▸ hx)
  have hget : ∀ (c' : Caps), CapsAll (fun x => x ≠ '$') c' → ∀ j, '$' ∉ getCap c' j :=
    fun c' hc' j hmem => getCap_all _ c' hc' j _ hmem rfl
  cases p with
  | time =>
    obtain ⟨X, _, _, hs, hc⟩ := paren_some "$__time(".toList 1 _ rest c h
    have hX : '$' ∉ X := by
      intro hmem
      have e : t = "__time(".toList ++ (X ++ ')' :: rest) := (List.cons.inj hs).2
      exact ht (by rw [e]; simp [hmem])
    rw [hc]
    show '$' ∉ "to_unixtime(".toList ++ (X ++ ") as time".toList)
    exact List.not_mem_append (by decide) (List.not_mem_append hX (by decide))
  | timeFilter =>
    have hcaps := matchAt_capsAll_of_str (fun x => x ≠ '$') "__timeFilter(".toList _ _ _ t rest
      c h hP
    have hg : timeFilterReg.groups c = [getCap c 1] := rfl
    show '$' ∉ timeFilterRepl from_ to_ _
    rw [timeFilterRepl_of_parts from_ to_ _ (getCap c 1) (by rw [← hg]; exact hparts)]
    exact timeRange_no_dollar _ from_ to_ (hget c hcaps 1)
  | timeGroup =>
    have hcaps := matchAt_capsAll_of_str (fun x => x ≠ '$') "__timeGroup(".toList _ _ _ t rest
      c h hP
    have hg : timeGroupReg.groups c = [getCap c 1, getCap c 2, getCap c 3] := rfl
    show '$' ∉ timeGroupRepl _
    rw [timeGroupRepl_of_parts _ (getCap c 1) (getCap c 2) (getCap c 3)
      (by rw [← hg]; exact hparts)]
    exact timeSeries_no_dollar _ _ _ (hget c hcaps 1) (hget c hcaps 2)
      (slsFill_no_dollar _ (hget c hcaps 3))
  | timeGroupAlias =>
    have hcaps := matchAt_capsAll_of_str (fun x => x ≠ '$') "__timeGroupAlias(".toList _ _ _ t
      rest c h hP
    have hg : timeGroupAliasReg.groups c = [getCap c 1, getCap c 2] := rfl
    show '$' ∉ timeGroupAliasRepl _
    rw [timeGroupAliasRepl_of_parts _ (getCap c 1) (getCap c 2) (by rw [← hg]; exact hparts)]
    exact List.not_mem_append (by decide) (List.not_mem_append (hget c hcaps 1)
      (List.not_mem_append (by decide) (List.not_mem_append (hget c hcaps 2) (by decide))))

/-- A pass that does not match at the one dollar sign of a text copies the text. -/
theorem runPass_none (from_ to_ : Int) (p : Pass) (pre t : Str) (hpre : '$' ∉ pre)
    (ht : '$' ∉ t) (h : p.reg.matchAt ('$' :: t) = none) :
    runPass from_ to_ p (pre ++ '$' :: t) = pre ++ '$' :: t := by
  rw [runPass_eq_replaceAll, replaceAll_skip p.dollar _ pre false _ hpre,
    replaceAll_cons_none p.reg _ false '$' t h, replaceAll_plain p.dollar _ false t ht]

/-- A pass that matches at the one dollar sign of a text leaves none. -/
theorem runPass_hit (from_ to_ : Int) (p : Pass) (pre t rest : Str) (c : Caps)
    (hpre : '$' ∉ pre) (ht : '$' ∉ t) (h : p.reg.matchAt ('$' :: t) = some (rest, c)) :
    '$' ∉ runPass from_ to_ p (pre ++ '$' :: t) := by
  have hrest : '$' ∉ rest := by
    obtain ⟨t', ht', hsuf⟩ := p.dollar _ rest c h
    have e : t = t' := (List.cons.inj ht').2
    exact fun hmem => ht (by rw [e]; exact hsuf.subset hmem)
  rw [runPass_eq_replaceAll, replaceAll_skip p.dollar _ pre false _ hpre,
    replaceAll_match p.dollar _ false _ rest c h, replaceAll_plain p.dollar _ true rest hrest]
  exact List.not_mem_append hpre (List.not_mem_append (repl_no_dollar from_ to_ p t rest c ht h)
    hrest)

theorem one_dollar_split : ∀ q : Str, q.count '$' ≤ 1 →
    '$' ∉ q ∨ ∃ pre t, q = pre ++ '$' :: t ∧ '$' ∉ pre ∧ '$' ∉ t := by
  intro q
  induction q with
  | nil => intro _; exact Or.inl (by simp)
  | cons x q ih =>
    intro h
    by_cases hx : x = '$'
    · subst hx
      rw [List.count_cons_self] at h
      have h0 : q.count '$' = 0 := by omega
      exact Or.inr ⟨[], q, rfl, by simp, List.count_eq_zero.1 h0⟩
    · rw [List.count_cons_of_ne (fun e => hx e.symm)] at h
      rcases ih h with h' | ⟨pre, t, rfl, hpre, ht⟩
      · left
        intro hmem
        rcases List.mem_cons.1 hmem with e | e
        · exact hx e.symm
        · exact h' e
      · right
        refine ⟨x :: pre, t, rfl, ?_, ht⟩
        intro hmem
        rcases List.mem_cons.1 hmem with e | e
        · exact hx e.symm
        · exact hpre e

/-- On a text with at most one dollar sign either every pass copies the text,
or one pass rewrites it into a text without a dollar sign and the others copy it. -/
theorem one_dollar_cases (from_ to_ : Int) (q : Str) (hq : q.count '$' ≤ 1) :
    (∀ p, runPass from_ to_ p q = q) ∨
    ∃ p, '$' ∉ runPass from_ to_ p q ∧ ∀ p', p' ≠ p → runPass from_ to_ p' q = q := by
  rcases one_dollar_split q hq with h | ⟨pre, t, rfl, hpre, ht⟩
  · exact Or.inl (fun p => runPass_plain from_ to_ p q h)
  · by_cases hall : ∀ p : Pass, p.reg.matchAt ('$' :: t) = none
    · exact Or.inl (fun p => runPass_none from_ to_ p pre t hpre ht (hall p))
    · right
      simp only [not_forall] at hall
      obtain ⟨p, hp⟩ := hall
      cases hm : p.reg.matchAt ('$' :: t) with
      | none => exact absurd hm hp
      | some r =>
        obtain ⟨rest, c⟩ := r
        refine ⟨p, runPass_hit from_ to_ p pre t rest c hpre ht hm, ?_⟩
        intro p' hne
        exact runPass_none from_ to_ p' pre t hpre ht (p.exclusive p' hne _ _ hm)

/-- On a text with at most one dollar sign the order of the passes is immaterial. -/
theorem runPasses_one_dollar (from_ to_ : Int) (q : Str) (hq : q.count '$' ≤ 1)
    (l : List Pass) (hl : ∀ p : Pass, p ∈ l) :
    runPasses from_ to_ l q = InterpolateMacros q from_ to_ := by
  rw [interpolate_eq_runPasses]
  rcases one_dollar_cases from_ to_ q hq with h | ⟨p, hp, ho⟩
  · rw [runPasses_of_fixed from_ to_ q l (fun p _ => h p),
      runPasses_of_fixed from_ to_ q sourceOrder (fun p _ => h p)]
  · rw [runPasses_of_hit from_ to_ q p hp ho l (hl p),
      runPasses_of_hit from_ to_ q p hp ho sourceOrder (by cases p <;> decide)]

/-- On a text with at most one dollar sign the output is a fixed point. -/
theorem interpolate_fixed_one_dollar (from_ to_ : Int) (q : Str) (hq : q.count '$' ≤ 1) :
    InterpolateMacros (InterpolateMacros q from_ to_) from_ to_ =
      InterpolateMacros q from_ to_ := by
  rcases one_dollar_cases from_ to_ q hq with h | ⟨p, hp, ho⟩
  · have e : InterpolateMacros q from_ to_ = q := by
      rw [interpolate_eq_runPasses]
      exact runPasses_of_fixed from_ to_ q sourceOrder (fun p _ => h p)
    rw [e, e]
  · have e : InterpolateMacros q from_ to_ = runPass from_ to_ p q := by
      rw [interpolate_eq_runPasses]
      exact runPasses_of_hit from_ to_ q p hp ho sourceOrder (by cases p <;> decide)
    rw [e, interpolate_eq_runPasses]
    exact runPasses_plain from_ to_ sourceOrder _ hp

/-! ## Queries cut into independent pieces -/

theorem Piece.count_le {u : Str} (h : Piece u) : u.count '$' ≤ 1 := by
  rcases h with h | ⟨s, rfl, hs, _⟩
  · rw [List.count_eq_zero.2 h]; exact Nat.zero_le _
  · rw [List.count_cons_self, List.count_eq_zero.2 hs]

/-- A pass works on a piece and on what follows it independently. -/
theorem runPass_piece_append (from_ to_ : Int) (p : Pass) (u : Str) (hu : Piece u) (z : Str) :
    runPass from_ to_ p (u ++ z) = runPass from_ to_ p u ++ runPass from_ to_ p z := by
  rcases hu with h | ⟨s, rfl, hs, hloc⟩
  · rw [runPass_plain from_ to_ p u h, runPass_eq_replaceAll, runPass_eq_replaceAll,
      replaceAll_skip p.dollar _ u false z h]
  · rcases hloc p with hn | ⟨w, c, hw⟩
    · have h0 : p.reg.matchAt ('$' :: s) = none := by
        have := hn []
        rwa [List.append_nil] at this
      have e1 := runPass_none from_ to_ p [] s (by simp) hs h0
      rw [List.nil_append] at e1
      rw [e1, runPass_eq_replaceAll, runPass_eq_replaceAll, List.cons_append,
        replaceAll_cons_none p.reg _ false '$' (s ++ z) (hn z),
        replaceAll_skip p.dollar _ s false z hs]
      rfl
    · have h0 : p.reg.matchAt ('$' :: s) = some (w, c) := by
        have := hw []
        rwa [List.append_nil, List.append_nil] at this
      obtain ⟨m, hm⟩ := matchAt_suffix p.reg _ w c h0
      have hws : '$' ∉ w := by
        obtain ⟨t', ht', hsuf⟩ := p.dollar _ w c h0
        have e : s = t' := (List.cons.inj ht').2
        exact fun hmem => hs (by rw [e]; exact hsuf.subset hmem)
      have t1 : List.take (('$' :: s).length - w.length) ('$' :: s) = m := by
        rw [← hm]; simp
      have t2 : List.take (('$' :: (s ++ z)).length - (w ++ z).length) ('$' :: (s ++ z)) = m := by
        have e : '$' :: (s ++ z) = m ++ (w ++ z) := by
          rw [← List.append_assoc, hm]; rfl
        rw [e]; simp
      rw [runPass_eq_replaceAll, runPass_eq_replaceAll, runPass_eq_replaceAll, List.cons_append,
        replaceAll_match p.dollar _ false _ (w ++ z) c (hw z),
        replaceAll_match p.dollar _ false _ w c h0, t1, t2,
        replaceAll_after p.dollar _ true (w ++ z), replaceAll_skip p.dollar _ w false z hws,
        replaceAll_plain p.dollar _ true w hws]
      simp

/-- A pass turns a piece into a piece. -/
theorem Piece.runPass (from_ to_ : Int) (p : Pass) {u : Str} (hu : Piece u) :
    Piece (runPass from_ to_ p u) := by
  rcases hu with h | ⟨s, rfl, hs, hloc⟩
  · rw [runPass_plain from_ to_ p u h]; exact Or.inl h
  · cases hm : p.reg.matchAt ('$' :: s) with
    | none =>
      have e1 := runPass_none from_ to_ p [] s (by simp) hs hm
      rw [List.nil_append] at e1
      rw [e1]
      exact Or.inr ⟨s, rfl, hs, hloc⟩
    | some r =>
      obtain ⟨rest, c⟩ := r
      have := runPass_hit from_ to_ p [] s rest c (by simp) hs hm
      rw [List.nil_append] at this
      exact Or.inl this

theorem runPass_flatten (from_ to_ : Int) (p : Pass) : ∀ (pieces : List Str),
    (∀ u ∈ pieces, Piece u) →
    runPass from_ to_ p pieces.flatten = (pieces.map (runPass from_ to_ p)).flatten := by
  intro pieces
  induction pieces with
  | nil => intro _; exact runPass_plain from_ to_ p [] (by simp)
  | cons u us ih =>
    intro h
    rw [List.flatten_cons, List.map_cons, List.flatten_cons,
      runPass_piece_append from_ to_ p u (h u (List.mem_cons_self _ _)),
      ih (fun v hv => h v (List.mem_cons_of_mem _ hv))]

/-- The passes of a list work piece by piece. -/
theorem runPasses_flatten (from_ to_ : Int) (l : List Pass) : ∀ (pieces : List Str),
    (∀ u ∈ pieces, Piece u) →
    runPasses from_ to_ l pieces.flatten = (pieces.map (runPasses from_ to_ l)).flatten := by
  induction l with
  | nil =>
    intro pieces _
    show pieces.flatten = (pieces.map (fun u => u)).flatten
    rw [List.map_id']
  | cons p l ih =>
    intro pieces h
    show runPasses from_ to_ l (runPass from_ to_ p pieces.flatten) =
      (pieces.map (fun u => runPasses from_ to_ l (runPass from_ to_ p u))).flatten
    rw [runPass_flatten from_ to_ p pieces h, ih]
    · rw [List.map_map]; rfl
    · intro u hu
      obtain ⟨v, hv, rfl⟩ := List.mem_map.1 hu
      exact (h v hv).runPass from_ to_ p

/-- On a separable query the order of the passes is immaterial. -/
theorem runPasses_separable (from_ to_ : Int) (q : Str) (hq : Separable q) (l : List Pass)
    (hl : ∀ p : Pass, p ∈ l) : runPasses from_ to_ l q = InterpolateMacros q from_ to_ := by
  rcases hq with hq | ⟨pieces, rfl, hp⟩
  · exact runPasses_one_dollar from_ to_ q hq l hl
  · rw [interpolate_eq_runPasses, runPasses_flatten from_ to_ l pieces hp,
      runPasses_flatten from_ to_ sourceOrder pieces hp]
    congr 1
    apply List.map_congr_left
    intro u hu
    rw [runPasses_one_dollar from_ to_ u (hp u hu).count_le l hl, interpolate_eq_runPasses]

theorem Piece.runPasses (from_ to_ : Int) (l : List Pass) : ∀ {u : Str}, Piece u →
    Piece (runPasses from_ to_ l u) := by
  induction l with
  | nil => intro u hu; exact hu
  | cons p l ih => intro u hu; exact ih (hu.runPass from_ to_ p)

/-- On a separable query the output is a fixed point. -/
theorem interpolate_fixed_separable (from_ to_ : Int) (q : Str) (hq : Separable q) :
    InterpolateMacros (InterpolateMacros q from_ to_) from_ to_ =
      InterpolateMacros q from_ to_ := by
  rcases hq with hq | ⟨pieces, rfl, hp⟩
  · exact interpolate_fixed_one_dollar from_ to_ q hq
  · have e1 : InterpolateMacros pieces.flatten from_ to_ =
        (pieces.map (runPasses from_ to_ sourceOrder)).flatten := by
      rw [interpolate_eq_runPasses]
      exact runPasses_flatten from_ to_ sourceOrder pieces hp
    have hp' : ∀ u ∈ pieces.map (runPasses from_ to_ sourceOrder), Piece u := by
      intro u hu
      obtain ⟨v, hv, rfl⟩ := List.mem_map.1 hu
      exact (hp v hv).runPasses from_ to_ sourceOrder
    rw [e1, interpolate_eq_runPasses, runPasses_flatten from_ to_ sourceOrder _ hp', List.map_map]
    congr 1
    apply List.map_congr_left
    intro u hu
    have := interpolate_fixed_one_dollar from_ to_ u (hp u hu).count_le
    rw [interpolate_eq_runPasses, interpolate_eq_runPasses] at this
    exact this

/-- A dollar sign with text at which one pattern matches locally is a piece:
the other patterns fail there, their names being different. -/
theorem piece_of_hit (p0 : Pass) (s w : Str) (c : Caps) (hs : '$' ∉ s)
    (hhit : ∀ z : Str, p0.reg.matchAt ('$' :: (s ++ z)) = some (w ++ z, c)) :
    Piece ('$' :: s) := by
  refine Or.inr ⟨s, rfl, hs, ?_⟩
  intro p
  by_cases e : p = p0
  · rw [e]; exact Or.inr ⟨w, c, hhit⟩
  · exact Or.inl (fun z => p0.exclusive p e _ _ (hhit z))

/-- A well-formed `$__time` invocation with the text behind it is a piece. -/
theorem piece_time (X w : Str) (hX : X ≠ []) (hXp : ')' ∉ X) (hXd : '$' ∉ X) (hw : '$' ∉ w) :
    Piece ("$__time(".toList ++ (X ++ (")".toList ++ w))) := by
  apply piece_of_hit Pass.time ("__time(".toList ++ (X ++ (")".toList ++ w))) w [(1, X)]
  · exact List.not_mem_append (by decide) (List.not_mem_append hXd
      (List.not_mem_append (by decide) hw))
  · intro z
    have h := paren_match "$__time(".toList X (w ++ z) 1 hX hXp
    have e : '$' :: ("__time(".toList ++ (X ++ (")".toList ++ w)) ++ z) =
        "$__time(".toList ++ (X ++ (")".toList ++ (w ++ z))) := by simp
    rw [e]
    exact h

/-- A well-formed `$__timeFilter` invocation with the text behind it is a piece. -/
theorem piece_timeFilter (X w : Str) (hX : X ≠ []) (hXp : ')' ∉ X) (hXd : '$' ∉ X)
    (hw : '$' ∉ w) : Piece ("$__timeFilter(".toList ++ (X ++ (")".toList ++ w))) := by
  apply piece_of_hit Pass.timeFilter ("__timeFilter(".toList ++ (X ++ (")".toList ++ w))) w
    [(1, X)]
  · exact List.not_mem_append (by decide) (List.not_mem_append hXd
      (List.not_mem_append (by decide) hw))
  · intro z
    have h := paren_match "$__timeFilter(".toList X (w ++ z) 1 hX hXp
    have e : '$' :: ("__timeFilter(".toList ++ (X ++ (")".toList ++ w)) ++ z) =
        "$__timeFilter(".toList ++ (X ++ (")".toList ++ (w ++ z))) := by simp
    rw [e]
    exact h

/-- A well-formed `$__timeGroup` invocation without fill, with the text behind it, is a piece. -/
theorem piece_timeGroup (c i w : Str) (hc : c ≠ []) (hcomma : ',' ∉ c) (hcd : '$' ∉ c)
    (hsp : ∀ x ∈ c.head?, reSpace x = false) (hi : i ≠ []) (hq : '\'' ∉ i) (hid : '$' ∉ i)
    (hw : '$' ∉ w) :
    Piece ("$__timeGroup(".toList ++ (c ++ (", '".toList ++ (i ++ ("')".toList ++ w))))) := by
  apply piece_of_hit Pass.timeGroup
    ("__timeGroup(".toList ++ (c ++ (", '".toList ++ (i ++ ("')".toList ++ w))))) w
    [(2, i), (1, c)]
  · exact List.not_mem_append (by decide) (List.not_mem_append hcd (List.not_mem_append
      (by decide) (List.not_mem_append hid (List.not_mem_append (by decide) hw))))
  · intro z
    have h := timeGroupReg_match c i (w ++ z) hc hcomma hsp hi hq
    have e : '$' :: ("__timeGroup(".toList ++ (c ++ (", '".toList ++ (i ++ ("')".toList ++ w))))
        ++ z) = "$__timeGroup(".toList ++ (c ++ (", '".toList ++ (i ++
        ("'".toList ++ (")".toList ++ (w ++ z)))))) := by simp
    rw [e]
    exact h

/-- A well-formed `$__timeGroupAlias` invocation with the text behind it is a piece. -/
theorem piece_timeGroupAlias (c i w : Str) (hc : c ≠ []) (hcomma : ',' ∉ c) (hcd : '$' ∉ c)
    (hsp : ∀ x ∈ c.head?, reSpace x = false) (hi : i ≠ []) (hq : '\'' ∉ i) (hid : '$' ∉ i)
    (hw : '$' ∉ w) :
    Piece ("$__timeGroupAlias(".toList ++ (c ++ (", '".toList ++ (i ++ ("')".toList ++ w)))))
    := by
  apply piece_of_hit Pass.timeGroupAlias
    ("__timeGroupAlias(".toList ++ (c ++ (", '".toList ++ (i ++ ("')".toList ++ w))))) w
    [(2, i), (1, c)]
  · exact List.not_mem_append (by decide) (List.not_mem_append hcd (List.not_mem_append
      (by decide) (List.not_mem_append hid (List.not_mem_append (by decide) hw))))
  · intro z
    have h := timeGroupAliasReg_match c i (w ++ z) hc hcomma hsp hi hq
    have e : '$' :: ("__timeGroupAlias(".toList ++ (c ++ (", '".toList ++ (i ++
        ("')".toList ++ w)))) ++ z) = "$__timeGroupAlias(".toList ++ (c ++ (", '".toList ++ (i ++
        ("'".toList ++ (")".toList ++ (w ++ z)))))) := by simp
    rw [e]
    exact h

/-- A query with two macros and text around them, cut into pieces. -/
theorem separable_example :
    Separable "select $__time(a) from t where $__timeFilter(b) limit 9".toList := by
  refine Or.inr ⟨["select ".toList,
    "$__time(".toList ++ ("a".toList ++ (")".toList ++ " from t where ".toList)),
    "$__timeFilter(".toList ++ ("b".toList ++ (")".toList ++ " limit 9".toList))], by decide, ?_⟩
  intro u hu
  simp only [List.mem_cons, List.mem_singleton, List.not_mem_nil, or_false] at hu
  rcases hu with rfl | rfl | rfl
  · exact Or.inl (by decide)
  · exact piece_time _ _ (by decide) (by decide) (by decide) (by decide)
  · exact piece_timeFilter _ _ (by decide) (by decide) (by decide) (by decide)

/-! ## Invocations closed before the interval -/

theorem quest_cases (a : Re) (s : Str) (c : Caps) (k : Cont) (r : Str × Caps)
    (h : (Re.quest a).run s c k = some r) : a.run s c k = some r ∨ k s c = some r := by
  rw [Re.run] at h
  cases ha : a.run s c k with
  | none => rw [ha] at h; exact Or.inr h
  | some r' =>
    rw [ha] at h
    have e : r' = r := by simpa using h
    exact Or.inl (by rw [e])

/-- A text cut behind a start without the rune `d` and at the first `d`. -/
theorem append_eq_first (d : Char) : ∀ (x s y z : Str), x ++ s = y ++ d :: z → d ∉ x → d ∉ y →
    ∃ a, s = a ++ d :: z ∧ d ∉ a := by
  intro x
  induction x with
  | nil =>
    intro s y z h _ hy
    exact ⟨y, h, hy⟩
  | cons b x ih =>
    intro s y z h hx hy
    cases y with
    | nil =>
      exfalso
      have : b = d := by simpa using (List.cons.inj h).1
      exact hx (by simp [this])
    | cons b' y =>
      exact ih s y z (List.cons.inj h).2 (fun hm => hx (List.mem_cons_of_mem _ hm))
        (fun hm => hy (List.mem_cons_of_mem _ hm))

/-- The end of the `$__timeGroup` pattern, `\s*\)`, has read white space and `)`. -/
theorem close_some (s : Str) (c : Caps) (k : Cont) (r : Str × Caps)
    (h : (Re.seq [.star (.cls reSpace), .lit ')']).run s c k = some r) :
    ∃ w u, s = w ++ ')' :: u ∧ (∀ x ∈ w, reSpace x = true) := by
  rw [seq_cons_run] at h
  obtain ⟨w, s1, e1, hw, h⟩ := star_cls_some reSpace _ _ _ _ h
  rw [seq_cons_run] at h
  obtain ⟨u, e2, _⟩ := lit_some ')' _ _ _ _ h
  exact ⟨w, u, by rw [e1, e2], hw⟩

/-- When the `$__timeGroup` pattern succeeds at an invocation closed behind a
column without a comma, the text behind the invocation completes the argument
list. -/
theorem timeGroupReg_completes (c s : Str) (r : Str × Caps) (hcomma : ',' ∉ c)
    (h : timeGroupReg.matchAt ("$__timeGroup(".toList ++ (c ++ ')' :: s)) = some r) :
    Completes s := by
  simp only [Regexp.matchAt, timeGroupReg] at h
  rw [seq_cons_run, str_run, isPrefixOf_append_self, if_pos rfl, List.drop_left] at h
  rw [seq_cons_run] at h
  obtain ⟨a1, s1, e1, ha1, h⟩ := star_cls_some reSpace _ _ _ _ h
  rw [seq_cons_run] at h
  obtain ⟨g, s2, e2, _, hg, h⟩ := cap_plus_cls_some 1 (notRune ',') _ _ _ _ h
  rw [seq_cons_run] at h
  obtain ⟨a2, s3, e3, ha2, h⟩ := star_cls_some reSpace _ _ _ _ h
  rw [seq_cons_run] at h
  obtain ⟨s4, e4, h⟩ := lit_some ',' _ _ _ _ h
  rw [seq_cons_run] at h
  obtain ⟨a3, s5, e5, ha3, h⟩ := star_cls_some reSpace _ _ _ _ h
  rw [seq_cons_run] at h
  obtain ⟨s6, e6, h⟩ := lit_some '\'' _ _ _ _ h
  rw [seq_cons_run] at h
  obtain ⟨g2, s7, e7, hne2, hg2, h⟩ := cap_plus_cls_some 2 (notRune '\'') _ _ _ _ h
  rw [seq_cons_run] at h
  obtain ⟨s8, e8, h⟩ := lit_some '\'' _ _ _ _ h
  have k1 : (c ++ [')']) ++ s = (a1 ++ (g ++ a2)) ++ ',' :: s4 := by
    have : c ++ ')' :: s = (a1 ++ (g ++ a2)) ++ ',' :: s4 := by
      rw [e1, e2, e3, e4]; simp
    simpa using this
  have n0 : ',' ∉ c ++ [')'] := List.not_mem_append hcomma (by decide)
  have n1 : ',' ∉ a1 ++ (g ++ a2) :=
    List.not_mem_append (reSpace_not_mem ',' (by rfl) a1 ha1)
      (List.not_mem_append (notRune_not_mem ',' g hg) (reSpace_not_mem ',' (by rfl) a2 ha2))
  obtain ⟨a, ea, hna⟩ := append_eq_first ',' _ _ _ _ k1 n0 n1
  refine ⟨a, a3, g2, s8, by rw [ea, e5, e6, e7, e8], hna, ha3, hne2,
    notRune_not_mem '\'' g2 hg2, ?_⟩
  rw [seq_cons_run] at h
  rcases quest_cases _ _ _ _ _ h with h | h
  · rw [seq_cons_run] at h
    obtain ⟨b1, t1, f1, hb1, h⟩ := star_cls_some reSpace _ _ _ _ h
    rw [seq_cons_run] at h
    obtain ⟨t2, f2, h⟩ := lit_some ',' _ _ _ _ h
    rw [seq_cons_run] at h
    obtain ⟨b2, t3, f3, hb2, h⟩ := star_cls_some reSpace _ _ _ _ h
    rw [seq_cons_run] at h
    obtain ⟨g3, t4, f4, hne3, hg3, h⟩ := cap_plus_cls_some 3 (notRune ')') _ _ _ _ h
    obtain ⟨b3, u, f5, hb3⟩ := close_some _ _ _ _ h
    refine ⟨b1, b2 ++ (g3 ++ b3), u, hb1, ?_, Or.inr ⟨by simp [hne3], ?_⟩⟩
    · exact List.not_mem_append (reSpace_not_mem ')' (by rfl) b2 hb2)
        (List.not_mem_append (notRune_not_mem ')' g3 hg3) (reSpace_not_mem ')' (by rfl) b3 hb3))
    · rw [f1, f2, f3, f4, f5]; simp
  · obtain ⟨b3, u, f5, hb3⟩ := close_some _ _ _ _ h
    exact ⟨b3, [], u, hb3, by simp, Or.inl f5⟩

/-- A text that completes an argument list has a comma. -/
theorem Completes.comma {s : Str} (h : Completes s) : ',' ∈ s := by
  obtain ⟨a, w, i, t, rfl, _⟩ := h
  simp

/-- The first two passes bring no comma into a text. -/
theorem first_passes_no_comma (s : Str) (from_ to_ : Int) (hs : ',' ∉ s) :
    ',' ∉ runPasses from_ to_ [Pass.time, Pass.timeFilter] s :=
  timeFilter_pass_no_comma _ from_ to_ (time_pass_no_comma s hs)

/-- A `$__timeGroup` invocation closed behind a column without a comma stays
where it is when the text that the first two passes make of what follows does
not complete its argument list. -/
theorem interpolate_keeps_incomplete (pre c suf : Str) (from_ to_ : Int) (hpre : '$' ∉ pre)
    (hd : '$' ∉ c) (hcomma : ',' ∉ c)
    (hsuf : ¬ Completes (runPasses from_ to_ [Pass.time, Pass.timeFilter] suf)) :
    ∃ suf' : Str, InterpolateMacros (pre ++ ("$__timeGroup(".toList ++ (c ++ (")".toList ++ suf))))
      from_ to_ = pre ++ ("$__timeGroup(".toList ++ (c ++ (")".toList ++ suf'))) := by
  have hm : '$' ∉ "__timeGroup(".toList ++ (c ++ ")".toList) :=
    List.not_mem_append (by decide) (List.not_mem_append hd (by decide))
  have e : ∀ t : Str, pre ++ ("$__timeGroup(".toList ++ (c ++ (")".toList ++ t))) =
      pre ++ ('$' :: (("__timeGroup(".toList ++ (c ++ ")".toList)) ++ t)) := by
    intro t; simp
  have n1 : ∀ t : Str, timeReg.matchAt ('$' :: (("__timeGroup(".toList ++ (c ++ ")".toList)) ++ t))
      = none := fun t => timeReg_none "$__timeGroup(".toList ((c ++ ")".toList) ++ t) rfl rfl
  have n2 : ∀ t : Str, timeFilterReg.matchAt ('$' :: (("__timeGroup(".toList ++
      (c ++ ")".toList)) ++ t)) = none :=
    fun t => timeFilterReg_none "$__timeGroup(".toList ((c ++ ")".toList) ++ t) rfl rfl
  have n4 : ∀ t : Str, timeGroupAliasReg.matchAt ('$' :: (("__timeGroup(".toList ++
      (c ++ ")".toList)) ++ t)) = none :=
    fun t => timeGroupAliasReg_none "$__timeGroup(".toList ((c ++ ")".toList) ++ t) rfl rfl
  have n3 : timeGroupReg.matchAt ('$' :: (("__timeGroup(".toList ++ (c ++ ")".toList)) ++
      runPasses from_ to_ [Pass.time, Pass.timeFilter] suf)) = none := by
    cases hr : timeGroupReg.matchAt ('$' :: (("__timeGroup(".toList ++ (c ++ ")".toList)) ++
      runPasses from_ to_ [Pass.time, Pass.timeFilter] suf)) with
    | none => rfl
    | some r =>
      exfalso
      apply hsuf
      apply timeGroupReg_completes c _ r hcomma
      rw [← hr]
      simp
  refine ⟨timeGroupAliasReg.ReplaceAllStringFunc (timeGroupReg.ReplaceAllStringFunc
    (runPasses from_ to_ [Pass.time, Pass.timeFilter] suf) timeGroupRepl) timeGroupAliasRepl, ?_⟩
  simp only [InterpolateMacros]
  rw [e, string_pass_foreign_cont dollar_timeReg _ pre _ suf hpre hm (n1 suf),
    func_pass_foreign_cont dollar_timeFilterReg _ pre _ _ hpre hm (n2 _)]
  show timeGroupAliasReg.ReplaceAllStringFunc (timeGroupReg.ReplaceAllStringFunc
    (pre ++ ('$' :: (("__timeGroup(".toList ++ (c ++ ")".toList)) ++
      runPasses from_ to_ [Pass.time, Pass.timeFilter] suf))) timeGroupRepl)
    timeGroupAliasRepl = _
  rw [func_pass_foreign_cont dollar_timeGroupReg _ pre _ _ hpre hm n3,
    func_pass_foreign_cont dollar_timeGroupAliasReg _ pre _ _ hpre hm (n4 _), e]

/-- A greedy loop over a class succeeds when the rest of the pattern succeeds
behind some run of class members. -/
theorem star_cls_ne_none (p : Char → Bool) : ∀ (a b : Str) (c : Caps) (k : Cont),
    (∀ x ∈ a, p x = true) → k b c ≠ none → (Re.star (Re.cls p)).run (a ++ b) c k ≠ none := by
  have base : ∀ (b : Str) (c : Caps) (k : Cont), k b c ≠ none →
      (Re.star (Re.cls p)).run b c k ≠ none := by
    intro b c k hk
    cases b with
    | nil => exact hk
    | cons x t =>
      cases hx : p x with
      | false => rw [star_cls_stop p x t c k hx]; exact hk
      | true =>
        rw [star_cls_cons p x t c k hx]
        cases (Re.star (Re.cls p)).run t c k with
        | none => exact hk
        | some r => simp
  intro a
  induction a with
  | nil => intro b c k _ hk; exact base b c k hk
  | cons x a ih =>
    intro b c k ha hk
    have hx : p x = true := ha x (List.mem_cons_self _ _)
    have h := ih b c k (fun y hy => ha y (List.mem_cons_of_mem _ hy)) hk
    rw [List.cons_append, star_cls_cons p x (a ++ b) c k hx]
    cases hr : (Re.star (Re.cls p)).run (a ++ b) c k with
    | none => exact absurd hr h
    | some r => simp

theorem cap_plus_cls_ne_none (n : Nat) (p : Char → Bool) (a b : Str) (c : Caps) (k : Cont)
    (hne : a ≠ []) (ha : ∀ x ∈ a, p x = true) (hk : ∀ c', k b c' ≠ none) :
    (Re.cap n (Re.plus (Re.cls p))).run (a ++ b) c k ≠ none := by
  cases a with
  | nil => exact absurd rfl hne
  | cons x a =>
    rw [Re.run, List.cons_append, plus_cls_cons, if_pos (ha x (List.mem_cons_self _ _))]
    exact star_cls_ne_none p a b c _ (fun y hy => ha y (List.mem_cons_of_mem _ hy)) (hk _)

theorem quest_ne_none (a : Re) (s : Str) (c : Caps) (k : Cont)
    (h : a.run s c k ≠ none ∨ k s c ≠ none) : (Re.quest a).run s c k ≠ none := by
  rw [Re.run]
  cases ha : a.run s c k with
  | some r => simp
  | none =>
    rcases h with h | h
    · exact absurd ha h
    · exact h

/-- The end `\s*\)` of the `$__timeGroup` pattern succeeds at white space and `)`. -/
theorem close_ne_none (w u : Str) (c : Caps) (hw : ∀ x ∈ w, reSpace x = true) :
    (Re.seq [.star (.cls reSpace), .lit ')']).run (w ++ ')' :: u) c
      (fun s' c' => some (s', c')) ≠ none := by
  rw [seq_cons_run]
  apply star_cls_ne_none reSpace w _ c _ hw
  rw [seq_cons_run, lit_run_cons, if_pos rfl]
  simp [Re.seq, Re.run]

/-- The `$__timeGroup` pattern succeeds at an invocation closed behind a column
without a comma when the text behind it completes the argument list. -/
theorem timeGroupReg_match_of_completes (c s : Str) (hcomma : ',' ∉ c) (h : Completes s) :
    timeGroupReg.matchAt ("$__timeGroup(".toList ++ (c ++ ')' :: s)) ≠ none := by
  obtain ⟨a, w, i, t, rfl, ha, hw, hi, hq, w2, g, u, hw2, hg, ht⟩ := h
  simp only [Regexp.matchAt, timeGroupReg]
  rw [seq_cons_run, str_run, isPrefixOf_append_self, if_pos rfl, List.drop_left]
  have e : c ++ ')' :: (a ++ ',' :: (w ++ '\'' :: (i ++ '\'' :: t))) =
      [] ++ ((c ++ ')' :: a) ++ ([] ++ ',' :: (w ++ '\'' :: (i ++ '\'' :: t)))) := by simp
  rw [e, seq_cons_run]
  apply star_cls_ne_none reSpace [] _ _ _ (by simp)
  rw [seq_cons_run]
  apply cap_plus_cls_ne_none 1 (notRune ',') (c ++ ')' :: a) _ _ _ (by simp)
  · intro x hx
    have hx' : x ≠ ',' := by
      intro hxc
      rw [hxc] at hx
      rcases List.mem_append.1 hx with h1 | h1
      · exact hcomma h1
      · rcases List.mem_cons.1 h1 with h2 | h2
        · cases h2
        · exact ha h2
    simpa [notRune] using hx'
  intro c1
  rw [seq_cons_run]
  apply star_cls_ne_none reSpace [] _ _ _ (by simp)
  rw [seq_cons_run, lit_run_cons, if_pos rfl, seq_cons_run]
  apply star_cls_ne_none reSpace w _ _ _ hw
  rw [seq_cons_run, lit_run_cons, if_pos rfl, seq_cons_run]
  apply cap_plus_cls_ne_none 2 (notRune '\'') i _ _ _ hi
  · intro x hx
    have hx' : x ≠ '\'' := fun hxc => hq (hxc ▸ hx)
    simpa [notRune] using hx'
  intro c2
  rw [seq_cons_run, lit_run_cons, if_pos rfl, seq_cons_run]
  apply quest_ne_none
  rcases ht with ht | ⟨hgne, ht⟩
  · right
    rw [ht]
    exact close_ne_none w2 u c2 hw2
  · left
    rw [ht, seq_cons_run]
    apply star_cls_ne_none reSpace w2 _ _ _ hw2
    rw [seq_cons_run, lit_run_cons, if_pos rfl, seq_cons_run]
    have e2 : g ++ ')' :: u = [] ++ (g ++ ([] ++ ')' :: u)) := by simp
    rw [e2]
    apply star_cls_ne_none reSpace [] _ _ _ (by simp)
    rw [seq_cons_run]
    apply cap_plus_cls_ne_none 3 (notRune ')') g _ _ _ hgne
    · intro x hx
      have hx' : x ≠ ')' := fun hxc => hg (hxc ▸ hx)
      simpa [notRune] using hx'
    intro c3
    show (Re.seq []).run ([] ++ ')' :: u) c3 _ ≠ none
    exact close_ne_none [] u c3 (by simp)

/-- The predicate `Completes` is the condition of the source pattern: behind an
invocation closed after a column without a comma, the `$__timeGroup` pattern
matches at the invocation exactly when the text that follows completes the
argument list. -/
theorem timeGroupReg_match_iff_completes (c s : Str) (hcomma : ',' ∉ c) :
    timeGroupReg.matchAt ("$__timeGroup(".toList ++ (c ++ ')' :: s)) ≠ none ↔ Completes s := by
  constructor
  · intro h
    cases hr : timeGroupReg.matchAt ("$__timeGroup(".toList ++ (c ++ ')' :: s)) with
    | none => exact absurd hr h
    | some r => exact timeGroupReg_completes c s r hcomma hr
  · exact timeGroupReg_match_of_completes c s hcomma

/-- The condition of `interpolate_keeps_incomplete` cannot be widened: when the
text that the first two passes make of what follows completes the argument
list, the invocation is rewritten, and the output goes on with `time_series(`
behind `pre`. -/
theorem interpolate_rewrites_completed (pre c suf : Str) (from_ to_ : Int) (hpre : '$' ∉ pre)
    (hd : '$' ∉ c) (hcomma : ',' ∉ c)
    (hsuf : Completes (runPasses from_ to_ [Pass.time, Pass.timeFilter] suf)) :
    ∃ out : Str, InterpolateMacros (pre ++ ("$__timeGroup(".toList ++ (c ++ (")".toList ++ suf))))
      from_ to_ = pre ++ ("time_series(".toList ++ out) := by
  have hm : '$' ∉ "__timeGroup(".toList ++ (c ++ ")".toList) :=
    List.not_mem_append (by decide) (List.not_mem_append hd (by decide))
  have e : ∀ t : Str, pre ++ ("$__timeGroup(".toList ++ (c ++ (")".toList ++ t))) =
      pre ++ ('$' :: (("__timeGroup(".toList ++ (c ++ ")".toList)) ++ t)) := by
    intro t; simp
  have n1 : ∀ t : Str, timeReg.matchAt ('$' :: (("__timeGroup(".toList ++ (c ++ ")".toList)) ++ t))
      = none := fun t => timeReg_none "$__timeGroup(".toList ((c ++ ")".toList) ++ t) rfl rfl
  have n2 : ∀ t : Str, timeFilterReg.matchAt ('$' :: (("__timeGroup(".toList ++
      (c ++ ")".toList)) ++ t)) = none :=
    fun t => timeFilterReg_none "$__timeGroup(".toList ((c ++ ")".toList) ++ t) rfl rfl
  have h3 := timeGroupReg_match_of_completes c _ hcomma hsuf
  have e3 : "$__timeGroup(".toList ++ (c ++ ')' ::
      runPasses from_ to_ [Pass.time, Pass.timeFilter] suf) =
      '$' :: (("__timeGroup(".toList ++ (c ++ ")".toList)) ++
      runPasses from_ to_ [Pass.time, Pass.timeFilter] suf) := by simp
  rw [e3] at h3
  cases hr : timeGroupReg.matchAt ('$' :: (("__timeGroup(".toList ++ (c ++ ")".toList)) ++
      runPasses from_ to_ [Pass.time, Pass.timeFilter] suf)) with
  | none => exact absurd hr h3
  | some r =>
    obtain ⟨rest, caps⟩ := r
    have hparts := findSubmatch_rematch timeGroupReg _ rest caps hr
    have hg : timeGroupReg.groups caps = [getCap caps 1, getCap caps 2, getCap caps 3] := rfl
    have hrepl := timeGroupRepl_of_parts _ (getCap caps 1) (getCap caps 2) (getCap caps 3)
      (by rw [← hg]; exact hparts)
    have hp : '$' ∉ pre ++ "time_series(".toList := List.not_mem_append hpre (by decide)
    simp only [InterpolateMacros]
    rw [e, string_pass_foreign_cont dollar_timeReg _ pre _ suf hpre hm (n1 suf),
      func_pass_foreign_cont dollar_timeFilterReg _ pre _ _ hpre hm (n2 _)]
    show ∃ out : Str, timeGroupAliasReg.ReplaceAllStringFunc (timeGroupReg.ReplaceAllStringFunc
      (pre ++ ('$' :: (("__timeGroup(".toList ++ (c ++ ")".toList)) ++
        runPasses from_ to_ [Pass.time, Pass.timeFilter] suf))) timeGroupRepl)
      timeGroupAliasRepl = pre ++ ("time_series(".toList ++ out)
    simp only [Regexp.ReplaceAllStringFunc]
    rw [replaceAll_skip dollar_timeGroupReg _ pre false _ hpre,
      replaceAll_match dollar_timeGroupReg _ false _ rest caps hr, hrepl]
    simp only [timeSeries]
    have e5 : ∀ X R : Str, pre ++ (("time_series(".toList ++ X) ++ R) =
        (pre ++ "time_series(".toList) ++ (X ++ R) := by
      intro X R; simp
    rw [e5, replaceAll_skip dollar_timeGroupAliasReg _ _ false _ hp, List.append_assoc]
    exact ⟨_, rfl⟩

/-- A text whose first comma is followed, behind white space, by a rune that is
neither white space nor a single quote completes no argument list. -/
theorem not_completes_of_head (a w : Str) (x : Char) (t : Str) (ha : ',' ∉ a)
    (hw : ∀ y ∈ w, reSpace y = true) (hx : reSpace x = false) (hq : x ≠ '\'') :
    ¬ Completes (a ++ ',' :: (w ++ x :: t)) := by
  rintro ⟨a', w', i, t', e, ha', hw', _, _, _⟩
  have e1 := (append_cons_unique ',' _ _ _ _ e ha ha').2
  have key : ∀ (v v' : Str) (r r' : Str), (∀ y ∈ v, reSpace y = true) →
      (∀ y ∈ v', reSpace y = true) → v ++ x :: r = v' ++ '\'' :: r' → False := by
    intro v
    induction v with
    | nil =>
      intro v' r r' _ hv' h
      cases v' with
      | nil => exact hq (List.cons.inj h).1
      | cons y v' =>
        have hy := hv' y (List.mem_cons_self _ _)
        rw [← (List.cons.inj h).1, hx] at hy
        cases hy
    | cons z v ih =>
      intro v' r r' hv hv' h
      cases v' with
      | nil =>
        have hz := hv z (List.mem_cons_self _ _)
        rw [(List.cons.inj h).1] at hz
        cases hz
      | cons y v' =>
        exact ih v' r r' (fun u hu => hv u (List.mem_cons_of_mem _ hu))
          (fun u hu => hv' u (List.mem_cons_of_mem _ hu)) (List.cons.inj h).2
  exact key w w' _ _ hw hw' e1

/-- A query with a `$__timeGroup` invocation closed behind its column, a comma
behind it and a macro further on: what the first two passes make of the text
behind the invocation completes no argument list. -/
theorem incomplete_example :
    ¬ Completes (runPasses 3 4 [Pass.time, Pass.timeFilter]
      ", count(*) from t where $__timeFilter(t)".toList) := by
  have e : runPasses 3 4 [Pass.time, Pass.timeFilter]
      ", count(*) from t where $__timeFilter(t)".toList =
      [] ++ ',' :: ([' '] ++ 'c' :: "ount(*) from t where t >= 3 AND t < 4".toList) := by
    decide
  rw [e]
  exact not_completes_of_head [] [' '] 'c' _ (by decide) (by decide) (by decide) (by decide)

end Macros

open Macros

/-- C1: `$__timeFilter(c)` between texts without a dollar sign becomes
`c >= from AND c < to`, with both bounds as signed decimal numbers, the lower
one with `>=` and the upper one with `<`. -/
theorem C1_timeFilter_expansion (pre c suf : Str) (from_ to_ : Int) (hne : c ≠ [])
    (hparen : ')' ∉ c) (hc : '$' ∉ c) (hpre : '$' ∉ pre) (hsuf : '$' ∉ suf) :
    InterpolateMacros (pre ++ "$__timeFilter(".toList ++ c ++ ")".toList ++ suf) from_ to_ =
      pre ++ c ++ " >= ".toList ++ fmtInt from_ ++ " AND ".toList ++ c ++ " < ".toList ++
        fmtInt to_ ++ suf := by
  have e : pre ++ "$__timeFilter(".toList ++ c ++ ")".toList ++ suf =
      pre ++ ('$' :: ("__timeFilter(".toList ++ (c ++ (")".toList ++ suf)))) := by simp
  have e' : pre ++ ('$' :: ("__timeFilter(".toList ++ (c ++ (")".toList ++ suf)))) =
      pre ++ ("$__timeFilter(".toList ++ (c ++ (")".toList ++ suf))) := rfl
  have hrest : '$' ∉ c ++ (")".toList ++ suf) :=
    List.not_mem_append hc (List.not_mem_append (by decide) hsuf)
  have p1 := string_pass_foreign dollar_timeReg "to_unixtime($1) as time".toList pre
    "__timeFilter(".toList _ hpre (by decide) hrest
    (timeReg_none "$__timeFilter(".toList _ rfl rfl)
  have p2 := timeFilter_pass_one pre c suf from_ to_ hne hparen hpre hsuf
  have hout : '$' ∉ pre ++ (c ++ (" >= ".toList ++ (fmtInt from_ ++ (" AND ".toList ++
      (c ++ (" < ".toList ++ (fmtInt to_ ++ suf))))))) :=
    List.not_mem_append hpre (List.not_mem_append hc (List.not_mem_append (by decide)
      (List.not_mem_append (fmtInt_no_dollar _) (List.not_mem_append (by decide)
        (List.not_mem_append hc (List.not_mem_append (by decide)
          (List.not_mem_append (fmtInt_no_dollar _) hsuf)))))))
  simp only [InterpolateMacros]
  rw [e, p1, e', p2, timeGroup_pass_plain _ _ hout, timeGroupAlias_pass_plain _ _ hout]
  simp

theorem C1_timeFilter_expansion_witness :
    ("__time__".toList ≠ [] ∧ ')' ∉ "__time__".toList ∧ '$' ∉ "__time__".toList ∧
      '$' ∉ "where ".toList ∧ '$' ∉ " limit 1".toList) ∧
    InterpolateMacros ("where ".toList ++ "$__timeFilter(".toList ++ "__time__".toList ++
        ")".toList ++ " limit 1".toList) (-1600000000) 1600003600 =
      "where ".toList ++ "__time__".toList ++ " >= ".toList ++ fmtInt (-1600000000) ++
        " AND ".toList ++ "__time__".toList ++ " < ".toList ++ fmtInt 1600003600 ++
        " limit 1".toList :=
  ⟨⟨by decide, by decide, by decide, by decide, by decide⟩,
    C1_timeFilter_expansion "where ".toList "__time__".toList " limit 1".toList (-1600000000)
      1600003600 (by decide) (by decide) (by decide) (by decide) (by decide)⟩

/-- C2: `$__time(c)` between texts without a dollar sign becomes
`to_unixtime(c) as time`, the argument being taken as it stands up to the first
closing parenthesis. -/
theorem C2_time_expansion (pre c suf : Str) (from_ to_ : Int) (hne : c ≠ [])
    (hparen : ')' ∉ c) (hc : '$' ∉ c) (hpre : '$' ∉ pre) (hsuf : '$' ∉ suf) :
    InterpolateMacros (pre ++ "$__time(".toList ++ c ++ ")".toList ++ suf) from_ to_ =
      pre ++ "to_unixtime(".toList ++ c ++ ") as time".toList ++ suf := by
  have e : pre ++ "$__time(".toList ++ c ++ ")".toList ++ suf =
      pre ++ ("$__time(".toList ++ (c ++ (")".toList ++ suf))) := by simp
  have p1 := time_pass_one pre c suf hne hparen hpre hsuf
  have hout : '$' ∉ pre ++ ("to_unixtime(".toList ++ (c ++ (") as time".toList ++ suf))) :=
    List.not_mem_append hpre (List.not_mem_append (by decide) (List.not_mem_append hc
      (List.not_mem_append (by decide) hsuf)))
  simp only [InterpolateMacros]
  rw [e, p1, timeFilter_pass_plain _ _ hout, timeGroup_pass_plain _ _ hout,
    timeGroupAlias_pass_plain _ _ hout]
  simp

theorem C2_time_expansion_witness :
    ("log_time".toList ≠ [] ∧ ')' ∉ "log_time".toList ∧ '$' ∉ "log_time".toList ∧
      '$' ∉ "select ".toList ∧ '$' ∉ " from t".toList) ∧
    InterpolateMacros ("select ".toList ++ "$__time(".toList ++ "log_time".toList ++
        ")".toList ++ " from t".toList) 0 0 =
      "select ".toList ++ "to_unixtime(".toList ++ "log_time".toList ++ ") as time".toList ++
        " from t".toList :=
  ⟨⟨by decide, by decide, by decide, by decide, by decide⟩,
    C2_time_expansion "select ".toList "log_time".toList " from t".toList 0 0 (by decide)
      (by decide) (by decide) (by decide) (by decide)⟩

/-- C3: `$__timeGroup(c, 'i')` alone, without a fill argument, becomes
`time_series(c, 'i', '%Y-%m-%d %H:%i:%s', '0')`. -/
theorem C3_timeGroup_default_fill (c i : Str) (from_ to_ : Int) (hne : c ≠ [])
    (hcomma : ',' ∉ c) (hc : '$' ∉ c) (htrim : Trimmed c) (hi : i ≠ []) (hq : '\'' ∉ i)
    (hid : '$' ∉ i) :
    InterpolateMacros ("$__timeGroup(".toList ++ c ++ ", '".toList ++ i ++ "')".toList)
        from_ to_ =
      "time_series(".toList ++ c ++ ", '".toList ++ i ++
        "', '%Y-%m-%d %H:%i:%s', '0')".toList := by
  have e : "$__timeGroup(".toList ++ c ++ ", '".toList ++ i ++ "')".toList =
      [] ++ ('$' :: ("__timeGroup(".toList ++ (c ++ (", '".toList ++ (i ++ "')".toList))))) := by
    simp
  have e' : ([] : Str) ++ ('$' :: ("__timeGroup(".toList ++ (c ++ (", '".toList ++
      (i ++ "')".toList))))) = [] ++ ("$__timeGroup(".toList ++ (c ++ (", '".toList ++
      (i ++ ("'".toList ++ (")".toList ++ [])))))) := rfl
  have hrest : '$' ∉ c ++ (", '".toList ++ (i ++ "')".toList)) :=
    List.not_mem_append hc (List.not_mem_append (by decide) (List.not_mem_append hid (by decide)))
  have p1 := string_pass_foreign dollar_timeReg "to_unixtime($1) as time".toList []
    "__timeGroup(".toList _ (by simp) (by decide) hrest
    (timeReg_none "$__timeGroup(".toList _ rfl rfl)
  have p2 := func_pass_foreign dollar_timeFilterReg (timeFilterRepl from_ to_) []
    "__timeGroup(".toList _ (by simp) (by decide) hrest
    (timeFilterReg_none "$__timeGroup(".toList _ rfl rfl)
  have p3 := timeGroup_pass_one [] c i [] hne hcomma htrim.head hi hq (by simp) (by simp)
  have hout : '$' ∉ [] ++ (timeSeries c i "'0'".toList ++ []) := by
    rw [List.nil_append, List.append_nil]
    exact List.not_mem_append (by decide) (List.not_mem_append hc (List.not_mem_append
      (by decide) (List.not_mem_append hid (List.not_mem_append (by decide) (by decide)))))
  simp only [InterpolateMacros]
  rw [e, p1, p2, e', p3, timeGroupAlias_pass_plain _ _ hout]
  simp [timeSeries]

theorem C3_timeGroup_default_fill_witness :
    ("ts".toList ≠ [] ∧ ',' ∉ "ts".toList ∧ '$' ∉ "ts".toList ∧ Trimmed "ts".toList ∧
      "5m".toList ≠ [] ∧ '\'' ∉ "5m".toList ∧ '$' ∉ "5m".toList) ∧
    InterpolateMacros ("$__timeGroup(".toList ++ "ts".toList ++ ", '".toList ++ "5m".toList ++
        "')".toList) 0 0 =
      "time_series(".toList ++ "ts".toList ++ ", '".toList ++ "5m".toList ++
        "', '%Y-%m-%d %H:%i:%s', '0')".toList :=
  ⟨⟨by decide, by decide, by decide, by decide, by decide, by decide, by decide⟩,
    C3_timeGroup_default_fill "ts".toList "5m".toList 0 0 (by decide) (by decide) (by decide)
      (by decide) (by decide) (by decide) (by decide)⟩

/-- C4: with a fill argument that is an ASCII case variant of a recognised
keyword, `$__timeGroup(c, 'i', f)` becomes `time_series(c, 'i', '%Y-%m-%d %H:%i:%s', L)`
where `L` is `'null'` for `null`, `'last'` for `previous` and `'0'` for `0`. -/
theorem C4_timeGroup_keyword_fill (c i f kw lit : Str) (from_ to_ : Int) (hne : c ≠ [])
    (hcomma : ',' ∉ c) (hc : '$' ∉ c) (htrim : Trimmed c) (hi : i ≠ []) (hq : '\'' ∉ i)
    (hid : '$' ∉ i) (hkw : (kw, lit) ∈ fillKeywords) (hf : CaseVariant f kw) :
    InterpolateMacros ("$__timeGroup(".toList ++ c ++ ", '".toList ++ i ++ "', ".toList ++ f ++
        ")".toList) from_ to_ =
      "time_series(".toList ++ c ++ ", '".toList ++ i ++ "', '%Y-%m-%d %H:%i:%s', ".toList ++
        lit ++ ")".toList := by
  have key : ∀ k : Str, k ≠ [] → (∀ y ∈ k, FillRune y y ∧ FillRune y y.toUpper) →
      CaseVariant f k →
      InterpolateMacros ("$__timeGroup(".toList ++ c ++ ", '".toList ++ i ++ "', ".toList ++
        f ++ ")".toList) from_ to_ =
      timeSeries c i
        (if k = "null".toList then "'null'".toList
         else if k = "previous".toList then "'last'".toList
         else if k = "0".toList then "'0'".toList
         else "'".toList ++ f ++ "'".toList) := by
    intro k hk0 hk hfk
    obtain ⟨hl, hr⟩ := caseVariant_runes k hk f hfk
    have h := interpolate_timeGroup_fill c i f from_ to_ hne hcomma hc htrim hi hq hid
      (caseVariant_ne_nil f k hfk hk0) (fun hx => (hr _ hx).2.1 rfl) (fun hx => (hr _ hx).1 rfl)
      (trimmed_of_no_space f (fun x hx => (hr x hx).2.2))
    rw [hl] at h
    exact h
  simp only [fillKeywords, List.mem_cons, Prod.mk.injEq, List.mem_singleton,
    List.not_mem_nil, or_false] at hkw
  rcases hkw with ⟨rfl, rfl⟩ | ⟨rfl, rfl⟩ | ⟨rfl, rfl⟩
  · rw [key _ (by decide) (by decide) hf, if_pos rfl]
    simp [timeSeries]
  · rw [key _ (by decide) (by decide) hf, if_neg (by decide), if_pos rfl]
    simp [timeSeries]
  · rw [key _ (by decide) (by decide) hf, if_neg (by decide), if_neg (by decide), if_pos rfl]
    simp [timeSeries]

theorem C4_timeGroup_keyword_fill_witness :
    ("ts".toList ≠ [] ∧ ',' ∉ "ts".toList ∧ '$' ∉ "ts".toList ∧ Trimmed "ts".toList ∧
      "5m".toList ≠ [] ∧ '\'' ∉ "5m".toList ∧ '$' ∉ "5m".toList ∧
      ("previous".toList, "'last'".toList) ∈ fillKeywords ∧
      CaseVariant "PreViouS".toList "previous".toList) ∧
    InterpolateMacros ("$__timeGroup(".toList ++ "ts".toList ++ ", '".toList ++ "5m".toList ++
        "', ".toList ++ "PreViouS".toList ++ ")".toList) 0 0 =
      "time_series(".toList ++ "ts".toList ++ ", '".toList ++ "5m".toList ++
        "', '%Y-%m-%d %H:%i:%s', ".toList ++ "'last'".toList ++ ")".toList :=
  have hv : CaseVariant "PreViouS".toList "previous".toList := by
    simp [CaseVariant, Char.toUpper]
  ⟨⟨by decide, by decide, by decide, by decide, by decide, by decide, by decide, by decide, hv⟩,
    C4_timeGroup_keyword_fill "ts".toList "5m".toList "PreViouS".toList "previous".toList
      "'last'".toList 0 0 (by decide) (by decide) (by decide) (by decide) (by decide)
      (by decide) (by decide) (by decide) hv⟩

/-- C5: a fill argument that is no recognised keyword is wrapped in single
quotes, its runes and letter case unchanged. -/
theorem C5_timeGroup_custom_fill (c i f : Str) (from_ to_ : Int) (hne : c ≠ [])
    (hcomma : ',' ∉ c) (hc : '$' ∉ c) (htrim : Trimmed c) (hi : i ≠ []) (hq : '\'' ∉ i)
    (hid : '$' ∉ i) (hf : f ≠ []) (hfp : ')' ∉ f) (hfd : '$' ∉ f) (hft : Trimmed f)
    (h1 : ToLower f ≠ "null".toList) (h2 : ToLower f ≠ "previous".toList)
    (h3 : ToLower f ≠ "0".toList) :
    InterpolateMacros ("$__timeGroup(".toList ++ c ++ ", '".toList ++ i ++ "', ".toList ++ f ++
        ")".toList) from_ to_ =
      "time_series(".toList ++ c ++ ", '".toList ++ i ++ "', '%Y-%m-%d %H:%i:%s', '".toList ++
        f ++ "')".toList := by
  rw [interpolate_timeGroup_fill c i f from_ to_ hne hcomma hc htrim hi hq hid hf hfp hfd hft,
    if_neg h1, if_neg h2, if_neg h3]
  simp [timeSeries]

theorem C5_timeGroup_custom_fill_witness :
    ("ts".toList ≠ [] ∧ ',' ∉ "ts".toList ∧ '$' ∉ "ts".toList ∧ Trimmed "ts".toList ∧
      "5m".toList ≠ [] ∧ '\'' ∉ "5m".toList ∧ '$' ∉ "5m".toList ∧
      "Custom 1".toList ≠ [] ∧ ')' ∉ "Custom 1".toList ∧ '$' ∉ "Custom 1".toList ∧
      Trimmed "Custom 1".toList ∧ ToLower "Custom 1".toList ≠ "null".toList ∧
      ToLower "Custom 1".toList ≠ "previous".toList ∧
      ToLower "Custom 1".toList ≠ "0".toList) ∧
    InterpolateMacros ("$__timeGroup(".toList ++ "ts".toList ++ ", '".toList ++ "5m".toList ++
        "', ".toList ++ "Custom 1".toList ++ ")".toList) 0 0 =
      "time_series(".toList ++ "ts".toList ++ ", '".toList ++ "5m".toList ++
        "', '%Y-%m-%d %H:%i:%s', '".toList ++ "Custom 1".toList ++ "')".toList :=
  ⟨⟨by decide, by decide, by decide, by decide, by decide, by decide, by decide, by decide,
      by decide, by decide, by decide, by decide, by decide, by decide⟩,
    C5_timeGroup_custom_fill "ts".toList "5m".toList "Custom 1".toList 0 0 (by decide)
      (by decide) (by decide) (by decide) (by decide) (by decide) (by decide) (by decide)
      (by decide) (by decide) (by decide) (by decide) (by decide) (by decide)⟩

/-- C6: `$__timeGroupAlias(c, 'i')` alone becomes
`time_series(c, 'i', '%Y-%m-%d %H:%i:%s', '0') as time`, and the `$__timeGroup`
pass, run on the invocation, does not rewrite it. -/
theorem C6_timeGroupAlias_expansion (c i : Str) (from_ to_ : Int) (hne : c ≠ [])
    (hcomma : ',' ∉ c) (hc : '$' ∉ c) (htrim : Trimmed c) (hi : i ≠ []) (hq : '\'' ∉ i)
    (hid : '$' ∉ i) :
    InterpolateMacros ("$__timeGroupAlias(".toList ++ c ++ ", '".toList ++ i ++ "')".toList)
        from_ to_ =
      "time_series(".toList ++ c ++ ", '".toList ++ i ++
        "', '%Y-%m-%d %H:%i:%s', '0') as time".toList ∧
    timeGroupReg.ReplaceAllStringFunc
        ("$__timeGroupAlias(".toList ++ c ++ ", '".toList ++ i ++ "')".toList) timeGroupRepl =
      "$__timeGroupAlias(".toList ++ c ++ ", '".toList ++ i ++ "')".toList := by
  have e : "$__timeGroupAlias(".toList ++ c ++ ", '".toList ++ i ++ "')".toList =
      [] ++ ('$' :: ("__timeGroupAlias(".toList ++ (c ++ (", '".toList ++ (i ++ "')".toList)))))
      := by
    simp
  have e' : ([] : Str) ++ ('$' :: ("__timeGroupAlias(".toList ++ (c ++ (", '".toList ++
      (i ++ "')".toList))))) = [] ++ ("$__timeGroupAlias(".toList ++ (c ++ (", '".toList ++
      (i ++ ("'".toList ++ (")".toList ++ [])))))) := rfl
  have hrest : '$' ∉ c ++ (", '".toList ++ (i ++ "')".toList)) :=
    List.not_mem_append hc (List.not_mem_append (by decide) (List.not_mem_append hid (by decide)))
  have p1 := string_pass_foreign dollar_timeReg "to_unixtime($1) as time".toList []
    "__timeGroupAlias(".toList _ (by simp) (by decide) hrest
    (timeReg_none "$__timeGroupAlias(".toList _ rfl rfl)
  have p2 := func_pass_foreign dollar_timeFilterReg (timeFilterRepl from_ to_) []
    "__timeGroupAlias(".toList _ (by simp) (by decide) hrest
    (timeFilterReg_none "$__timeGroupAlias(".toList _ rfl rfl)
  have p3 := func_pass_foreign dollar_timeGroupReg timeGroupRepl []
    "__timeGroupAlias(".toList _ (by simp) (by decide) hrest
    (timeGroupReg_none "$__timeGroupAlias(".toList _ rfl rfl)
  have p4 := timeGroupAlias_pass_one [] c i [] hne hcomma htrim.head hi hq (by simp) (by simp)
  refine ⟨?_, ?_⟩
  · simp only [InterpolateMacros]
    rw [e, p1, p2, p3, e', p4]
    simp
  · rw [e, p3]

theorem C6_timeGroupAlias_expansion_witness :
    ("ts".toList ≠ [] ∧ ',' ∉ "ts".toList ∧ '$' ∉ "ts".toList ∧ Trimmed "ts".toList ∧
      "1h".toList ≠ [] ∧ '\'' ∉ "1h".toList ∧ '$' ∉ "1h".toList) ∧
    (InterpolateMacros ("$__timeGroupAlias(".toList ++ "ts".toList ++ ", '".toList ++
        "1h".toList ++ "')".toList) 0 0 =
      "time_series(".toList ++ "ts".toList ++ ", '".toList ++ "1h".toList ++
        "', '%Y-%m-%d %H:%i:%s', '0') as time".toList ∧
    timeGroupReg.ReplaceAllStringFunc ("$__timeGroupAlias(".toList ++ "ts".toList ++
        ", '".toList ++ "1h".toList ++ "')".toList) timeGroupRepl =
      "$__timeGroupAlias(".toList ++ "ts".toList ++ ", '".toList ++ "1h".toList ++
        "')".toList) :=
  ⟨⟨by decide, by decide, by decide, by decide, by decide, by decide, by decide⟩,
    C6_timeGroupAlias_expansion "ts".toList "1h".toList 0 0 (by decide) (by decide) (by decide)
      (by decide) (by decide) (by decide) (by decide)⟩

/-- C8: a query with a `$__timeGroup` invocation and a `$__timeFilter`
invocation, in either order and between texts without a dollar sign, has both
expanded, each as it is expanded alone. -/
theorem C8_two_macros (t0 t1 t2 c1 c2 i : Str) (from_ to_ : Int) (h0 : '$' ∉ t0)
    (h1 : '$' ∉ t1) (h2 : '$' ∉ t2) (hc1 : Token c1) (hc2 : Token c2) (hi : i ≠ [])
    (hq : '\'' ∉ i) (hid : '$' ∉ i) :
    InterpolateMacros (t0 ++ "$__timeGroup(".toList ++ c1 ++ ", '".toList ++ i ++ "')".toList ++
        t1 ++ "$__timeFilter(".toList ++ c2 ++ ")".toList ++ t2) from_ to_ =
      t0 ++ "time_series(".toList ++ c1 ++ ", '".toList ++ i ++
        "', '%Y-%m-%d %H:%i:%s', '0')".toList ++ t1 ++ c2 ++ " >= ".toList ++ fmtInt from_ ++
        " AND ".toList ++ c2 ++ " < ".toList ++ fmtInt to_ ++ t2 ∧
    InterpolateMacros (t0 ++ "$__timeFilter(".toList ++ c2 ++ ")".toList ++ t1 ++
        "$__timeGroup(".toList ++ c1 ++ ", '".toList ++ i ++ "')".toList ++ t2) from_ to_ =
      t0 ++ c2 ++ " >= ".toList ++ fmtInt from_ ++ " AND ".toList ++ c2 ++ " < ".toList ++
        fmtInt to_ ++ t1 ++ "time_series(".toList ++ c1 ++ ", '".toList ++ i ++
        "', '%Y-%m-%d %H:%i:%s', '0')".toList ++ t2 := by
  constructor
  · have e : t0 ++ "$__timeGroup(".toList ++ c1 ++ ", '".toList ++ i ++ "')".toList ++
        t1 ++ "$__timeFilter(".toList ++ c2 ++ ")".toList ++ t2 =
        t0 ++ ("$__timeGroup(".toList ++ (c1 ++ (", '".toList ++ (i ++
          ("'".toList ++ (")".toList ++ (t1 ++ ("$__timeFilter(".toList ++ (c2 ++
            (")".toList ++ t2)))))))))) := by
      simp
    rw [e, interpolate_group_filter t0 t1 t2 c1 c2 i from_ to_ h0 h1 h2 hc1 hc2 hi hq hid]
    simp [timeSeries, timeRange]
  · have e : t0 ++ "$__timeFilter(".toList ++ c2 ++ ")".toList ++ t1 ++
        "$__timeGroup(".toList ++ c1 ++ ", '".toList ++ i ++ "')".toList ++ t2 =
        t0 ++ ("$__timeFilter(".toList ++ (c2 ++ (")".toList ++ (t1 ++
          ("$__timeGroup(".toList ++ (c1 ++ (", '".toList ++ (i ++ ("'".toList ++
            (")".toList ++ t2)))))))))) := by
      simp
    rw [e, interpolate_filter_group t0 t1 t2 c1 c2 i from_ to_ h0 h1 h2 hc1 hc2 hi hq hid]
    simp [timeSeries, timeRange]

theorem C8_two_macros_witness :
    ('$' ∉ "select ".toList ∧ '$' ∉ " from t where ".toList ∧ '$' ∉ " limit 9".toList ∧
      Token "ts".toList ∧ Token "__time__".toList ∧ "5m".toList ≠ [] ∧ '\'' ∉ "5m".toList ∧
      '$' ∉ "5m".toList) ∧
    (InterpolateMacros ("select ".toList ++ "$__timeGroup(".toList ++ "ts".toList ++
        ", '".toList ++ "5m".toList ++ "')".toList ++ " from t where ".toList ++
        "$__timeFilter(".toList ++ "__time__".toList ++ ")".toList ++ " limit 9".toList) 10 (-20) =
      "select ".toList ++ "time_series(".toList ++ "ts".toList ++ ", '".toList ++ "5m".toList ++
        "', '%Y-%m-%d %H:%i:%s', '0')".toList ++ " from t where ".toList ++ "__time__".toList ++
        " >= ".toList ++ fmtInt 10 ++ " AND ".toList ++ "__time__".toList ++ " < ".toList ++
        fmtInt (-20) ++ " limit 9".toList ∧
    InterpolateMacros ("select ".toList ++ "$__timeFilter(".toList ++ "__time__".toList ++
        ")".toList ++ " from t where ".toList ++ "$__timeGroup(".toList ++ "ts".toList ++
        ", '".toList ++ "5m".toList ++ "')".toList ++ " limit 9".toList) 10 (-20) =
      "select ".toList ++ "__time__".toList ++ " >= ".toList ++ fmtInt 10 ++ " AND ".toList ++
        "__time__".toList ++ " < ".toList ++ fmtInt (-20) ++ " from t where ".toList ++
        "time_series(".toList ++ "ts".toList ++ ", '".toList ++ "5m".toList ++
        "', '%Y-%m-%d %H:%i:%s', '0')".toList ++ " limit 9".toList) :=
  ⟨⟨by decide, by decide, by decide, by decide, by decide, by decide, by decide, by decide⟩,
    C8_two_macros "select ".toList " from t where ".toList " limit 9".toList "ts".toList
      "__time__".toList "5m".toList 10 (-20) (by decide) (by decide) (by decide) (by decide)
      (by decide) (by decide) (by decide) (by decide)⟩

/-- C7: a query that does not contain the text `$__` is returned as it is. -/
theorem C7_no_macro_identity (query : Str) (from_ to_ : Int)
    (h : ¬ "$__".toList <:+: query) : InterpolateMacros query from_ to_ = query :=
  interpolate_id_of_no_infix "$__".toList query from_ to_ (by decide) h

theorem C7_no_macro_identity_witness :
    ¬ "$__".toList <:+: "select $ _x from t".toList ∧
      InterpolateMacros "select $ _x from t".toList 5 7 = "select $ _x from t".toList :=
  ⟨by decide, C7_no_macro_identity _ 5 7 (by decide)⟩

/-- C9, as stated, fails: the column argument of the pattern reaches up to the
first comma and may cross a closing parenthesis, so a later well-formed
invocation lends its comma and interval to the malformed one, which is then
rewritten from its name on. -/
theorem C9_counterexample :
    ("a".toList ≠ [] ∧ (∀ x ∈ "a".toList, x ≠ ',' ∧ x ≠ '(' ∧ x ≠ ')' ∧ x ≠ '$') ∧
      '$' ∉ "1+".toList) ∧
    InterpolateMacros ("1+".toList ++ "$__timeGroup(".toList ++ "a".toList ++ ")".toList ++
        "+$__timeGroup(b,'5m')".toList) 0 0 =
      "1+time_series(a)+$__timeGroup(b, '5m', '%Y-%m-%d %H:%i:%s', '0')".toList ∧
    ¬ ("$__timeGroup(".toList ++ "a".toList ++ ")".toList <:+:
      InterpolateMacros ("1+".toList ++ "$__timeGroup(".toList ++ "a".toList ++
        ")".toList ++ "+$__timeGroup(b,'5m')".toList) 0 0) := by
  decide

/-- C9, amended: a `$__timeGroup` invocation closed behind a column without a
comma is still found, whole, in the output when the text behind it has no
comma, or has no dollar sign and does not complete the argument list, or, in
general, when the text that the `$__time` and `$__timeFilter` passes make of
it does not complete the argument list (`Completes`: behind the first comma
come white space, a non-empty interval in single quotes, and the end of a
well-formed argument list). -/
theorem C9_malformed_timeGroup_kept (pre c suf : Str) (from_ to_ : Int) (_hne : c ≠ [])
    (hc : ∀ x ∈ c, x ≠ ',' ∧ x ≠ '(' ∧ x ≠ ')' ∧ x ≠ '$') (hpre : '$' ∉ pre)
    (hsuf : ',' ∉ suf ∨ ('$' ∉ suf ∧ ¬ Completes suf) ∨
      ¬ Completes (runPasses from_ to_ [Pass.time, Pass.timeFilter] suf)) :
    "$__timeGroup(".toList ++ c ++ ")".toList <:+:
      InterpolateMacros (pre ++ "$__timeGroup(".toList ++ c ++ ")".toList ++ suf) from_ to_ := by
  have hgen : ¬ Completes (runPasses from_ to_ [Pass.time, Pass.timeFilter] suf) := by
    rcases hsuf with h | ⟨hd, h⟩ | h
    · exact fun hcp => first_passes_no_comma suf from_ to_ h hcp.comma
    · rw [runPasses_plain from_ to_ _ suf hd]
      exact h
    · exact h
  obtain ⟨suf', h⟩ := interpolate_keeps_incomplete pre c suf from_ to_ hpre
    (fun hx => (hc _ hx).2.2.2 rfl) (fun hx => (hc _ hx).1 rfl) hgen
  have e : pre ++ "$__timeGroup(".toList ++ c ++ ")".toList ++ suf =
      pre ++ ("$__timeGroup(".toList ++ (c ++ (")".toList ++ suf))) := by simp
  rw [e, h]
  exact ⟨pre, suf', by simp⟩

theorem C9_malformed_timeGroup_kept_witness :
    ("ts".toList ≠ [] ∧ (∀ x ∈ "ts".toList, x ≠ ',' ∧ x ≠ '(' ∧ x ≠ ')' ∧ x ≠ '$') ∧
      '$' ∉ "select ".toList ∧
      (',' ∉ ", count(*) from t where $__timeFilter(t)".toList ∨
        ('$' ∉ ", count(*) from t where $__timeFilter(t)".toList ∧
          ¬ Completes ", count(*) from t where $__timeFilter(t)".toList) ∨
        ¬ Completes (runPasses 3 4 [Pass.time, Pass.timeFilter]
          ", count(*) from t where $__timeFilter(t)".toList))) ∧
    "$__timeGroup(".toList ++ "ts".toList ++ ")".toList <:+:
      InterpolateMacros ("select ".toList ++ "$__timeGroup(".toList ++ "ts".toList ++
        ")".toList ++ ", count(*) from t where $__timeFilter(t)".toList) 3 4 :=
  ⟨⟨by decide, by decide, by decide, Or.inr (Or.inr incomplete_example)⟩,
    C9_malformed_timeGroup_kept "select ".toList "ts".toList
      ", count(*) from t where $__timeFilter(t)".toList 3 4
      (by decide) (by decide) (by decide) (Or.inr (Or.inr incomplete_example))⟩

/-- C10, as stated, fails: a column text may hold an invocation of `$__time`,
which the first pass expands. -/
theorem C10_counterexample :
    (',' ∉ "$__time(x".toList ∧ ')' ∉ "$__time(x".toList) ∧
    InterpolateMacros ("$__timeGroup(".toList ++ "$__time(x".toList ++ ")".toList) 0 0 =
      "$__timeGroup(to_unixtime(x) as time".toList ∧
    InterpolateMacros ("$__timeGroup(".toList ++ "$__time(x".toList ++ ")".toList) 0 0 ≠
      "$__timeGroup(".toList ++ "$__time(x".toList ++ ")".toList := by
  decide

/-- C10, amended: a lone `$__timeGroup(c)` whose argument has no comma, no
closing parenthesis and no dollar sign is returned as it is. -/
theorem C10_lone_timeGroup_unchanged (c : Str) (from_ to_ : Int) (hcomma : ',' ∉ c)
    (_hparen : ')' ∉ c) (hd : '$' ∉ c) :
    InterpolateMacros ("$__timeGroup(".toList ++ c ++ ")".toList) from_ to_ =
      "$__timeGroup(".toList ++ c ++ ")".toList := by
  have hm : '$' ∉ "__timeGroup(".toList ++ (c ++ ")".toList) :=
    List.not_mem_append (by decide) (List.not_mem_append hd (by decide))
  have e : "$__timeGroup(".toList ++ c ++ ")".toList =
      [] ++ ('$' :: (("__timeGroup(".toList ++ (c ++ ")".toList)) ++ [])) := by simp
  have hk : ',' ∉ '$' :: (("__timeGroup(".toList ++ (c ++ ")".toList)) ++ []) := by
    have h1 : ',' ∉ ("__timeGroup(".toList ++ (c ++ ")".toList)) ++ [] :=
      List.not_mem_append (List.not_mem_append (by decide)
        (List.not_mem_append hcomma (by decide))) (by simp)
    intro hmem
    rcases List.mem_cons.1 hmem with h | h
    · cases h
    · exact h1 h
  have p1 := string_pass_foreign dollar_timeReg "to_unixtime($1) as time".toList [] _ []
    (by simp) hm (by simp)
    (timeReg_none "$__timeGroup(".toList ((c ++ ")".toList) ++ []) rfl rfl)
  have p2 := func_pass_foreign dollar_timeFilterReg (timeFilterRepl from_ to_) [] _ []
    (by simp) hm (by simp)
    (timeFilterReg_none "$__timeGroup(".toList ((c ++ ")".toList) ++ []) rfl rfl)
  have p3 := replaceAll_id_of_no_comma dollar_timeGroupReg timeGroupReg_none_of_no_comma
    (fun m _ => timeGroupRepl m) [] _ (by simp) hk
  have p4 := replaceAll_id_of_no_comma dollar_timeGroupAliasReg
    timeGroupAliasReg_none_of_no_comma (fun m _ => timeGroupAliasRepl m) [] _ (by simp) hk
  simp only [InterpolateMacros]
  rw [e, p1, p2]
  simp only [Regexp.ReplaceAllStringFunc]
  rw [p3, p4]

theorem C10_lone_timeGroup_unchanged_witness :
    (',' ∉ "ts".toList ∧ ')' ∉ "ts".toList ∧ '$' ∉ "ts".toList) ∧
    InterpolateMacros ("$__timeGroup(".toList ++ "ts".toList ++ ")".toList) 0 0 =
      "$__timeGroup(".toList ++ "ts".toList ++ ")".toList :=
  ⟨⟨by decide, by decide, by decide⟩,
    C10_lone_timeGroup_unchanged "ts".toList 0 0 (by decide) (by decide) (by decide)⟩

/-- C14: macro names are matched with their exact letter case: a query that
does not contain the text `$__time` is returned as it is, and so are
`$__Time(x)`, `$__TIMEFILTER(x)` and `$__timegroup(x, '5m')`. -/
theorem C14_case_sensitive_names (query : Str) (from_ to_ : Int)
    (h : ¬ "$__time".toList <:+: query) :
    InterpolateMacros query from_ to_ = query ∧
    InterpolateMacros "$__Time(x)".toList from_ to_ = "$__Time(x)".toList ∧
    InterpolateMacros "$__TIMEFILTER(x)".toList from_ to_ = "$__TIMEFILTER(x)".toList ∧
    InterpolateMacros "$__timegroup(x, '5m')".toList from_ to_ =
      "$__timegroup(x, '5m')".toList := by
  refine ⟨ interpolate_id_of_no_infix "$__time".toList query from_ to_ (List.prefix_refl _) h,
    interpolate_id_of_no_infix "$__time".toList _ from_ to_ (List.prefix_refl _) (by decide),
    interpolate_id_of_no_infix "$__time".toList _ from_ to_ (List.prefix_refl _) (by decide),
    ?_⟩
  have p1 := string_pass_foreign dollar_timeReg "to_unixtime($1) as time".toList []
    "__timegroup(x, '5m')".toList [] (by simp) (by decide) (by simp)
    (timeReg_none "$__timeg".toList "roup(x, '5m')".toList rfl rfl)
  have p2 := func_pass_foreign dollar_timeFilterReg (timeFilterRepl from_ to_) []
    "__timegroup(x, '5m')".toList [] (by simp) (by decide) (by simp)
    (timeFilterReg_none "$__timeg".toList "roup(x, '5m')".toList rfl rfl)
  have p3 := func_pass_foreign dollar_timeGroupReg timeGroupRepl []
    "__timegroup(x, '5m')".toList [] (by simp) (by decide) (by simp)
    (timeGroupReg_none "$__timeg".toList "roup(x, '5m')".toList rfl rfl)
  have p4 := func_pass_foreign dollar_timeGroupAliasReg timeGroupAliasRepl []
    "__timegroup(x, '5m')".toList [] (by simp) (by decide) (by simp)
    (timeGroupAliasReg_none "$__timeg".toList "roup(x, '5m')".toList rfl rfl)
  have e : "$__timegroup(x, '5m')".toList =
      [] ++ ('$' :: ("__timegroup(x, '5m')".toList ++ [])) := rfl
  simp only [InterpolateMacros]
  rw [e, p1, p2, p3, p4]

theorem C14_case_sensitive_names_witness :
    ¬ "$__time".toList <:+: "select $__Time(x), $__tim".toList ∧
    (InterpolateMacros "select $__Time(x), $__tim".toList 1 2 =
        "select $__Time(x), $__tim".toList ∧
      InterpolateMacros "$__Time(x)".toList 1 2 = "$__Time(x)".toList ∧
      InterpolateMacros "$__TIMEFILTER(x)".toList 1 2 = "$__TIMEFILTER(x)".toList ∧
      InterpolateMacros "$__timegroup(x, '5m')".toList 1 2 = "$__timegroup(x, '5m')".toList) :=
  ⟨by decide, C14_case_sensitive_names "select $__Time(x), $__tim".toList 1 2 (by decide)⟩

/-- C16: the argument of `$__time` and of `$__timeFilter` is required: with an
empty argument list, between texts without a dollar sign, the invocation is
left as it is. -/
theorem C16_empty_argument_unchanged (pre suf : Str) (from_ to_ : Int) (hpre : '$' ∉ pre)
    (hsuf : '$' ∉ suf) :
    InterpolateMacros (pre ++ "$__time()".toList ++ suf) from_ to_ =
      pre ++ "$__time()".toList ++ suf ∧
    InterpolateMacros (pre ++ "$__timeFilter()".toList ++ suf) from_ to_ =
      pre ++ "$__timeFilter()".toList ++ suf := by
  have e1 : pre ++ "$__time()".toList ++ suf = pre ++ ('$' :: ("__time()".toList ++ suf)) := by
    simp
  have e2 : pre ++ "$__timeFilter()".toList ++ suf =
      pre ++ ('$' :: ("__timeFilter()".toList ++ suf)) := by
    simp
  rw [e1, e2]
  exact ⟨interpolate_time_empty pre suf from_ to_ hpre hsuf,
    interpolate_timeFilter_empty pre suf from_ to_ hpre hsuf⟩

theorem C16_empty_argument_unchanged_witness :
    ('$' ∉ "select ".toList ∧ '$' ∉ " x)".toList) ∧
    InterpolateMacros ("select ".toList ++ "$__time()".toList ++ " x)".toList) 1 2 =
      "select ".toList ++ "$__time()".toList ++ " x)".toList ∧
    InterpolateMacros ("select ".toList ++ "$__timeFilter()".toList ++ " x)".toList) 1 2 =
      "select ".toList ++ "$__timeFilter()".toList ++ " x)".toList :=
  ⟨⟨by decide, by decide⟩,
    C16_empty_argument_unchanged "select ".toList " x)".toList 1 2 (by decide) (by decide)⟩

/-- C19: in each callback the pattern, run again on the matched text alone,
matches that text whole and binds the same groups as in the query (this holds
for any pattern), so the branches of the three callbacks that return the match
as it is are never taken. -/
theorem C19_rematch_succeeds (r : Regexp) (s rest : Str) (c : Caps)
    (h : r.matchAt s = some (rest, c)) :
    r.FindStringSubmatch (s.take (s.length - rest.length)) =
      s.take (s.length - rest.length) :: r.groups c ∧
    (r = timeFilterReg →
      (timeFilterReg.FindStringSubmatch (s.take (s.length - rest.length))).length = 2) ∧
    (r = timeGroupReg →
      ¬ (timeGroupReg.FindStringSubmatch (s.take (s.length - rest.length))).length < 3) ∧
    (r = timeGroupAliasReg →
      ¬ (timeGroupAliasReg.FindStringSubmatch (s.take (s.length - rest.length))).length < 3) := by
  have key := findSubmatch_rematch r s rest c h
  refine ⟨key, ?_, ?_, ?_⟩
  · intro e
    subst e
    rw [key]
    rfl
  · intro e
    subst e
    rw [key]
    simp [Regexp.groups, timeGroupReg]
  · intro e
    subst e
    rw [key]
    simp [Regexp.groups, timeGroupAliasReg]

theorem C19_rematch_succeeds_witness :
    timeGroupReg.matchAt "$__timeGroup(a, 'b', c) d".toList =
      some (" d".toList, [(3, "c".toList), (2, "b".toList), (1, "a".toList)]) ∧
    (timeGroupReg.FindStringSubmatch ("$__timeGroup(a, 'b', c) d".toList.take
        ("$__timeGroup(a, 'b', c) d".toList.length - " d".toList.length)) =
      "$__timeGroup(a, 'b', c) d".toList.take
        ("$__timeGroup(a, 'b', c) d".toList.length - " d".toList.length) ::
        timeGroupReg.groups [(3, "c".toList), (2, "b".toList), (1, "a".toList)] ∧
    (timeGroupReg = timeFilterReg →
      (timeFilterReg.FindStringSubmatch ("$__timeGroup(a, 'b', c) d".toList.take
        ("$__timeGroup(a, 'b', c) d".toList.length - " d".toList.length))).length = 2) ∧
    (timeGroupReg = timeGroupReg →
      ¬ (timeGroupReg.FindStringSubmatch ("$__timeGroup(a, 'b', c) d".toList.take
        ("$__timeGroup(a, 'b', c) d".toList.length - " d".toList.length))).length < 3) ∧
    (timeGroupReg = timeGroupAliasReg →
      ¬ (timeGroupAliasReg.FindStringSubmatch ("$__timeGroup(a, 'b', c) d".toList.take
        ("$__timeGroup(a, 'b', c) d".toList.length - " d".toList.length))).length < 3)) :=
  ⟨by decide,
    C19_rematch_succeeds timeGroupReg "$__timeGroup(a, 'b', c) d".toList " d".toList
      [(3, "c".toList), (2, "b".toList), (1, "a".toList)] (by decide)⟩

/-- C13 does not hold on the code: the column group `[^,]+` is greedy and
takes the spaces in front of the comma, which the `\s*` behind the group was
meant to drop, so the column is emitted with its trailing space. -/
theorem C13_trailing_space_kept :
    InterpolateMacros ("$__timeGroup(".toList ++ "".toList ++ "ts".toList ++ " ".toList ++
        ", '".toList ++ "5m".toList ++ "')".toList) 0 0 =
      "time_series(ts , '5m', '%Y-%m-%d %H:%i:%s', '0')".toList ∧
    InterpolateMacros ("$__timeGroup(".toList ++ "".toList ++ "ts".toList ++ " ".toList ++
        ", '".toList ++ "5m".toList ++ "')".toList) 0 0 ≠
      "time_series(".toList ++ "ts".toList ++ ", '".toList ++ "5m".toList ++
        "', '%Y-%m-%d %H:%i:%s', '0')".toList := by
  decide

/-- C15: `$__timeGroupAlias` takes no fill argument: an invocation with a
third argument is returned as it is. -/
theorem C15_alias_third_argument (c i f : Str) (from_ to_ : Int) (_hne : c ≠ [])
    (hcomma : ',' ∉ c) (hc : '$' ∉ c) (_hi : i ≠ []) (hq : '\'' ∉ i) (hid : '$' ∉ i)
    (_hf : f ≠ []) (hfd : '$' ∉ f) :
    InterpolateMacros ("$__timeGroupAlias(".toList ++ c ++ ", '".toList ++ i ++ "', ".toList ++
        f ++ ")".toList) from_ to_ =
      "$__timeGroupAlias(".toList ++ c ++ ", '".toList ++ i ++ "', ".toList ++ f ++
        ")".toList := by
  have e : "$__timeGroupAlias(".toList ++ c ++ ", '".toList ++ i ++ "', ".toList ++ f ++
      ")".toList = '$' :: ("__timeGroupAlias(".toList ++
      (c ++ ',' :: ' ' :: '\'' :: (i ++ '\'' :: ',' :: (" ".toList ++ (f ++ ")".toList))))) := by
    simp
  rw [e]
  exact interpolate_alias_third c i _ from_ to_ hcomma hc hq hid
    (List.not_mem_append (by decide) (List.not_mem_append hfd (by decide)))

theorem C15_alias_third_argument_witness :
    ("ts".toList ≠ [] ∧ ',' ∉ "ts".toList ∧ '$' ∉ "ts".toList ∧ "1h".toList ≠ [] ∧
      '\'' ∉ "1h".toList ∧ '$' ∉ "1h".toList ∧ "null".toList ≠ [] ∧ '$' ∉ "null".toList) ∧
    InterpolateMacros ("$__timeGroupAlias(".toList ++ "ts".toList ++ ", '".toList ++
        "1h".toList ++ "', ".toList ++ "null".toList ++ ")".toList) 0 0 =
      "$__timeGroupAlias(".toList ++ "ts".toList ++ ", '".toList ++ "1h".toList ++
        "', ".toList ++ "null".toList ++ ")".toList :=
  ⟨⟨by decide, by decide, by decide, by decide, by decide, by decide, by decide, by decide⟩,
    C15_alias_third_argument "ts".toList "1h".toList "null".toList 0 0 (by decide) (by decide)
      (by decide) (by decide) (by decide) (by decide) (by decide) (by decide)⟩

/-- C18: a third `$__timeGroup` argument made of one or more spaces is not an
absent fill: the emitted fill literal is the empty quoted text `''`. -/
theorem C18_fill_of_spaces (c i : Str) (n : Nat) (from_ to_ : Int) (hne : c ≠ [])
    (hcomma : ',' ∉ c) (hc : '$' ∉ c) (htrim : Trimmed c) (hi : i ≠ []) (hq : '\'' ∉ i)
    (hid : '$' ∉ i) (hn : 1 ≤ n) :
    InterpolateMacros ("$__timeGroup(".toList ++ c ++ ", '".toList ++ i ++ "',".toList ++
        List.replicate n ' ' ++ ")".toList) from_ to_ =
      "time_series(".toList ++ c ++ ", '".toList ++ i ++
        "', '%Y-%m-%d %H:%i:%s', '')".toList := by
  obtain ⟨m, rfl⟩ : ∃ m, n = m + 1 := ⟨n - 1, by omega⟩
  have e : "$__timeGroup(".toList ++ c ++ ", '".toList ++ i ++ "',".toList ++
      List.replicate (m + 1) ' ' ++ ")".toList =
      "$__timeGroup(".toList ++ (c ++ (", '".toList ++ (i ++
      ("'".toList ++ (",".toList ++ (List.replicate (m + 1) ' ' ++ (")".toList ++ []))))))) := by
    simp
  rw [e, interpolate_timeGroup_spaces c i m from_ to_ hne hcomma hc htrim hi hq hid]
  simp [timeSeries]

theorem C18_fill_of_spaces_witness :
    ("ts".toList ≠ [] ∧ ',' ∉ "ts".toList ∧ '$' ∉ "ts".toList ∧ Trimmed "ts".toList ∧
      "5m".toList ≠ [] ∧ '\'' ∉ "5m".toList ∧ '$' ∉ "5m".toList ∧ 1 ≤ 3) ∧
    InterpolateMacros ("$__timeGroup(".toList ++ "ts".toList ++ ", '".toList ++ "5m".toList ++
        "',".toList ++ List.replicate 3 ' ' ++ ")".toList) 0 0 =
      "time_series(".toList ++ "ts".toList ++ ", '".toList ++ "5m".toList ++
        "', '%Y-%m-%d %H:%i:%s', '')".toList :=
  ⟨⟨by decide, by decide, by decide, by decide, by decide, by decide, by decide, by decide⟩,
    C18_fill_of_spaces "ts".toList "5m".toList 3 0 0 (by decide) (by decide) (by decide)
      (by decide) (by decide) (by decide) (by decide) (by decide)⟩

/-- C17: the time range reaches the output through `$__timeFilter` only: for a
query without the text `$__timeFilter(` the output is the same for all bounds,
and the `$__time` pass brings no `$__timeFilter(` into the query. -/
theorem C17_range_only_through_timeFilter (q : Str) (from_ to_ from' to' : Int)
    (h : ¬ "$__timeFilter(".toList <:+: q) :
    InterpolateMacros q from_ to_ = InterpolateMacros q from' to' ∧
    ¬ "$__timeFilter(".toList <:+:
      timeReg.ReplaceAllString q "to_unixtime($1) as time".toList := by
  refine ⟨interpolate_range_free q from_ to_ from' to' h, ?_⟩
  intro hin
  obtain ⟨u, hu1, hu2⟩ := List.infix_iff_prefix_suffix.1 hin
  exact time_pass_no_filter q.length q (le_refl _) h u hu2 hu1

theorem C17_range_only_through_timeFilter_witness :
    ¬ "$__timeFilter(".toList <:+: "$__time(a) $__timeFilter b".toList ∧
    (InterpolateMacros "$__time(a) $__timeFilter b".toList 1 2 =
        InterpolateMacros "$__time(a) $__timeFilter b".toList (-3) 4 ∧
      ¬ "$__timeFilter(".toList <:+:
        timeReg.ReplaceAllString "$__time(a) $__timeFilter b".toList
          "to_unixtime($1) as time".toList) :=
  ⟨by decide,
    C17_range_only_through_timeFilter "$__time(a) $__timeFilter b".toList 1 2 (-3) 4
      (by decide)⟩

/-- C11, as stated, fails: with one `$__time` invocation inside the argument of
another, the first call expands the outer one only, and the second call then
expands the inner one, so the output of the first call is not a fixed point. -/
theorem C11_counterexample :
    InterpolateMacros "$__time($__time(a))".toList 0 0 =
      "to_unixtime($__time(a) as time)".toList ∧
    InterpolateMacros (InterpolateMacros "$__time($__time(a))".toList 0 0) 0 0 =
      "to_unixtime(to_unixtime(a) as time as time)".toList ∧
    InterpolateMacros (InterpolateMacros "$__time($__time(a))".toList 0 0) 0 0 ≠
      InterpolateMacros "$__time($__time(a))".toList 0 0 := by
  decide

/-- C11, amended: when the query can be cut into independent pieces (no macro
inside the text of another), or when the output of the first call no longer
contains the text `$__time`, feeding the output back in leaves it unchanged. -/
theorem C11_fixed_point (q : Str) (from_ to_ : Int)
    (h : Separable q ∨ ¬ "$__time".toList <:+: InterpolateMacros q from_ to_) :
    InterpolateMacros (InterpolateMacros q from_ to_) from_ to_ =
      InterpolateMacros q from_ to_ := by
  rcases h with h | h
  · exact interpolate_fixed_separable from_ to_ q h
  · exact interpolate_id_of_no_infix "$__time".toList _ from_ to_ (List.prefix_refl _) h

theorem C11_fixed_point_witness :
    (Separable "select $__time(a) from t where $__timeFilter(b) limit 9".toList ∨
      ¬ "$__time".toList <:+:
        InterpolateMacros "select $__time(a) from t where $__timeFilter(b) limit 9".toList
          1 2) ∧
    InterpolateMacros
        (InterpolateMacros "select $__time(a) from t where $__timeFilter(b) limit 9".toList
          1 2) 1 2 =
      InterpolateMacros "select $__time(a) from t where $__timeFilter(b) limit 9".toList 1 2 :=
  ⟨Or.inl separable_example,
    C11_fixed_point "select $__time(a) from t where $__timeFilter(b) limit 9".toList 1 2
      (Or.inl separable_example)⟩

/-- C12, as stated, fails: with a `$__timeFilter` invocation inside the argument
of `$__time`, running the `$__timeFilter` pass first gives another string than
the order of the source. -/
theorem C12_counterexample :
    [Pass.timeFilter, Pass.time, Pass.timeGroup, Pass.timeGroupAlias].Perm sourceOrder ∧
    runPasses 1 2 [Pass.timeFilter, Pass.time, Pass.timeGroup, Pass.timeGroupAlias]
        "$__time($__timeFilter(a))".toList =
      "to_unixtime(a >= 1 AND a < 2) as time".toList ∧
    InterpolateMacros "$__time($__timeFilter(a))".toList 1 2 =
      "to_unixtime(a >= 1 AND a < 2 as time)".toList ∧
    runPasses 1 2 [Pass.timeFilter, Pass.time, Pass.timeGroup, Pass.timeGroupAlias]
        "$__time($__timeFilter(a))".toList ≠
      InterpolateMacros "$__time($__timeFilter(a))".toList 1 2 := by
  refine ⟨List.Perm.swap _ _ _, ?_, ?_, ?_⟩ <;> decide

/-- C12, amended: when the query can be cut into independent pieces (no macro
inside the text of another), the four passes applied in any order give the
string that the order of the source gives. -/
theorem C12_order_immaterial (q : Str) (from_ to_ : Int) (l : List Pass)
    (hq : Separable q) (hl : l.Perm sourceOrder) :
    runPasses from_ to_ l q = InterpolateMacros q from_ to_ := by
  apply runPasses_separable from_ to_ q hq l
  intro p
  apply hl.mem_iff.2
  cases p <;> decide

theorem C12_order_immaterial_witness :
    (Separable "select $__time(a) from t where $__timeFilter(b) limit 9".toList ∧
      [Pass.timeGroupAlias, Pass.timeGroup, Pass.timeFilter, Pass.time].Perm sourceOrder) ∧
    runPasses 1 2 [Pass.timeGroupAlias, Pass.timeGroup, Pass.timeFilter, Pass.time]
        "select $__time(a) from t where $__timeFilter(b) limit 9".toList =
      InterpolateMacros "select $__time(a) from t where $__timeFilter(b) limit 9".toList 1 2 :=
  ⟨⟨separable_example, (List.reverse_perm sourceOrder)⟩,
    C12_order_immaterial "select $__time(a) from t where $__timeFilter(b) limit 9".toList 1 2
      [Pass.timeGroupAlias, Pass.timeGroup, Pass.timeFilter, Pass.time]
      separable_example (List.reverse_perm sourceOrder)⟩
